import Mathlib

/-!
Robin Hood hash table (`src/hashmap.h`): shallow embedding and verification

The C++ class `HashMap<KeyType, ValueType, Hash>` is embedded as a record with
the data members `elements_count_` and `arr_`.

Modelling decisions, all visible in the definitions below:

* `arr_` (a `std::vector<std::unique_ptr<PairType>>`) is a list of optional
  pairs; a null pointer is `none`.  The unchecked access `arr_[i]` is
  `slot arr_ i`.
* `hasher_` is the explicit parameter `hash : K → Nat` of the operations.  No
  member function assigns `hasher_`, so each table keeps the functor it was
  constructed with; `Reachable hash t` records it.  Two tables of one program
  may have different functors, and `operator=` between them is part of
  `Reachable`.
* `size_t` values are natural numbers; no operation of the class reaches `2^64`
  on a table that fits in memory.
* Key equality `==` is Lean equality on `K` (decidable).
* `(double) elements_count_ / arr_.size() >= 0.5` is `2 * count ≥ size` and
  `(double) elements_count_ / arr_.size() <= 0` is `count = 0`; the double
  division is exact enough for every size below `2^53`.
* The `while (true)` loops and the recursion `insert → try_extend → resize →
  insert` take a `fuel` argument and return `none` when it runs out; every
  theorem that says an operation returns a result states the fuel that is
  enough.
-/

set_option linter.unusedSectionVars false
set_option linter.unusedVariables false

namespace RobinHood

variable {K V : Type} [DecidableEq K]

/-- The data members `elements_count_` and `arr_` of `HashMap` (`hasher_` is a
parameter of the operations). -/
structure HashMap (K V : Type) where
  elements_count_ : Nat
  arr_ : List (Option (K × V))

/-- Constant `MIN_SIZE`. -/
def MIN_SIZE : Nat := 8

/-- Unchecked element access `arr_[i]`; a null pointer is `none`. -/
def slot (arr_ : List (Option (K × V))) (i : Nat) : Option (K × V) :=
  arr_.getD i none

/-- Member `gen_place`: `hasher_(el) % arr_.size()`; `cap` is `arr_.size()`. -/
def gen_place (hash : K → Nat) (cap : Nat) (el : K) : Nat :=
  hash el % cap

/-- Member `nextIndex`: `if (++a == arr_.size()) a = 0; return a;`; `cap` is
`arr_.size()`. -/
def nextIndex (cap : Nat) (a : Nat) : Nat :=
  if a + 1 = cap then 0 else a + 1

/-- Member `distance`: circular distance from `beg` forward to `end`; `cap` is
`arr_.size()`. -/
def distance (cap : Nat) (beg end_ : Nat) : Nat :=
  if end_ ≥ beg then end_ - beg else cap - beg + end_

/-- Library `std::vector::resize(n)`: truncate, or pad with null pointers. -/
def vector_resize (v : List (Option (K × V))) (n : Nat) : List (Option (K × V)) :=
  v.take n ++ List.replicate (n - v.length) none

/-- The probe loop of `insert` (lines 108-127).  `el` and `target` are the
local variables that a Robin Hood swap updates. -/
def insertLoop (hash : K → Nat) :
    Nat → HashMap K V → K × V → Nat → Nat → Option (HashMap K V)
  | 0, _, _, _, _ => none
  | fuel + 1, m, el, target, current =>
    match slot m.arr_ current with
    | some o =>
      if hash o.1 = hash el.1 ∧ o.1 = el.1 then some m
      else
        if distance m.arr_.length (gen_place hash m.arr_.length o.1) current < distance m.arr_.length target current then
          insertLoop hash fuel { m with arr_ := m.arr_.set current (some el) } o
            (gen_place hash m.arr_.length o.1) (nextIndex m.arr_.length current)
        else
          insertLoop hash fuel m el target (nextIndex m.arr_.length current)
    | none =>
      some { elements_count_ := m.elements_count_ + 1, arr_ := m.arr_.set current (some el) }

/-- The loop `for (auto &ptr : temp_arr) if (ptr) insert(*ptr)` shared by `resize`
and the copy constructor; `ins` is the member `insert`. -/
def reinsert (ins : HashMap K V → K × V → Option (HashMap K V)) :
    List (Option (K × V)) → HashMap K V → Option (HashMap K V)
  | [], acc => some acc
  | none :: rest, acc => reinsert ins rest acc
  | some p :: rest, acc => (ins acc p).bind (reinsert ins rest)

/-- Member `resize`, with the recursive call to `insert` passed as `ins`. -/
def resize (ins : HashMap K V → K × V → Option (HashMap K V)) (m : HashMap K V)
    (new_size : Nat) : Option (HashMap K V) :=
  reinsert ins m.arr_ { elements_count_ := 0, arr_ := vector_resize [] new_size }

/-- Member `try_extend`. -/
def try_extend (ins : HashMap K V → K × V → Option (HashMap K V)) (m : HashMap K V) :
    Option (HashMap K V) :=
  if 2 * m.elements_count_ ≥ m.arr_.length then resize ins m (2 * m.arr_.length) else some m

/-- Member `try_shrink`. -/
def try_shrink (ins : HashMap K V → K × V → Option (HashMap K V)) (m : HashMap K V) :
    Option (HashMap K V) :=
  if m.elements_count_ = 0 ∧ m.arr_.length > MIN_SIZE then resize ins m (m.arr_.length / 2)
  else some m

/-- Member `insert`. -/
def insert (hash : K → Nat) : Nat → HashMap K V → K × V → Option (HashMap K V)
  | 0, _, _ => none
  | fuel + 1, m, el =>
    (try_extend (insert hash fuel) m).bind fun m1 =>
      insertLoop hash fuel m1 el (gen_place hash m1.arr_.length el.1) (gen_place hash m1.arr_.length el.1)

/-- The loop of `find` (lines 239-248); the result is the `pos` of the iterator,
`arr_.size()` for `end()`. -/
def findLoop (hash : K → Nat) : Nat → HashMap K V → K → Nat → Option Nat
  | 0, _, _, _ => none
  | fuel + 1, m, el, current =>
    match slot m.arr_ current with
    | some o =>
      if hash o.1 = hash el ∧ o.1 = el then some current
      else findLoop hash fuel m el (nextIndex m.arr_.length current)
    | none => some m.arr_.length

/-- Member `find` (both overloads run the same loop). -/
def find (hash : K → Nat) (fuel : Nat) (m : HashMap K V) (el : K) : Option Nat :=
  findLoop hash fuel m el (gen_place hash m.arr_.length el)

/-- The backward-shift loop of `erase` (lines 135-146). -/
def eraseLoop (hash : K → Nat) : Nat → HashMap K V → Nat → Option (HashMap K V)
  | 0, _, _ => none
  | fuel + 1, m, current =>
    match slot m.arr_ (nextIndex m.arr_.length current) with
    | some boyNextDoor =>
      if gen_place hash m.arr_.length boyNextDoor.1 ≠ nextIndex m.arr_.length current then
        eraseLoop hash fuel
          { m with arr_ := (m.arr_.set current (some boyNextDoor)).set (nextIndex m.arr_.length current)
                              (slot m.arr_ current) }
          (nextIndex m.arr_.length current)
      else
        some { elements_count_ := m.elements_count_ - 1, arr_ := m.arr_.set current none }
    | none =>
      some { elements_count_ := m.elements_count_ - 1, arr_ := m.arr_.set current none }

/-- Member `erase`. -/
def erase (hash : K → Nat) (fuel : Nat) (m : HashMap K V) (key : K) : Option (HashMap K V) :=
  (try_shrink (insert hash fuel) m).bind fun m1 =>
    (find hash fuel m1 key).bind fun current =>
      if current ≥ m1.arr_.length then some m1 else eraseLoop hash fuel m1 current

/-- Members `size` and `empty`. -/
def size (m : HashMap K V) : Nat := m.elements_count_

/-- Member `empty`. -/
def empty (m : HashMap K V) : Bool := decide (m.elements_count_ = 0)

/-- The only error of the class: `std::out_of_range` thrown by `at`. -/
inductive Error where
  | out_of_range
  deriving DecidableEq

/-- Member `at`.  The outer `none` is "no result" (fuel ran out, or the iterator
returned by `find` would point at a null slot, which `find` never returns). -/
def at_ (hash : K → Nat) (fuel : Nat) (m : HashMap K V) (el : K) : Option (Except Error V) :=
  (find hash fuel m el).bind fun it =>
    if it = m.arr_.length then some (Except.error Error.out_of_range)
    else (slot m.arr_ it).map fun p => Except.ok p.2

/-- Member `operator[]`: the table afterwards and the slot index whose `second`
the returned reference designates. -/
def subscript [Inhabited V] (hash : K → Nat) (fuel : Nat) (m : HashMap K V) (el : K) :
    Option (Nat × HashMap K V) :=
  (find hash fuel m el).bind fun it =>
    if it = m.arr_.length then
      (insert hash fuel m (el, default)).bind fun m1 =>
        (find hash fuel m1 el).map fun it1 => (it1, m1)
    else some (it, m)

/-- Reading through the reference returned by `operator[]`. -/
def read_ref (m : HashMap K V) (pos : Nat) : Option V :=
  (slot m.arr_ pos).map Prod.snd

/-- Writing `v` through the reference returned by `operator[]` (`m[k] = v`). -/
def write_ref (m : HashMap K V) (pos : Nat) (v : V) : HashMap K V :=
  match slot m.arr_ pos with
  | some p => { m with arr_ := m.arr_.set pos (some (p.1, v)) }
  | none => m

/-- Member `clear`. -/
def clear (m : HashMap K V) : HashMap K V :=
  { elements_count_ := 0, arr_ := vector_resize (m.arr_.map fun _ => none) MIN_SIZE }

/-- The test `arr_ == a.arr_` of `operator=`: vectors of `unique_ptr` are compared
pointer by pointer, and pointers owned by two tables are equal only when both are
null.  (On self-assignment the test is true as well; there both branches of
`operator=` give the same table.) -/
def arr_ptr_eq (x y : List (Option (K × V))) : Bool :=
  decide (x.length = y.length) && x.all Option.isNone && y.all Option.isNone

/-- Member `operator=`: the table `self` after `self = a`. -/
def assign (self a : HashMap K V) : HashMap K V :=
  if arr_ptr_eq self.arr_ a.arr_ then self
  else
    { elements_count_ := a.elements_count_,
      arr_ := a.arr_.map fun ptr => match ptr with
        | some p => some p
        | none => none }

/-- Default constructor `HashMap(Hash h = Hash())`. -/
def HashMap.new : HashMap K V :=
  { elements_count_ := 0, arr_ := vector_resize [] MIN_SIZE }

/-- Copy constructor `HashMap(const HashMap &a, Hash h = Hash())`. -/
def copy_construct (hash : K → Nat) (fuel : Nat) (a : HashMap K V) : Option (HashMap K V) :=
  reinsert (insert hash fuel) a.arr_ HashMap.new

/-- The loop `for (i = beg; i != end; ++i) insert(*i)` of the range and
initializer-list constructors. -/
def insert_range (ins : HashMap K V → K × V → Option (HashMap K V)) :
    List (K × V) → HashMap K V → Option (HashMap K V)
  | [], acc => some acc
  | p :: rest, acc => (ins acc p).bind (insert_range ins rest)

/-- Range constructor and initializer-list constructor. -/
def range_construct (hash : K → Nat) (fuel : Nat) (l : List (K × V)) : Option (HashMap K V) :=
  insert_range (insert hash fuel) l HashMap.new

/-- Tables that a program can build, with the hash functor `hash` they were
constructed with.  No member function assigns `hasher_`, so a table keeps its
functor for life: a constructor (the copy constructor reads a table built with any
functor `hash0` and uses its own) followed by any sequence of `insert`, `erase`,
`operator[]` (with or without a write through the returned reference), `clear` and
assignment from a table built with any functor `hash0` (`operator=` copies the
slot array and the count, not `hasher_`). -/
inductive Reachable [Inhabited V] : (K → Nat) → HashMap K V → Prop
  | default_ctor {hash : K → Nat} : Reachable hash HashMap.new
  | copy_ctor {hash hash0 : K → Nat} (fuel : Nat) (a t : HashMap K V) :
      Reachable hash0 a → copy_construct hash fuel a = some t → Reachable hash t
  | range_ctor {hash : K → Nat} (fuel : Nat) (l : List (K × V)) (t : HashMap K V) :
      range_construct hash fuel l = some t → Reachable hash t
  | insert {hash : K → Nat} (fuel : Nat) (t t1 : HashMap K V) (el : K × V) :
      Reachable hash t → insert hash fuel t el = some t1 → Reachable hash t1
  | erase {hash : K → Nat} (fuel : Nat) (t t1 : HashMap K V) (key : K) :
      Reachable hash t → erase hash fuel t key = some t1 → Reachable hash t1
  | subscript {hash : K → Nat} (fuel : Nat) (t t1 : HashMap K V) (key : K) (pos : Nat) :
      Reachable hash t → subscript hash fuel t key = some (pos, t1) → Reachable hash t1
  | subscript_write {hash : K → Nat} (fuel : Nat) (t t1 : HashMap K V) (key : K) (pos : Nat)
      (v : V) :
      Reachable hash t → subscript hash fuel t key = some (pos, t1) →
      Reachable hash (write_ref t1 pos v)
  | clear {hash : K → Nat} (t : HashMap K V) : Reachable hash t → Reachable hash (clear t)
  | assign {hash hash0 : K → Nat} (self a : HashMap K V) :
      Reachable hash self → Reachable hash0 a → Reachable hash (assign self a)

/-- The reachable tables in whose history every assignment `self = a` had a source
`a` built with the functor of `self` (always the case when `Hash` is stateless, as
`std::hash`).  The copy constructor may still read a table built with any functor:
it re-inserts every pair with its own. -/
inductive ReachableSame [Inhabited V] (hash : K → Nat) : HashMap K V → Prop
  | default_ctor : ReachableSame hash HashMap.new
  | copy_ctor {hash0 : K → Nat} (fuel : Nat) (a t : HashMap K V) :
      Reachable hash0 a → copy_construct hash fuel a = some t → ReachableSame hash t
  | range_ctor (fuel : Nat) (l : List (K × V)) (t : HashMap K V) :
      range_construct hash fuel l = some t → ReachableSame hash t
  | insert (fuel : Nat) (t t1 : HashMap K V) (el : K × V) :
      ReachableSame hash t → insert hash fuel t el = some t1 → ReachableSame hash t1
  | erase (fuel : Nat) (t t1 : HashMap K V) (key : K) :
      ReachableSame hash t → erase hash fuel t key = some t1 → ReachableSame hash t1
  | subscript (fuel : Nat) (t t1 : HashMap K V) (key : K) (pos : Nat) :
      ReachableSame hash t → subscript hash fuel t key = some (pos, t1) → ReachableSame hash t1
  | subscript_write (fuel : Nat) (t t1 : HashMap K V) (key : K) (pos : Nat) (v : V) :
      ReachableSame hash t → subscript hash fuel t key = some (pos, t1) →
      ReachableSame hash (write_ref t1 pos v)
  | clear (t : HashMap K V) : ReachableSame hash t → ReachableSame hash (clear t)
  | assign (self a : HashMap K V) :
      ReachableSame hash self → ReachableSame hash a → ReachableSame hash (assign self a)

/-! ## Traversal -/

/-- Member `first_non_empty`: `while (a != arr_.size() && !arr_[a]) ++a; return a;`. -/
def first_non_empty : Nat → HashMap K V → Nat → Option Nat
  | 0, _, _ => none
  | fuel + 1, m, a =>
    if a ≠ m.arr_.length ∧ (slot m.arr_ a).isNone then first_non_empty fuel m (a + 1)
    else some a

/-- Member `end`: the position `arr_.size()`. -/
def end_ (m : HashMap K V) : Nat := m.arr_.length

/-- Member `begin`: `if (empty()) return end(); return iterator(this, first_non_empty(0));`. -/
def begin (fuel : Nat) (m : HashMap K V) : Option Nat :=
  if empty m then some (end_ m) else first_non_empty fuel m 0

/-- Member `iterator::operator++`: `++pos; pos = map->first_non_empty(pos);`. -/
def increment (fuel : Nat) (m : HashMap K V) (pos : Nat) : Option Nat :=
  first_non_empty fuel m (pos + 1)

/-- The loop `for (; it != end(); ++it)`: the positions the iterator stops on. -/
def traverseFrom : Nat → HashMap K V → Nat → Option (List Nat)
  | 0, _, _ => none
  | fuel + 1, m, pos =>
    if pos = end_ m then some []
    else (increment fuel m pos).bind fun nxt => (traverseFrom fuel m nxt).map fun rest => pos :: rest

/-- Traversal `for (it = begin(); it != end(); ++it)`. -/
def traverse (fuel : Nat) (m : HashMap K V) : Option (List Nat) :=
  (begin fuel m).bind (traverseFrom fuel m)

/-- The indices of the occupied slots from `a` on, in increasing order. -/
def occupied_from (A : List (Option (K × V))) (a : Nat) : List Nat :=
  (List.range' a (A.length - a)).filter fun i => (slot A i).isSome

/-- Probe distance of the pair in slot `i`: `distance(gen_place(key), i)`, `0` for an
empty slot. -/
def probe_distance (hash : K → Nat) (A : List (Option (K × V))) (i : Nat) : Nat :=
  match slot A i with
  | some kv => distance A.length (gen_place hash A.length kv.1) i
  | none => 0

/-- Maximum probe distance over the slots of an array. -/
def max_probe (hash : K → Nat) (A : List (Option (K × V))) : Nat :=
  ((List.range A.length).map (probe_distance hash A)).foldr max 0

/-- The slot reached from slot `e` after `j` applications of `nextIndex`, for
`e < cap` and `j < cap`. -/
def walk_index (cap e j : Nat) : Nat :=
  if e + j < cap then e + j else e + j - cap

/-! ## Invariants -/

/-- Number of non-null slots. -/
def occupied (A : List (Option (K × V))) : Nat :=
  (A.filter Option.isSome).length

/-- Some slot of the array holds the pair `kv`. -/
def Stored (A : List (Option (K × V))) (kv : K × V) : Prop :=
  ∃ i, slot A i = some kv

/-- Some slot of the array holds the key `k`. -/
def HasKey (A : List (Option (K × V))) (k : K) : Prop :=
  ∃ i v, slot A i = some (k, v)

/-- Robin Hood order: a displaced occupant has an occupied predecessor slot whose
occupant is at most one step closer to its own ideal index. -/
def RHOrder (hash : K → Nat) (A : List (Option (K × V))) : Prop :=
  ∀ i, i < A.length → ∀ kv, slot A (nextIndex A.length i) = some kv →
    gen_place hash A.length kv.1 ≠ nextIndex A.length i →
    ∃ kv1, slot A i = some kv1 ∧
      distance A.length (gen_place hash A.length kv.1) (nextIndex A.length i)
        ≤ distance A.length (gen_place hash A.length kv1.1) i + 1

/-- No key is stored in two slots. -/
def UniqueKeys (A : List (Option (K × V))) : Prop :=
  ∀ i j kv kv1, slot A i = some kv → slot A j = some kv1 → kv.1 = kv1.1 → i = j

/-- The pair carried by the probe walk of `insert` may be seated at `cur`: unless
`cur` is the ideal index of its key `k`, the slot before `cur` holds a pair at
most one step closer to its own ideal index. -/
def PrevOK (hash : K → Nat) (A : List (Option (K × V))) (cur : Nat) (k : K) : Prop :=
  gen_place hash A.length k ≠ cur →
    ∃ i kv1, i < A.length ∧ nextIndex A.length i = cur ∧ slot A i = some kv1 ∧
      distance A.length (gen_place hash A.length k) cur
        ≤ distance A.length (gen_place hash A.length kv1.1) i + 1

/-- Robin Hood order of an array with a hole at `cur` (the slot being vacated by
`erase`): the order holds for every pair of neighbouring slots except the hole
and its successor. -/
def RHOrderExcept (hash : K → Nat) (H : List (Option (K × V))) (cur : Nat) : Prop :=
  ∀ i, i < H.length → i ≠ cur → ∀ kv, slot H (nextIndex H.length i) = some kv →
    gen_place hash H.length kv.1 ≠ nextIndex H.length i →
    ∃ kv1, slot H i = some kv1 ∧
      distance H.length (gen_place hash H.length kv.1) (nextIndex H.length i)
        ≤ distance H.length (gen_place hash H.length kv1.1) i + 1

/-- The occupant after the hole may be moved back into it: if it is two or more
steps from home, the slot before the hole holds a pair at most two steps closer
to its own ideal index. -/
def Bridge (hash : K → Nat) (H : List (Option (K × V))) (cur : Nat) : Prop :=
  ∀ kv, slot H (nextIndex H.length cur) = some kv →
    2 ≤ distance H.length (gen_place hash H.length kv.1) (nextIndex H.length cur) →
    ∃ i kv1, i < H.length ∧ nextIndex H.length i = cur ∧ slot H i = some kv1 ∧
      distance H.length (gen_place hash H.length kv.1) (nextIndex H.length cur)
        ≤ distance H.length (gen_place hash H.length kv1.1) i + 2

/-- The part of the representation invariant that does not depend on the hash
functor: it holds in every reachable table. -/
structure SInv (m : HashMap K V) : Prop where
  cap_pow : ∃ e, m.arr_.length = 2 ^ e
  cap_min : MIN_SIZE ≤ m.arr_.length
  count_eq : m.elements_count_ = occupied m.arr_
  load : 2 * m.elements_count_ ≤ m.arr_.length

/-- The full representation invariant of a table with hash functor `hash`: the
layout is consistent with `hash`.  It holds in every table of `ReachableSame`; an
assignment from a table built with another functor can break `order` and, after
later inserts, `uniq`. -/
structure Inv (hash : K → Nat) (m : HashMap K V) : Prop where
  cap_pow : ∃ e, m.arr_.length = 2 ^ e
  cap_min : MIN_SIZE ≤ m.arr_.length
  count_eq : m.elements_count_ = occupied m.arr_
  load : 2 * m.elements_count_ ≤ m.arr_.length
  order : RHOrder hash m.arr_
  uniq : UniqueKeys m.arr_

/-! ## Concrete tables used to instantiate the theorems -/

/-- A hash on natural-number keys: the identity, so keys `1`, `9`, `17` collide
at capacity 8. -/
def exHash : Nat → Nat := fun k => k

/-- A second hash on natural-number keys. -/
def exHash2 : Nat → Nat := fun k => 3 * k + 1

/-- The table built from the list `(1,10), (9,90), (17,170), (2,20)`: four pairs at
capacity 8, three of them displaced. -/
def exTable : HashMap Nat Nat :=
  { elements_count_ := 4,
    arr_ := [none, some (1, 10), some (9, 90), some (17, 170), some (2, 20), none, none, none] }

/-- A third hash on natural-number keys: key `3` hashes to `1`, every other key to
itself. -/
def exHash3 : Nat → Nat := fun k => if k = 3 then 1 else k

/-- The table built with `exHash` from the list `(1,10), (3,30)`. -/
def exPair : HashMap Nat Nat :=
  { elements_count_ := 2,
    arr_ := [none, some (1, 10), none, some (3, 30), none, none, none, none] }

/-- The table built with `exHash` from the list `(1,10), (2,20), (3,30)`. -/
def exTriple : HashMap Nat Nat :=
  { elements_count_ := 3,
    arr_ := [none, some (1, 10), some (2, 20), some (3, 30), none, none, none, none] }

/-- The table `b` after `b = a; b.insert({3, 99})`, where `a` is `exPair` and `b` was
constructed with `exHash2`: key `3` is stored twice. -/
def exDup : HashMap Nat Nat :=
  { elements_count_ := 3,
    arr_ := [none, some (1, 10), some (3, 99), some (3, 30), none, none, none, none] }

/-- The table `exDup` after `insert({1, 11})` with `exHash2`: keys `1` and `3` are both
stored twice. -/
def exDup4 : HashMap Nat Nat :=
  { elements_count_ := 4,
    arr_ := [none, some (1, 10), some (3, 99), some (3, 30), some (1, 11), none, none, none] }

/-- A table with one pair at capacity 8. -/
def exOne : HashMap Nat Nat :=
  { elements_count_ := 1,
    arr_ := [none, none, none, some (3, 30), none, none, none, none] }

/-- An empty table at capacity 16 (five keys inserted, then erased). -/
def exEmpty16 : HashMap Nat Nat :=
  { elements_count_ := 0, arr_ := List.replicate 16 none }

/-! ## Index arithmetic -/

theorem nextIndex_lt {c a : Nat} (h : a < c) : nextIndex c a < c := by
  unfold nextIndex; split_ifs <;> omega

theorem distance_lt {c a b : Nat} (ha : a < c) (hb : b < c) : distance c a b < c := by
  unfold distance; split_ifs <;> omega

theorem distance_self (c a : Nat) : distance c a a = 0 := by
  unfold distance; simp

theorem distance_eq_zero {c a b : Nat} (ha : a < c) (hb : b < c) (h : distance c a b = 0) :
    a = b := by
  unfold distance at h; split_ifs at h <;> omega

theorem distance_pos {c a b : Nat} (ha : a < c) (hb : b < c) (h : a ≠ b) :
    0 < distance c a b := by
  rcases Nat.eq_zero_or_pos (distance c a b) with h0 | h0
  · exact absurd (distance_eq_zero ha hb h0) h
  · exact h0

theorem distance_nextIndex {c a b : Nat} (ha : a < c) (hb : b < c)
    (h : distance c a b + 1 < c) : distance c a (nextIndex c b) = distance c a b + 1 := by
  unfold distance nextIndex at *; split_ifs at * <;> omega

theorem distance_nextIndex_left {c a b : Nat} (ha : a < c) (hb : b < c) (h : a ≠ b) :
    distance c (nextIndex c a) b + 1 = distance c a b := by
  unfold distance nextIndex at *; split_ifs at * <;> omega

theorem nextIndex_ne_self {c a : Nat} (hc : 2 ≤ c) : nextIndex c a ≠ a := by
  unfold nextIndex; split_ifs <;> omega

theorem nextIndex_inj {c a b : Nat} (ha : a < c) (hb : b < c)
    (h : nextIndex c a = nextIndex c b) : a = b := by
  unfold nextIndex at h; split_ifs at h <;> omega

theorem gen_place_lt (hash : K → Nat) {c : Nat} (hc : 0 < c) (k : K) : gen_place hash c k < c :=
  Nat.mod_lt _ hc

/-! ## Slots of an updated array -/

theorem slot_set_eq (A : List (Option (K × V))) {i : Nat} (h : i < A.length)
    (x : Option (K × V)) : slot (A.set i x) i = x := by
  simp [slot, List.getD_eq_getElem?_getD, List.getElem?_set, h]

theorem slot_set_ne (A : List (Option (K × V))) {i j : Nat} (h : i ≠ j)
    (x : Option (K × V)) : slot (A.set i x) j = slot A j := by
  simp [slot, List.getD_eq_getElem?_getD, List.getElem?_set, h]

theorem slot_of_le (A : List (Option (K × V))) {i : Nat} (h : A.length ≤ i) :
    slot A i = none := by
  simp [slot, List.getD_eq_getElem?_getD, List.getElem?_eq_none h]

theorem slot_lt {A : List (Option (K × V))} {i : Nat} {kv : K × V} (h : slot A i = some kv) :
    i < A.length := by
  by_contra hlt
  rw [slot_of_le A (Nat.le_of_not_lt hlt)] at h
  cases h

theorem slot_replicate (n i : Nat) : slot (List.replicate n (none : Option (K × V))) i = none := by
  by_cases h : i < n
  · simp [slot, List.getD_eq_getElem?_getD, List.getElem?_replicate, h]
  · exact slot_of_le _ (by simpa using h)

theorem vector_resize_nil (n : Nat) :
    vector_resize ([] : List (Option (K × V))) n = List.replicate n none := by
  simp [vector_resize]

theorem slot_cons_zero (x : Option (K × V)) (A : List (Option (K × V))) :
    slot (x :: A) 0 = x := rfl

theorem slot_cons_succ (x : Option (K × V)) (A : List (Option (K × V))) (i : Nat) :
    slot (x :: A) (i + 1) = slot A i := rfl

/-! ## Counting occupied slots -/

theorem occupied_nil : occupied ([] : List (Option (K × V))) = 0 := rfl

theorem occupied_cons_none (A : List (Option (K × V))) : occupied (none :: A) = occupied A := by
  simp [occupied]

theorem occupied_cons_some (p : K × V) (A : List (Option (K × V))) :
    occupied (some p :: A) = occupied A + 1 := by
  simp [occupied]

theorem occupied_le_length (A : List (Option (K × V))) : occupied A ≤ A.length :=
  List.length_filter_le _ _

theorem occupied_replicate (n : Nat) : occupied (List.replicate n (none : Option (K × V))) = 0 := by
  induction n with
  | zero => rfl
  | succ n ih => rw [List.replicate_succ, occupied_cons_none, ih]

theorem occupied_set (A : List (Option (K × V))) (i : Nat) (h : i < A.length)
    (x : Option (K × V)) :
    occupied (A.set i x) + (if (slot A i).isSome then 1 else 0)
      = occupied A + (if x.isSome then 1 else 0) := by
  induction A generalizing i with
  | nil => simp at h
  | cons a A ih =>
    cases i with
    | zero =>
      rw [List.set_cons_zero, slot_cons_zero]
      cases a <;> cases x <;> simp [occupied_cons_none, occupied_cons_some]
    | succ i =>
      have h1 : i < A.length := by simpa using h
      have := ih i h1
      rw [List.set_cons_succ, slot_cons_succ]
      cases a
      · simpa [occupied_cons_none] using this
      · simp only [occupied_cons_some]; omega

theorem exists_empty_slot (A : List (Option (K × V))) (h : occupied A < A.length) :
    ∃ e, e < A.length ∧ slot A e = none := by
  induction A with
  | nil => simp at h
  | cons a A ih =>
    cases a with
    | none => exact ⟨0, by simp, rfl⟩
    | some p =>
      rw [occupied_cons_some] at h
      obtain ⟨e, he, hs⟩ := ih (by simpa using h)
      exact ⟨e + 1, by simpa using he, by rw [slot_cons_succ]; exact hs⟩

theorem occupied_eq_zero_iff (A : List (Option (K × V))) :
    occupied A = 0 ↔ ∀ i, slot A i = none := by
  induction A with
  | nil => simp [occupied_nil, slot, List.getD_eq_getElem?_getD]
  | cons a A ih =>
    cases a with
    | none =>
      rw [occupied_cons_none, ih]
      constructor
      · intro h i
        cases i with
        | zero => rfl
        | succ i => rw [slot_cons_succ]; exact h i
      · intro h i
        have := h (i + 1)
        rwa [slot_cons_succ] at this
    | some p =>
      rw [occupied_cons_some]
      constructor
      · intro h; omega
      · intro h
        have := h 0
        rw [slot_cons_zero] at this
        cases this

/-! ## The probe walk and `find` -/

/-- Under the Robin Hood order every slot on the forward walk from the ideal index
of a stored key to the slot that holds it is occupied, by a pair at least as far
from its own ideal index as the walk is long. -/
theorem RHOrder.between {hash : K → Nat} {A : List (Option (K × V))} (hA : RHOrder hash A)
    {p : Nat} {kv : K × V} (hp : slot A p = some kv) :
    ∀ n q, q < A.length → distance A.length q p = n →
      distance A.length (gen_place hash A.length kv.1) q + n
        = distance A.length (gen_place hash A.length kv.1) p →
      ∃ kv1, slot A q = some kv1 ∧
        distance A.length (gen_place hash A.length kv.1) q
          ≤ distance A.length (gen_place hash A.length kv1.1) q := by
  have hpl : p < A.length := slot_lt hp
  have hc : 0 < A.length := by omega
  have hg : gen_place hash A.length kv.1 < A.length := gen_place_lt hash hc _
  intro n
  induction n with
  | zero =>
    intro q hq hd _
    have : q = p := distance_eq_zero hq hpl hd
    subst this
    exact ⟨kv, hp, le_refl _⟩
  | succ n ih =>
    intro q hq hd hsum
    have hqp : q ≠ p := by
      intro h; subst h; rw [distance_self] at hd; omega
    have h1 := distance_nextIndex_left hq hpl hqp
    have hlt := distance_lt hg hpl
    have h2 := distance_nextIndex hg hq (by omega)
    obtain ⟨kv2, hs2, hd2⟩ := ih (nextIndex A.length q) (nextIndex_lt hq) (by omega) (by omega)
    have hne : gen_place hash A.length kv2.1 ≠ nextIndex A.length q := by
      intro h
      rw [h, distance_self] at hd2
      omega
    obtain ⟨kv1, hs1, hd1⟩ := hA q hq kv2 hs2 hne
    exact ⟨kv1, hs1, by omega⟩

theorem findLoop_found (hash : K → Nat) (m : HashMap K V) (hrh : RHOrder hash m.arr_)
    (hu : UniqueKeys m.arr_) {p : Nat} {k : K} {v : V} (hp : slot m.arr_ p = some (k, v)) :
    ∀ n cur, cur < m.arr_.length → distance m.arr_.length cur p = n →
      distance m.arr_.length (gen_place hash m.arr_.length k) cur + n
        = distance m.arr_.length (gen_place hash m.arr_.length k) p →
      ∀ fuel, n < fuel → findLoop hash fuel m k cur = some p := by
  have hpl : p < m.arr_.length := slot_lt hp
  have hc : 0 < m.arr_.length := by omega
  have hg : gen_place hash m.arr_.length k < m.arr_.length := gen_place_lt hash hc _
  intro n
  induction n with
  | zero =>
    intro cur hcur hd _ fuel hfuel
    have : cur = p := distance_eq_zero hcur hpl hd
    subst this
    obtain ⟨f, rfl⟩ : ∃ f, fuel = f + 1 := ⟨fuel - 1, by omega⟩
    simp [findLoop, hp]
  | succ n ih =>
    intro cur hcur hd hsum fuel hfuel
    obtain ⟨f, rfl⟩ : ∃ f, fuel = f + 1 := ⟨fuel - 1, by omega⟩
    have hqp : cur ≠ p := by
      intro h; subst h; rw [distance_self] at hd; omega
    obtain ⟨kv1, hs1, _⟩ := hrh.between hp (n + 1) cur hcur hd hsum
    have hk : kv1.1 ≠ k := fun h => hqp (hu cur p kv1 (k, v) hs1 hp h)
    have h1 := distance_nextIndex_left hcur hpl hqp
    have hlt := distance_lt hg hpl
    have h2 := distance_nextIndex hg hcur (by omega)
    have := ih (nextIndex m.arr_.length cur) (nextIndex_lt hcur) (by omega) (by omega) f (by omega)
    simp [findLoop, hs1, hk, this]

theorem findLoop_absent (hash : K → Nat) (m : HashMap K V) (k : K) (hk : ¬ HasKey m.arr_ k)
    {e : Nat} (he : e < m.arr_.length) (hempty : slot m.arr_ e = none) :
    ∀ n cur, cur < m.arr_.length → distance m.arr_.length cur e = n →
      ∀ fuel, n < fuel → findLoop hash fuel m k cur = some m.arr_.length := by
  intro n
  induction n with
  | zero =>
    intro cur hcur hd fuel hfuel
    have : cur = e := distance_eq_zero hcur he hd
    subst this
    obtain ⟨f, rfl⟩ : ∃ f, fuel = f + 1 := ⟨fuel - 1, by omega⟩
    simp [findLoop, hempty]
  | succ n ih =>
    intro cur hcur hd fuel hfuel
    obtain ⟨f, rfl⟩ : ∃ f, fuel = f + 1 := ⟨fuel - 1, by omega⟩
    have hqp : cur ≠ e := by
      intro h; subst h; rw [distance_self] at hd; omega
    have h1 := distance_nextIndex_left hcur he hqp
    have := ih (nextIndex m.arr_.length cur) (nextIndex_lt hcur) (by omega) f (by omega)
    cases hs : slot m.arr_ cur with
    | none => simp [findLoop, hs]
    | some o =>
      have hne : o.1 ≠ k := fun h => hk ⟨cur, o.2, by rw [hs, ← h]⟩
      simp [findLoop, hs, hne, this]

/-- With the Robin Hood order and unique keys, `find` returns the slot of a stored key. -/
theorem find_of_stored (hash : K → Nat) (m : HashMap K V) (hrh : RHOrder hash m.arr_)
    (hu : UniqueKeys m.arr_) {p : Nat} {k : K} {v : V} (hp : slot m.arr_ p = some (k, v))
    (fuel : Nat) (hfuel : m.arr_.length ≤ fuel) : find hash fuel m k = some p := by
  have hpl : p < m.arr_.length := slot_lt hp
  have hc : 0 < m.arr_.length := by omega
  have hg : gen_place hash m.arr_.length k < m.arr_.length := gen_place_lt hash hc _
  have hlt := distance_lt hg hpl
  refine findLoop_found hash m hrh hu hp _ _ hg rfl ?_ fuel (by omega)
  rw [distance_self]; omega

/-- When some slot is empty, `find` returns the end position for a key that is not stored. -/
theorem find_of_absent (hash : K → Nat) (m : HashMap K V) (k : K) (hk : ¬ HasKey m.arr_ k)
    (hfree : occupied m.arr_ < m.arr_.length)
    (fuel : Nat) (hfuel : m.arr_.length ≤ fuel) : find hash fuel m k = some m.arr_.length := by
  obtain ⟨e, he, hempty⟩ := exists_empty_slot m.arr_ hfree
  have hc : 0 < m.arr_.length := by omega
  have hg : gen_place hash m.arr_.length k < m.arr_.length := gen_place_lt hash hc _
  have hlt := distance_lt hg he
  exact findLoop_absent hash m k hk he hempty _ _ hg rfl fuel (by omega)

/-! ## Updating one slot -/

theorem stored_set {A : List (Option (K × V))} {cur : Nat} (hcur : cur < A.length)
    (x : Option (K × V)) (kv : K × V) :
    Stored (A.set cur x) kv ↔ (∃ j, j ≠ cur ∧ slot A j = some kv) ∨ x = some kv := by
  constructor
  · rintro ⟨j, hj⟩
    by_cases h : j = cur
    · subst h
      rw [slot_set_eq A hcur] at hj
      exact Or.inr hj
    · rw [slot_set_ne A (Ne.symm h)] at hj
      exact Or.inl ⟨j, h, hj⟩
  · rintro (⟨j, hne, hj⟩ | hx)
    · exact ⟨j, by rw [slot_set_ne A (Ne.symm hne)]; exact hj⟩
    · exact ⟨cur, by rw [slot_set_eq A hcur]; exact hx⟩

theorem UniqueKeys.put_some {A : List (Option (K × V))} (hA : UniqueKeys A) {cur : Nat}
    (hcur : cur < A.length) (el : K × V)
    (hfresh : ∀ j kv, j ≠ cur → slot A j = some kv → kv.1 ≠ el.1) :
    UniqueKeys (A.set cur (some el)) := by
  intro i j kv kv1 hi hj hk
  by_cases h1 : i = cur <;> by_cases h2 : j = cur
  · rw [h1, h2]
  · subst h1
    rw [slot_set_eq A hcur] at hi
    rw [slot_set_ne A (Ne.symm h2)] at hj
    cases hi
    exact absurd hk.symm (hfresh j kv1 h2 hj)
  · subst h2
    rw [slot_set_eq A hcur] at hj
    rw [slot_set_ne A (Ne.symm h1)] at hi
    cases hj
    exact absurd hk (hfresh i kv h1 hi)
  · rw [slot_set_ne A (Ne.symm h1)] at hi
    rw [slot_set_ne A (Ne.symm h2)] at hj
    exact hA i j kv kv1 hi hj hk

theorem UniqueKeys.set_none {A : List (Option (K × V))} (hA : UniqueKeys A) (cur : Nat) :
    UniqueKeys (A.set cur none) := by
  intro i j kv kv1 hi hj hk
  have hil := slot_lt hi
  have hjl := slot_lt hj
  simp only [List.length_set] at hil hjl
  have h1 : i ≠ cur := by
    intro h; subst h; rw [slot_set_eq A hil] at hi; cases hi
  have h2 : j ≠ cur := by
    intro h; subst h; rw [slot_set_eq A hjl] at hj; cases hj
  rw [slot_set_ne A (Ne.symm h1)] at hi
  rw [slot_set_ne A (Ne.symm h2)] at hj
  exact hA i j kv kv1 hi hj hk

theorem RHOrder.set_some {hash : K → Nat} {A : List (Option (K × V))} (hA : RHOrder hash A)
    (hc : 2 ≤ A.length) {cur : Nat} (hcur : cur < A.length) (el : K × V)
    (hprev : PrevOK hash A cur el.1)
    (hnext : ∀ kv, slot A (nextIndex A.length cur) = some kv →
      gen_place hash A.length kv.1 ≠ nextIndex A.length cur →
      distance A.length (gen_place hash A.length kv.1) (nextIndex A.length cur)
        ≤ distance A.length (gen_place hash A.length el.1) cur + 1) :
    RHOrder hash (A.set cur (some el)) := by
  intro i hi kv hs hne
  simp only [List.length_set] at *
  by_cases h1 : nextIndex A.length i = cur
  · rw [h1, slot_set_eq A hcur] at hs
    cases hs
    rw [h1] at hne ⊢
    obtain ⟨j, kv1, hj, hnj, hsj, hdj⟩ := hprev hne
    have hji : j = i := nextIndex_inj hj hi (hnj.trans h1.symm)
    subst hji
    have hicur : cur ≠ j := by
      rw [← h1]; exact nextIndex_ne_self hc
    exact ⟨kv1, by rw [slot_set_ne A hicur]; exact hsj, hdj⟩
  · rw [slot_set_ne A (Ne.symm h1)] at hs
    obtain ⟨kv1, hs1, hd1⟩ := hA i hi kv hs hne
    by_cases h2 : i = cur
    · subst h2
      exact ⟨el, slot_set_eq A hcur _, hnext kv hs hne⟩
    · exact ⟨kv1, by rw [slot_set_ne A (Ne.symm h2)]; exact hs1, hd1⟩

/-! ## The probe loop of `insert` -/

/-- A key that is already stored is met by the probe walk before any swap: the
loop returns the table unchanged. -/
theorem insertLoop_present (hash : K → Nat) (m : HashMap K V) (hrh : RHOrder hash m.arr_)
    (hu : UniqueKeys m.arr_) {p : Nat} {k : K} {v : V} (hp : slot m.arr_ p = some (k, v))
    (v2 : V) :
    ∀ n cur, cur < m.arr_.length → distance m.arr_.length cur p = n →
      distance m.arr_.length (gen_place hash m.arr_.length k) cur + n
        = distance m.arr_.length (gen_place hash m.arr_.length k) p →
      ∀ fuel, n < fuel →
        insertLoop hash fuel m (k, v2) (gen_place hash m.arr_.length k) cur = some m := by
  have hpl : p < m.arr_.length := slot_lt hp
  have hc : 0 < m.arr_.length := by omega
  have hg : gen_place hash m.arr_.length k < m.arr_.length := gen_place_lt hash hc _
  intro n
  induction n with
  | zero =>
    intro cur hcur hd _ fuel hfuel
    have : cur = p := distance_eq_zero hcur hpl hd
    subst this
    obtain ⟨f, rfl⟩ : ∃ f, fuel = f + 1 := ⟨fuel - 1, by omega⟩
    simp [insertLoop, hp]
  | succ n ih =>
    intro cur hcur hd hsum fuel hfuel
    obtain ⟨f, rfl⟩ : ∃ f, fuel = f + 1 := ⟨fuel - 1, by omega⟩
    have hqp : cur ≠ p := by
      intro h; subst h; rw [distance_self] at hd; omega
    obtain ⟨kv1, hs1, hd1⟩ := hrh.between hp (n + 1) cur hcur hd hsum
    have hk : kv1.1 ≠ k := fun h => hqp (hu cur p kv1 (k, v) hs1 hp h)
    have h1 := distance_nextIndex_left hcur hpl hqp
    have hlt := distance_lt hg hpl
    have h2 := distance_nextIndex hg hcur (by omega)
    have := ih (nextIndex m.arr_.length cur) (nextIndex_lt hcur) (by omega) (by omega) f (by omega)
    have hns : ¬ distance m.arr_.length (gen_place hash m.arr_.length kv1.1) cur
        < distance m.arr_.length (gen_place hash m.arr_.length k) cur := by
      simp only [] at hd1; omega
    simp [insertLoop, hs1, hk, this, hns]

theorem hasKey_of_slot {A : List (Option (K × V))} {j : Nat} {kv : K × V}
    (h : slot A j = some kv) : HasKey A kv.1 :=
  ⟨j, kv.2, h⟩

/-- Seating a new pair in an empty slot reached by the probe walk. -/
theorem place_ok (hash : K → Nat) {A : List (Option (K × V))} (hrh : RHOrder hash A)
    (hu : UniqueKeys A) (hc : 2 ≤ A.length) {cur : Nat} (hcur : cur < A.length)
    (hs : slot A cur = none) (el : K × V) (habs : ¬ HasKey A el.1)
    (hprev : PrevOK hash A cur el.1) :
    RHOrder hash (A.set cur (some el)) ∧ UniqueKeys (A.set cur (some el)) ∧
      (∀ kv, Stored (A.set cur (some el)) kv ↔ Stored A kv ∨ kv = el) ∧
      occupied (A.set cur (some el)) = occupied A + 1 := by
  refine ⟨?_, ?_, ?_, ?_⟩
  · refine hrh.set_some hc hcur el hprev ?_
    intro kv hkv hne
    obtain ⟨kv1, hs1, _⟩ := hrh cur hcur kv hkv hne
    rw [hs] at hs1; cases hs1
  · refine hu.put_some hcur el ?_
    intro j kv _ hj hk
    exact habs (hk ▸ hasKey_of_slot hj)
  · intro kv
    rw [stored_set hcur]
    constructor
    · rintro (⟨j, _, hj⟩ | h)
      · exact Or.inl ⟨j, hj⟩
      · cases h; exact Or.inr rfl
    · rintro (⟨j, hj⟩ | h)
      · refine Or.inl ⟨j, ?_, hj⟩
        intro hjc; subst hjc; rw [hs] at hj; cases hj
      · exact Or.inr (by rw [h])
  · have := occupied_set A cur hcur (some el)
    simpa [hs] using this

/-- A Robin Hood swap: the carried pair `el` takes the slot of the richer occupant
`o`, which becomes the carried pair. -/
theorem swap_ok (hash : K → Nat) {A : List (Option (K × V))} (hrh : RHOrder hash A)
    (hu : UniqueKeys A) (hc : 2 ≤ A.length) {cur : Nat} (hcur : cur < A.length)
    {o : K × V} (hs : slot A cur = some o) (el : K × V) (habs : ¬ HasKey A el.1)
    (hprev : PrevOK hash A cur el.1)
    (hlt : distance A.length (gen_place hash A.length o.1) cur
      < distance A.length (gen_place hash A.length el.1) cur) :
    RHOrder hash (A.set cur (some el)) ∧ UniqueKeys (A.set cur (some el)) ∧
      ¬ HasKey (A.set cur (some el)) o.1 ∧
      (∀ kv, (Stored (A.set cur (some el)) kv ∨ kv = o) ↔ (Stored A kv ∨ kv = el)) ∧
      occupied (A.set cur (some el)) = occupied A ∧
      PrevOK hash (A.set cur (some el)) (nextIndex A.length cur) o.1 := by
  have hcpos : 0 < A.length := by omega
  refine ⟨?_, ?_, ?_, ?_, ?_, ?_⟩
  · refine hrh.set_some hc hcur el hprev ?_
    intro kv hkv hne
    obtain ⟨kv1, hs1, hd1⟩ := hrh cur hcur kv hkv hne
    rw [hs] at hs1; cases hs1
    omega
  · refine hu.put_some hcur el ?_
    intro j kv _ hj hk
    exact habs (hk ▸ hasKey_of_slot hj)
  · rintro ⟨j, v, hj⟩
    by_cases hjc : j = cur
    · subst hjc
      rw [slot_set_eq A hcur] at hj
      cases hj
      exact habs ⟨j, o.2, hs⟩
    · rw [slot_set_ne A (Ne.symm hjc)] at hj
      exact hjc (hu j cur (o.1, v) o hj hs rfl)
  · intro kv
    rw [stored_set hcur]
    constructor
    · rintro ((⟨j, _, hj⟩ | h) | h)
      · exact Or.inl ⟨j, hj⟩
      · cases h; exact Or.inr rfl
      · exact Or.inl ⟨cur, by rw [hs, h]⟩
    · rintro (⟨j, hj⟩ | h)
      · by_cases hjc : j = cur
        · subst hjc
          rw [hs] at hj; cases hj
          exact Or.inr rfl
        · exact Or.inl (Or.inl ⟨j, hjc, hj⟩)
      · exact Or.inl (Or.inr (by rw [h]))
  · have := occupied_set A cur hcur (some el)
    simpa [hs] using this
  · intro _
    simp only [List.length_set]
    refine ⟨cur, el, hcur, rfl, slot_set_eq A hcur _, ?_⟩
    have hg := gen_place_lt hash hcpos o.1
    have hg2 := gen_place_lt hash hcpos el.1
    have hb := distance_lt hg2 hcur
    have := distance_nextIndex hg hcur (by omega)
    omega

/-- The probe walk for a key that is not stored: it ends within the distance to
the next empty slot, adds exactly the new pair, and keeps the Robin Hood order
and key uniqueness. -/
theorem insertLoop_absent (hash : K → Nat) :
    ∀ n (m : HashMap K V) (el : K × V) (cur e : Nat),
      2 ≤ m.arr_.length → RHOrder hash m.arr_ → UniqueKeys m.arr_ → ¬ HasKey m.arr_ el.1 →
      cur < m.arr_.length → e < m.arr_.length → slot m.arr_ e = none →
      distance m.arr_.length cur e = n →
      distance m.arr_.length (gen_place hash m.arr_.length el.1) cur + n < m.arr_.length →
      PrevOK hash m.arr_ cur el.1 →
      ∀ fuel, n < fuel →
        ∃ A, insertLoop hash fuel m el (gen_place hash m.arr_.length el.1) cur
            = some { elements_count_ := m.elements_count_ + 1, arr_ := A } ∧
          A.length = m.arr_.length ∧ RHOrder hash A ∧ UniqueKeys A ∧
          (∀ kv, Stored A kv ↔ Stored m.arr_ kv ∨ kv = el) ∧
          occupied A = occupied m.arr_ + 1 := by
  intro n
  induction n with
  | zero =>
    intro m el cur e hc hrh hu habs hcur he hempty hd _ hprev fuel hfuel
    have : cur = e := distance_eq_zero hcur he hd
    subst this
    obtain ⟨f, rfl⟩ : ∃ f, fuel = f + 1 := ⟨fuel - 1, by omega⟩
    obtain ⟨h1, h2, h3, h4⟩ := place_ok hash hrh hu hc hcur hempty el habs hprev
    exact ⟨m.arr_.set cur (some el), by simp [insertLoop, hempty], by simp, h1, h2, h3, h4⟩
  | succ n ih =>
    intro m el cur e hc hrh hu habs hcur he hempty hd hsum hprev fuel hfuel
    obtain ⟨f, rfl⟩ : ∃ f, fuel = f + 1 := ⟨fuel - 1, by omega⟩
    have hcpos : 0 < m.arr_.length := by omega
    have hg := gen_place_lt hash hcpos el.1
    have hce : cur ≠ e := by
      intro h; subst h; rw [distance_self] at hd; omega
    have hstep := distance_nextIndex_left hcur he hce
    cases hs : slot m.arr_ cur with
    | none =>
      obtain ⟨h1, h2, h3, h4⟩ := place_ok hash hrh hu hc hcur hs el habs hprev
      exact ⟨m.arr_.set cur (some el), by simp [insertLoop, hs], by simp, h1, h2, h3, h4⟩
    | some o =>
      have hne : o.1 ≠ el.1 := fun h => habs (h ▸ hasKey_of_slot hs)
      have hgo := gen_place_lt hash hcpos o.1
      by_cases hsw : distance m.arr_.length (gen_place hash m.arr_.length o.1) cur
          < distance m.arr_.length (gen_place hash m.arr_.length el.1) cur
      · obtain ⟨h1, h2, h3, h4, h5, h6⟩ := swap_ok hash hrh hu hc hcur hs el habs hprev hsw
        have hnx := distance_nextIndex hgo hcur (by omega)
        have hemp : slot (m.arr_.set cur (some el)) e = none := by
          rw [slot_set_ne _ hce]; exact hempty
        obtain ⟨A, hA, hlen, hrA, huA, hstA, hoA⟩ :=
          ih { m with arr_ := m.arr_.set cur (some el) } o (nextIndex m.arr_.length cur) e
            (by simpa using hc) h1 h2 h3 (by simpa using nextIndex_lt hcur) (by simpa using he)
            hemp (by simp only [List.length_set]; omega)
            (by simp only [List.length_set]; omega) (by simpa using h6) f (by omega)
        simp only [List.length_set] at hA hlen
        refine ⟨A, ?_, hlen, hrA, huA, ?_, by rw [hoA, h5]⟩
        · simp [insertLoop, hs, hne, hsw, hA]
        · intro kv
          rw [hstA kv]
          exact h4 kv
      · have hnx := distance_nextIndex hg hcur (by omega)
        have hprev2 : PrevOK hash m.arr_ (nextIndex m.arr_.length cur) el.1 := by
          intro _
          exact ⟨cur, o, hcur, rfl, hs, by omega⟩
        obtain ⟨A, hA, hlen, hrA, huA, hstA, hoA⟩ :=
          ih m el (nextIndex m.arr_.length cur) e hc hrh hu habs (nextIndex_lt hcur) he hempty
            (by omega) (by omega) hprev2 f (by omega)
        exact ⟨A, by simp [insertLoop, hs, hne, hsw, hA], hlen, hrA, huA, hstA, hoA⟩

theorem insertLoop_start_absent (hash : K → Nat) (m : HashMap K V) (el : K × V)
    (hc : 2 ≤ m.arr_.length) (hrh : RHOrder hash m.arr_) (hu : UniqueKeys m.arr_)
    (habs : ¬ HasKey m.arr_ el.1) (hfree : occupied m.arr_ < m.arr_.length)
    (fuel : Nat) (hfuel : m.arr_.length ≤ fuel) :
    ∃ A, insertLoop hash fuel m el (gen_place hash m.arr_.length el.1)
          (gen_place hash m.arr_.length el.1)
        = some { elements_count_ := m.elements_count_ + 1, arr_ := A } ∧
      A.length = m.arr_.length ∧ RHOrder hash A ∧ UniqueKeys A ∧
      (∀ kv, Stored A kv ↔ Stored m.arr_ kv ∨ kv = el) ∧
      occupied A = occupied m.arr_ + 1 := by
  obtain ⟨e, he, hempty⟩ := exists_empty_slot m.arr_ hfree
  have hg := gen_place_lt hash (by omega : 0 < m.arr_.length) el.1
  have hlt := distance_lt hg he
  refine insertLoop_absent hash _ m el _ e hc hrh hu habs hg he hempty rfl ?_ ?_ fuel (by omega)
  · rw [distance_self]; omega
  · intro h; exact absurd rfl h

theorem insertLoop_start_present (hash : K → Nat) (m : HashMap K V)
    (hrh : RHOrder hash m.arr_) (hu : UniqueKeys m.arr_) {p : Nat} {k : K} {v : V}
    (hp : slot m.arr_ p = some (k, v)) (v2 : V) (fuel : Nat) (hfuel : m.arr_.length ≤ fuel) :
    insertLoop hash fuel m (k, v2) (gen_place hash m.arr_.length k)
      (gen_place hash m.arr_.length k) = some m := by
  have hpl : p < m.arr_.length := slot_lt hp
  have hg := gen_place_lt hash (by omega : 0 < m.arr_.length) k
  have hlt := distance_lt hg hpl
  refine insertLoop_present hash m hrh hu hp v2 _ _ hg rfl ?_ fuel (by omega)
  rw [distance_self]; omega

theorem hasKey_iff_stored (A : List (Option (K × V))) (k : K) :
    HasKey A k ↔ ∃ v, Stored A (k, v) := by
  constructor
  · rintro ⟨i, v, h⟩; exact ⟨v, i, h⟩
  · rintro ⟨v, i, h⟩; exact ⟨i, v, h⟩

theorem insert_succ (hash : K → Nat) (fuel : Nat) (m : HashMap K V) (el : K × V) :
    insert hash (fuel + 1) m el =
      (try_extend (insert hash fuel) m).bind fun m1 =>
        insertLoop hash fuel m1 el (gen_place hash m1.arr_.length el.1)
          (gen_place hash m1.arr_.length el.1) := by
  rw [insert]

theorem insert_no_growth (hash : K → Nat) (fuel : Nat) (m : HashMap K V) (el : K × V)
    (h : 2 * m.elements_count_ < m.arr_.length) :
    insert hash (fuel + 1) m el =
      insertLoop hash fuel m el (gen_place hash m.arr_.length el.1)
        (gen_place hash m.arr_.length el.1) := by
  rw [insert_succ, try_extend, if_neg (by omega)]
  rfl

theorem uniqueKeys_tail {x : Option (K × V)} {l : List (Option (K × V))}
    (h : UniqueKeys (x :: l)) : UniqueKeys l := by
  intro i j kv kv1 hi hj hk
  have := h (i + 1) (j + 1) kv kv1 (by rw [slot_cons_succ]; exact hi)
    (by rw [slot_cons_succ]; exact hj) hk
  omega

theorem stored_cons_none (l : List (Option (K × V))) (kv : K × V) :
    Stored (none :: l) kv ↔ Stored l kv := by
  constructor
  · rintro ⟨i, hi⟩
    cases i with
    | zero => rw [slot_cons_zero] at hi; cases hi
    | succ i => exact ⟨i, by rwa [slot_cons_succ] at hi⟩
  · rintro ⟨i, hi⟩
    exact ⟨i + 1, by rw [slot_cons_succ]; exact hi⟩

theorem stored_cons_some (p : K × V) (l : List (Option (K × V))) (kv : K × V) :
    Stored (some p :: l) kv ↔ kv = p ∨ Stored l kv := by
  constructor
  · rintro ⟨i, hi⟩
    cases i with
    | zero => rw [slot_cons_zero] at hi; cases hi; exact Or.inl rfl
    | succ i => exact Or.inr ⟨i, by rwa [slot_cons_succ] at hi⟩
  · rintro (h | ⟨i, hi⟩)
    · exact ⟨0, by rw [slot_cons_zero, h]⟩
    · exact ⟨i + 1, by rw [slot_cons_succ]; exact hi⟩

theorem stored_nil (kv : K × V) : ¬ Stored ([] : List (Option (K × V))) kv := by
  rintro ⟨i, hi⟩
  rw [slot_of_le [] (Nat.zero_le i)] at hi
  cases hi

/-- Re-inserting pairs with distinct fresh keys into a table with enough room: no
nested growth, every pair arrives, the order invariants hold. -/
theorem reinsert_no_growth (hash : K → Nat) (f : Nat) :
    ∀ (l : List (Option (K × V))) (acc : HashMap K V),
      2 ≤ acc.arr_.length → RHOrder hash acc.arr_ → UniqueKeys acc.arr_ →
      acc.elements_count_ = occupied acc.arr_ → UniqueKeys l →
      (∀ kv, Stored l kv → ¬ HasKey acc.arr_ kv.1) →
      2 * (acc.elements_count_ + occupied l) ≤ acc.arr_.length →
      acc.arr_.length ≤ f →
      ∃ A, reinsert (insert hash (f + 1)) l acc
          = some { elements_count_ := acc.elements_count_ + occupied l, arr_ := A } ∧
        A.length = acc.arr_.length ∧ RHOrder hash A ∧ UniqueKeys A ∧
        occupied A = acc.elements_count_ + occupied l ∧
        (∀ kv, Stored A kv ↔ Stored acc.arr_ kv ∨ Stored l kv) := by
  intro l
  induction l with
  | nil =>
    intro acc hc hrh hu hcnt _ _ _ _
    refine ⟨acc.arr_, by simp [reinsert, occupied_nil], rfl, hrh, hu, ?_, ?_⟩
    · rw [occupied_nil, hcnt]; rfl
    · intro kv
      constructor
      · exact Or.inl
      · rintro (h | h)
        · exact h
        · exact absurd h (stored_nil kv)
  | cons x rest ih =>
    intro acc hc hrh hu hcnt hul hfresh hroom hf
    cases x with
    | none =>
      rw [occupied_cons_none] at hroom
      obtain ⟨A, hA, hlen, hrA, huA, hoA, hstA⟩ :=
        ih acc hc hrh hu hcnt (uniqueKeys_tail hul)
          (fun kv h => hfresh kv ((stored_cons_none rest kv).2 h)) hroom hf
      refine ⟨A, ?_, hlen, hrA, huA, ?_, ?_⟩
      · rw [reinsert, hA, occupied_cons_none]
      · rw [hoA, occupied_cons_none]
      · intro kv; rw [hstA kv, stored_cons_none]
    | some p =>
      rw [occupied_cons_some] at hroom
      have hpabs : ¬ HasKey acc.arr_ p.1 := hfresh p ((stored_cons_some p rest p).2 (Or.inl rfl))
      obtain ⟨A1, hA1, hlen1, hr1, hu1, hst1, ho1⟩ :=
        insertLoop_start_absent hash acc p hc hrh hu hpabs (by omega) f hf
      have hins : insert hash (f + 1) acc p
          = some { elements_count_ := acc.elements_count_ + 1, arr_ := A1 } := by
        rw [insert_no_growth hash f acc p (by omega)]; exact hA1
      have hfresh1 : ∀ kv, Stored rest kv → ¬ HasKey A1 kv.1 := by
        intro kv hkv hk
        obtain ⟨v, hv⟩ := (hasKey_iff_stored A1 kv.1).1 hk
        rcases (hst1 _).1 hv with h | h
        · exact hfresh kv ((stored_cons_some p rest kv).2 (Or.inr hkv))
            ((hasKey_iff_stored _ _).2 ⟨v, h⟩)
        · obtain ⟨i, hi⟩ := hkv
          have := hul 0 (i + 1) p kv (slot_cons_zero _ _) (by rw [slot_cons_succ]; exact hi)
            (by rw [← h])
          omega
      obtain ⟨A, hA, hlen, hrA, huA, hoA, hstA⟩ :=
        ih { elements_count_ := acc.elements_count_ + 1, arr_ := A1 } (by simpa [hlen1] using hc)
          hr1 hu1 (by simp only; omega) (uniqueKeys_tail hul) hfresh1
          (by simp only [hlen1]; omega) (by simpa [hlen1] using hf)
      simp only at hA hlen hoA hstA
      refine ⟨A, ?_, by rw [hlen, hlen1], hrA, huA, ?_, ?_⟩
      · rw [reinsert, hins, Option.some_bind, hA, occupied_cons_some]
        congr 2; omega
      · rw [hoA, occupied_cons_some]; omega
      · intro kv
        rw [hstA kv, hst1 kv, stored_cons_some]
        tauto

/-! ## The empty array -/

theorem not_stored_replicate (n : Nat) (kv : K × V) :
    ¬ Stored (List.replicate n (none : Option (K × V))) kv := by
  rintro ⟨i, hi⟩
  rw [slot_replicate] at hi
  cases hi

theorem not_hasKey_replicate (n : Nat) (k : K) :
    ¬ HasKey (List.replicate n (none : Option (K × V))) k := by
  rintro ⟨i, v, hi⟩
  rw [slot_replicate] at hi
  cases hi

theorem rhOrder_replicate (hash : K → Nat) (n : Nat) :
    RHOrder hash (List.replicate n (none : Option (K × V))) := by
  intro i _ kv hs
  rw [slot_replicate] at hs
  cases hs

theorem uniqueKeys_replicate (n : Nat) :
    UniqueKeys (List.replicate n (none : Option (K × V))) := by
  intro i j kv kv1 hi
  rw [slot_replicate] at hi
  cases hi

/-! ## `try_extend` and `insert` on a table that satisfies the invariant -/

theorem Inv.two_le {hash : K → Nat} {m : HashMap K V} (h : Inv hash m) : 2 ≤ m.arr_.length := by
  have := h.cap_min
  unfold MIN_SIZE at this
  omega

theorem Inv.even {hash : K → Nat} {m : HashMap K V} (h : Inv hash m) :
    ∃ d, m.arr_.length = 2 * d := by
  obtain ⟨e, he⟩ := h.cap_pow
  have hmin := h.cap_min
  unfold MIN_SIZE at hmin
  cases e with
  | zero => rw [he] at hmin; simp at hmin
  | succ e => exact ⟨2 ^ e, by rw [he, pow_succ]; ring⟩

theorem Inv.free {hash : K → Nat} {m : HashMap K V} (h : Inv hash m) :
    occupied m.arr_ < m.arr_.length := by
  have h1 := h.cap_min
  have h2 := h.load
  have h3 := h.count_eq
  unfold MIN_SIZE at h1
  omega

/-- The growth check before an insertion: the table keeps its pairs, is empty of
nested growth, and afterwards has room for one more pair. -/
theorem try_extend_spec (hash : K → Nat) (m : HashMap K V) (hinv : Inv hash m) (f : Nat)
    (hf : 2 * m.arr_.length + 1 ≤ f) :
    ∃ m1, try_extend (insert hash f) m = some m1 ∧
      m1.elements_count_ = m.elements_count_ ∧
      m1.arr_.length = (if 2 * m.elements_count_ ≥ m.arr_.length then 2 * m.arr_.length
        else m.arr_.length) ∧
      RHOrder hash m1.arr_ ∧ UniqueKeys m1.arr_ ∧ m1.elements_count_ = occupied m1.arr_ ∧
      2 * m1.elements_count_ + 2 ≤ m1.arr_.length ∧
      (∀ kv, Stored m1.arr_ kv ↔ Stored m.arr_ kv) ∧
      (2 * m.elements_count_ < m.arr_.length → m1 = m) := by
  have hmin := hinv.cap_min
  unfold MIN_SIZE at hmin
  by_cases hg : 2 * m.elements_count_ ≥ m.arr_.length
  · obtain ⟨f1, rfl⟩ : ∃ f1, f = f1 + 1 := ⟨f - 1, by omega⟩
    have hocc := occupied_le_length m.arr_
    obtain ⟨A, hA, hlen, hrA, huA, hoA, hstA⟩ :=
      reinsert_no_growth hash f1 m.arr_
        { elements_count_ := 0, arr_ := List.replicate (2 * m.arr_.length) none }
        (by simp only [List.length_replicate]; omega) (rhOrder_replicate hash _)
        (uniqueKeys_replicate _) (by simp only [occupied_replicate]) hinv.uniq
        (fun kv _ => not_hasKey_replicate _ _)
        (by simp only [List.length_replicate]; omega)
        (by simp only [List.length_replicate]; omega)
    simp only [List.length_replicate, Nat.zero_add] at hA hlen hoA
    refine ⟨{ elements_count_ := occupied m.arr_, arr_ := A }, ?_, hinv.count_eq.symm, ?_, hrA,
      huA, hoA.symm, ?_, ?_, ?_⟩
    · rw [try_extend, if_pos hg, resize, vector_resize_nil]
      exact hA
    · rw [if_pos hg]; exact hlen
    · simp only [hlen]
      have := hinv.count_eq
      have := hinv.load
      omega
    · intro kv
      simp only
      rw [hstA kv]
      constructor
      · rintro (h | h)
        · exact absurd h (not_stored_replicate _ _)
        · exact h
      · exact Or.inr
    · intro h; omega
  · obtain ⟨d, hd⟩ := hinv.even
    refine ⟨m, ?_, rfl, ?_, hinv.order, hinv.uniq, hinv.count_eq, ?_, fun _ => Iff.rfl,
      fun _ => rfl⟩
    · rw [try_extend, if_neg hg]
    · rw [if_neg hg]
    · omega

/-- Total correctness of `insert` on a table that satisfies the invariant. -/
theorem insert_spec (hash : K → Nat) (m : HashMap K V) (hinv : Inv hash m) (el : K × V)
    (fuel : Nat) (hfuel : 2 * m.arr_.length + 2 ≤ fuel) :
    ∃ m1 m2, try_extend (insert hash (fuel - 1)) m = some m1 ∧
      insert hash fuel m el = some m2 ∧ Inv hash m2 ∧
      m2.arr_.length = (if 2 * m.elements_count_ ≥ m.arr_.length then 2 * m.arr_.length
        else m.arr_.length) ∧
      (∀ kv, Stored m1.arr_ kv ↔ Stored m.arr_ kv) ∧
      (HasKey m.arr_ el.1 → m2 = m1 ∧ m2.elements_count_ = m.elements_count_) ∧
      (¬ HasKey m.arr_ el.1 → m2.elements_count_ = m.elements_count_ + 1 ∧
        ∀ kv, Stored m2.arr_ kv ↔ Stored m.arr_ kv ∨ kv = el) ∧
      (2 * m.elements_count_ < m.arr_.length → m1 = m) := by
  obtain ⟨f, rfl⟩ : ∃ f, fuel = f + 1 := ⟨fuel - 1, by omega⟩
  obtain ⟨m1, hm1, hcnt, hlen, hr1, hu1, ho1, hroom, hst1, hsame⟩ :=
    try_extend_spec hash m hinv f (by omega)
  have hmin := hinv.cap_min
  have hlen1 : m.arr_.length ≤ m1.arr_.length := by
    rw [hlen]; split_ifs <;> omega
  have hpow1 : ∃ e, m1.arr_.length = 2 ^ e := by
    obtain ⟨e, he⟩ := hinv.cap_pow
    rw [hlen]
    split_ifs
    · exact ⟨e + 1, by rw [he, pow_succ]; ring⟩
    · exact ⟨e, he⟩
  have hkey : HasKey m1.arr_ el.1 ↔ HasKey m.arr_ el.1 := by
    rw [hasKey_iff_stored, hasKey_iff_stored]
    exact exists_congr fun v => hst1 _
  have hins : insert hash (f + 1) m el = insertLoop hash f m1 el
      (gen_place hash m1.arr_.length el.1) (gen_place hash m1.arr_.length el.1) := by
    rw [insert_succ, hm1]; rfl
  by_cases hk : HasKey m.arr_ el.1
  · obtain ⟨p, v, hp⟩ := hkey.2 hk
    have hloop := insertLoop_start_present hash m1 hr1 hu1 hp el.2 f (by rw [hlen]; split_ifs <;> omega)
    refine ⟨m1, m1, hm1, ?_, ?_, hlen, hst1, fun _ => ⟨rfl, hcnt⟩, fun h => absurd hk h, hsame⟩
    · rw [hins]; exact hloop
    · exact ⟨hpow1, le_trans hmin hlen1, ho1, by omega, hr1, hu1⟩
  · obtain ⟨A, hA, hlenA, hrA, huA, hstA, hoA⟩ :=
      insertLoop_start_absent hash m1 el (by unfold MIN_SIZE at hmin; omega) hr1 hu1
        (fun h => hk (hkey.1 h)) (by omega) f (by rw [hlen]; split_ifs <;> omega)
    refine ⟨m1, { elements_count_ := m1.elements_count_ + 1, arr_ := A }, hm1, ?_, ?_, ?_, hst1,
      fun h => absurd h hk, fun _ => ⟨?_, ?_⟩, hsame⟩
    · rw [hins]; exact hA
    · exact ⟨by simpa only [hlenA] using hpow1, by simp only [hlenA]; exact le_trans hmin hlen1,
        by simp only; omega, by simp only [hlenA]; omega, hrA, huA⟩
    · simp only [hlenA]; exact hlen
    · simp only; omega
    · intro kv
      simp only
      rw [hstA kv, hst1 kv]

/-! ## Backward-shift deletion -/

theorem distance_nextIndex_of_ne {c g b : Nat} (hg : g < c) (hb : b < c)
    (h : g ≠ nextIndex c b) : distance c g (nextIndex c b) = distance c g b + 1 := by
  unfold distance nextIndex at *; split_ifs at * <;> omega

theorem exists_prev {c p : Nat} (hp : p < c) : ∃ i, i < c ∧ nextIndex c i = p := by
  by_cases h : p = 0
  · exact ⟨c - 1, by omega, by unfold nextIndex; rw [if_pos (by omega)]; exact h.symm⟩
  · exact ⟨p - 1, by omega, by unfold nextIndex; rw [if_neg (by omega)]; omega⟩

theorem slot_set_set (H : List (Option (K × V))) {cur nx : Nat} (hcur : cur < H.length)
    (hnx : nx < H.length) (hne : cur ≠ nx) (x y : Option (K × V)) (j : Nat) :
    slot ((H.set cur x).set nx y) j = if j = nx then y else if j = cur then x else slot H j := by
  by_cases h1 : j = nx
  · subst h1
    rw [if_pos rfl, slot_set_eq _ (by simpa using hnx)]
  · rw [if_neg h1, slot_set_ne _ (Ne.symm h1)]
    by_cases h2 : j = cur
    · subst h2
      rw [if_pos rfl, slot_set_eq _ hcur]
    · rw [if_neg h2, slot_set_ne _ (Ne.symm h2)]

/-- One backward shift: the displaced occupant after the hole moves into it. -/
theorem shift_ok (hash : K → Nat) {H : List (Option (K × V))} (hc : 2 ≤ H.length) {cur : Nat}
    (hcur : cur < H.length) (hu : UniqueKeys H) (hrh : RHOrderExcept hash H cur)
    (hbr : Bridge hash H cur) (hhole : slot H cur = none) {boy : K × V}
    (hboy : slot H (nextIndex H.length cur) = some boy)
    (hdis : gen_place hash H.length boy.1 ≠ nextIndex H.length cur) :
    UniqueKeys ((H.set cur (some boy)).set (nextIndex H.length cur) none) ∧
      RHOrderExcept hash ((H.set cur (some boy)).set (nextIndex H.length cur) none)
        (nextIndex H.length cur) ∧
      Bridge hash ((H.set cur (some boy)).set (nextIndex H.length cur) none)
        (nextIndex H.length cur) ∧
      (∀ kv, Stored ((H.set cur (some boy)).set (nextIndex H.length cur) none) kv ↔ Stored H kv) ∧
      occupied ((H.set cur (some boy)).set (nextIndex H.length cur) none) = occupied H := by
  have hcpos : 0 < H.length := by omega
  have hnx : nextIndex H.length cur < H.length := nextIndex_lt hcur
  have hne : cur ≠ nextIndex H.length cur := fun h => nextIndex_ne_self hc h.symm
  have hsl := slot_set_set H hcur hnx hne (some boy) none
  have hgb := gen_place_lt hash hcpos boy.1
  have hdb := distance_nextIndex_of_ne hgb hcur hdis
  refine ⟨?_, ?_, ?_, ?_, ?_⟩
  · intro i j kv kv1 hi hj hk
    rw [hsl] at hi hj
    by_cases hin : i = nextIndex H.length cur
    · rw [if_pos hin] at hi; cases hi
    by_cases hjn : j = nextIndex H.length cur
    · rw [if_pos hjn] at hj; cases hj
    rw [if_neg hin] at hi
    rw [if_neg hjn] at hj
    by_cases hic : i = cur <;> by_cases hjc : j = cur
    · rw [hic, hjc]
    · rw [if_pos hic] at hi
      rw [if_neg hjc] at hj
      cases hi
      exact absurd (hu j _ kv1 boy hj hboy hk.symm) hjn
    · rw [if_neg hic] at hi
      rw [if_pos hjc] at hj
      cases hj
      exact absurd (hu i _ kv boy hi hboy hk) hin
    · rw [if_neg hic] at hi
      rw [if_neg hjc] at hj
      exact hu i j kv kv1 hi hj hk
  · intro i hi hin kv hs hg
    simp only [List.length_set] at *
    rw [hsl] at hs
    by_cases h1 : nextIndex H.length i = nextIndex H.length cur
    · rw [if_pos h1] at hs; cases hs
    rw [if_neg h1] at hs
    have hic : i ≠ cur := fun h => h1 (by rw [h])
    rw [hsl, if_neg hin, if_neg hic]
    by_cases h2 : nextIndex H.length i = cur
    · rw [if_pos h2] at hs
      cases hs
      rw [h2] at hg ⊢
      have hpos := distance_pos hgb hcur hg
      obtain ⟨j, kv1, hj, hnj, hsj, hdj⟩ := hbr boy hboy (by omega)
      have hji : j = i := nextIndex_inj hj hi (hnj.trans h2.symm)
      subst hji
      exact ⟨kv1, hsj, by omega⟩
    · rw [if_neg h2] at hs
      exact hrh i hi hic kv hs hg
  · intro kv hs hd
    simp only [List.length_set] at *
    rw [hsl] at hs
    have hnn : nextIndex H.length (nextIndex H.length cur) ≠ nextIndex H.length cur :=
      nextIndex_ne_self hc
    rw [if_neg hnn] at hs
    refine ⟨cur, boy, hcur, rfl, by rw [hsl, if_neg hne, if_pos rfl], ?_⟩
    by_cases h2 : nextIndex H.length (nextIndex H.length cur) = cur
    · rw [if_pos h2] at hs
      cases hs
      rw [h2]; omega
    · rw [if_neg h2] at hs
      have hgk : gen_place hash H.length kv.1 ≠ nextIndex H.length (nextIndex H.length cur) := by
        intro h
        rw [h, distance_self] at hd
        omega
      obtain ⟨kv1, hs1, hd1⟩ := hrh _ hnx (Ne.symm hne) kv hs hgk
      rw [hboy] at hs1
      cases hs1
      omega
  · intro kv
    constructor
    · rintro ⟨j, hj⟩
      rw [hsl] at hj
      by_cases h1 : j = nextIndex H.length cur
      · rw [if_pos h1] at hj; cases hj
      rw [if_neg h1] at hj
      by_cases h2 : j = cur
      · rw [if_pos h2] at hj
        cases hj
        exact ⟨_, hboy⟩
      · rw [if_neg h2] at hj
        exact ⟨j, hj⟩
    · rintro ⟨j, hj⟩
      by_cases h1 : j = nextIndex H.length cur
      · subst h1
        rw [hboy] at hj
        cases hj
        exact ⟨cur, by rw [hsl, if_neg hne, if_pos rfl]⟩
      · have h2 : j ≠ cur := by
          intro h; subst h; rw [hhole] at hj; cases hj
        exact ⟨j, by rw [hsl, if_neg h1, if_neg h2]; exact hj⟩
  · have e1 := occupied_set H cur hcur (some boy)
    have e2 := occupied_set (H.set cur (some boy)) (nextIndex H.length cur)
      (by simpa using hnx) none
    rw [slot_set_ne H hne, hboy] at e2
    rw [hhole] at e1
    simp at e1 e2
    omega

/-- The shift stops: the array with the hole satisfies the full Robin Hood order. -/
theorem stop_ok (hash : K → Nat) {H : List (Option (K × V))} {cur : Nat}
    (hrh : RHOrderExcept hash H cur)
    (hstop : ∀ kv, slot H (nextIndex H.length cur) = some kv →
      gen_place hash H.length kv.1 = nextIndex H.length cur) :
    RHOrder hash H := by
  intro i hi kv hs hg
  by_cases hic : i = cur
  · subst hic
    exact absurd (hstop kv hs) hg
  · exact hrh i hi hic kv hs hg

/-- The backward-shift loop, stated on the array with a hole at the slot being
vacated: it ends within the distance to the next empty slot, keeps every other
pair, and restores the full Robin Hood order. -/
theorem eraseLoop_hole (hash : K → Nat) :
    ∀ fuel (m : HashMap K V) (cur e : Nat),
      2 ≤ m.arr_.length → cur < m.arr_.length → e < m.arr_.length → e ≠ cur →
      slot m.arr_ e = none →
      distance m.arr_.length (nextIndex m.arr_.length cur) e < fuel →
      UniqueKeys (m.arr_.set cur none) → RHOrderExcept hash (m.arr_.set cur none) cur →
      Bridge hash (m.arr_.set cur none) cur →
      ∃ A, eraseLoop hash fuel m cur
          = some { elements_count_ := m.elements_count_ - 1, arr_ := A } ∧
        A.length = m.arr_.length ∧ RHOrder hash A ∧ UniqueKeys A ∧
        (∀ kv, Stored A kv ↔ Stored (m.arr_.set cur none) kv) ∧
        occupied A = occupied (m.arr_.set cur none) := by
  intro fuel
  induction fuel with
  | zero => intro m cur e _ _ _ _ _ h; omega
  | succ f ih =>
    intro m cur e hc hcur he hec hempty hd hu hrh hbr
    have hnx : nextIndex m.arr_.length cur < m.arr_.length := nextIndex_lt hcur
    have hne : cur ≠ nextIndex m.arr_.length cur := fun h => nextIndex_ne_self hc h.symm
    have hHnx : slot (m.arr_.set cur none) (nextIndex m.arr_.length cur)
        = slot m.arr_ (nextIndex m.arr_.length cur) := slot_set_ne _ hne _
    have hstop : (∀ kv, slot m.arr_ (nextIndex m.arr_.length cur) = some kv →
        gen_place hash m.arr_.length kv.1 = nextIndex m.arr_.length cur) →
        RHOrder hash (m.arr_.set cur none) := by
      intro h
      refine stop_ok hash hrh ?_
      intro kv hkv
      simp only [List.length_set] at hkv ⊢
      rw [hHnx] at hkv
      exact h kv hkv
    cases hs : slot m.arr_ (nextIndex m.arr_.length cur) with
    | none =>
      refine ⟨m.arr_.set cur none, by simp [eraseLoop, hs], by simp, hstop ?_, hu,
        fun _ => Iff.rfl, rfl⟩
      intro kv hkv; rw [hs] at hkv; cases hkv
    | some boy =>
      by_cases hdis : gen_place hash m.arr_.length boy.1 ≠ nextIndex m.arr_.length cur
      · have hen : nextIndex m.arr_.length cur ≠ e := by
          intro h; rw [h, hempty] at hs; cases hs
        have hstep := distance_nextIndex_left hnx he hen
        have hhole : slot (m.arr_.set cur none) cur = none := slot_set_eq _ hcur _
        obtain ⟨h1, h2, h3, h4, h5⟩ :=
          shift_ok hash (by simpa using hc) (by simpa using hcur) hu hrh hbr hhole
            (by simpa only [List.length_set, hHnx] using hs)
            (by simpa only [List.length_set] using hdis)
        simp only [List.length_set, List.set_set] at h1 h2 h3 h4 h5
        have hempty1 : slot ((m.arr_.set cur (some boy)).set (nextIndex m.arr_.length cur)
            (slot m.arr_ cur)) e = none := by
          rw [slot_set_set m.arr_ hcur hnx hne, if_neg (Ne.symm hen), if_neg hec]
          exact hempty
        obtain ⟨A, hA, hlen, hrA, huA, hstA, hoA⟩ :=
          ih (HashMap.mk m.elements_count_
              ((m.arr_.set cur (some boy)).set (nextIndex m.arr_.length cur) (slot m.arr_ cur)))
            (nextIndex m.arr_.length cur) e
            (by simpa using hc) (by simpa using hnx) (by simpa using he) (Ne.symm hen) hempty1
            (by simp only [List.length_set]; omega)
            (by simpa only [List.length_set, List.set_set] using h1)
            (by simpa only [List.length_set, List.set_set] using h2)
            (by simpa only [List.length_set, List.set_set] using h3)
        simp only [List.length_set, List.set_set] at hA hlen hstA hoA
        refine ⟨A, by simp [eraseLoop, hs, hdis, hA], hlen, hrA, huA, ?_, by rw [hoA, h5]⟩
        intro kv
        rw [hstA kv, h4 kv]
      · refine ⟨m.arr_.set cur none, by simp [eraseLoop, hs, hdis], by simp, hstop ?_, hu,
          fun _ => Iff.rfl, rfl⟩
        intro kv hkv
        rw [hs] at hkv
        cases hkv
        exact not_not.1 hdis

/-- Removing the pair at slot `p` of an ordered array leaves an array with a hole
at `p` on which the backward shift can start. -/
theorem hole_init (hash : K → Nat) {A : List (Option (K × V))} (hc : 2 ≤ A.length)
    (hrh : RHOrder hash A) (hu : UniqueKeys A) {p : Nat} {kv0 : K × V}
    (hp : slot A p = some kv0) :
    RHOrderExcept hash (A.set p none) p ∧ Bridge hash (A.set p none) p ∧
      (∀ kv, Stored (A.set p none) kv ↔ Stored A kv ∧ kv.1 ≠ kv0.1) ∧
      occupied (A.set p none) + 1 = occupied A := by
  have hpl : p < A.length := slot_lt hp
  have hne : p ≠ nextIndex A.length p := fun h => nextIndex_ne_self hc h.symm
  refine ⟨?_, ?_, ?_, ?_⟩
  · intro i hi hip kv hs hg
    simp only [List.length_set] at *
    by_cases h1 : nextIndex A.length i = p
    · rw [h1, slot_set_eq A hpl] at hs; cases hs
    · rw [slot_set_ne A (Ne.symm h1)] at hs
      rw [slot_set_ne A (Ne.symm hip)]
      exact hrh i hi kv hs hg
  · intro kv hs hd
    simp only [List.length_set] at *
    rw [slot_set_ne A hne] at hs
    have hg : gen_place hash A.length kv.1 ≠ nextIndex A.length p := by
      intro h; rw [h, distance_self] at hd; omega
    obtain ⟨kv1, hs1, hd1⟩ := hrh p hpl kv hs hg
    rw [hp] at hs1
    cases hs1
    obtain ⟨i, hi, hni⟩ := exists_prev hpl
    have hg0 : gen_place hash A.length kv0.1 ≠ p := by
      intro h; rw [h, distance_self] at hd1; omega
    obtain ⟨kv2, hs2, hd2⟩ := hrh i hi kv0 (by rw [hni]; exact hp) (by rw [hni]; exact hg0)
    rw [hni] at hd2
    have hip : p ≠ i := by
      intro h; rw [← h] at hni; exact hne hni.symm
    exact ⟨i, kv2, hi, hni, by rw [slot_set_ne A hip]; exact hs2, by omega⟩
  · intro kv
    rw [stored_set hpl]
    constructor
    · rintro (⟨j, hjp, hj⟩ | h)
      · exact ⟨⟨j, hj⟩, fun hk => hjp (hu j p kv kv0 hj hp hk)⟩
      · cases h
    · rintro ⟨⟨j, hj⟩, hk⟩
      refine Or.inl ⟨j, ?_, hj⟩
      intro hjp
      subst hjp
      rw [hp] at hj
      cases hj
      exact hk rfl
  · have := occupied_set A p hpl none
    simpa [hp] using this

theorem reinsert_all_none (ins : HashMap K V → K × V → Option (HashMap K V)) :
    ∀ (l : List (Option (K × V))) (acc : HashMap K V), occupied l = 0 →
      reinsert ins l acc = some acc := by
  intro l
  induction l with
  | nil => intro acc _; rfl
  | cons x rest ih =>
    intro acc h
    cases x with
    | none =>
      rw [occupied_cons_none] at h
      rw [reinsert]; exact ih acc h
    | some p => rw [occupied_cons_some] at h; omega

/-- The shrink check before an erase. -/
theorem try_shrink_spec (hash : K → Nat) (ins : HashMap K V → K × V → Option (HashMap K V))
    (m : HashMap K V) (hinv : Inv hash m) :
    ∃ m1, try_shrink ins m = some m1 ∧ Inv hash m1 ∧
      m1.elements_count_ = m.elements_count_ ∧
      m1.arr_.length = (if m.elements_count_ = 0 ∧ m.arr_.length > MIN_SIZE
        then m.arr_.length / 2 else m.arr_.length) ∧
      (∀ kv, Stored m1.arr_ kv ↔ Stored m.arr_ kv) ∧
      (¬ (m.elements_count_ = 0 ∧ m.arr_.length > MIN_SIZE) → m1 = m) := by
  by_cases h : m.elements_count_ = 0 ∧ m.arr_.length > MIN_SIZE
  · obtain ⟨h0, hbig⟩ := h
    have hocc : occupied m.arr_ = 0 := by rw [← hinv.count_eq]; exact h0
    obtain ⟨e, he⟩ := hinv.cap_pow
    unfold MIN_SIZE at hbig
    have he4 : 4 ≤ e := by
      by_contra hlt
      have : 2 ^ e ≤ 2 ^ 3 := Nat.pow_le_pow_right (by norm_num) (by omega)
      omega
    obtain ⟨e1, rfl⟩ : ∃ e1, e = e1 + 1 := ⟨e - 1, by omega⟩
    have hhalf : m.arr_.length / 2 = 2 ^ e1 := by
      rw [he, pow_succ]; simp
    have h8 : 2 ^ 3 ≤ 2 ^ e1 := Nat.pow_le_pow_right (by norm_num) (by omega)
    refine ⟨{ elements_count_ := 0, arr_ := List.replicate (m.arr_.length / 2) none }, ?_, ?_,
      h0.symm, ?_, ?_, ?_⟩
    · rw [try_shrink, if_pos ⟨h0, hbig⟩, resize, vector_resize_nil]
      exact reinsert_all_none ins _ _ hocc
    · refine ⟨⟨e1, by simp [hhalf]⟩, ?_, by simp [occupied_replicate], by simp,
        rhOrder_replicate hash _, uniqueKeys_replicate _⟩
      simp only [List.length_replicate, hhalf, MIN_SIZE]
      omega
    · rw [if_pos ⟨h0, hbig⟩]; simp
    · intro kv
      constructor
      · intro hk; exact absurd hk (not_stored_replicate _ _)
      · rintro ⟨i, hi⟩
        rw [(occupied_eq_zero_iff m.arr_).1 hocc i] at hi
        cases hi
    · intro hn; exact absurd ⟨h0, hbig⟩ hn
  · exact ⟨m, by rw [try_shrink, if_neg h], hinv, rfl, by rw [if_neg h], fun _ => Iff.rfl,
      fun _ => rfl⟩

/-- Total correctness of `erase` on a table that satisfies the invariant. -/
theorem erase_spec (hash : K → Nat) (m : HashMap K V) (hinv : Inv hash m) (key : K)
    (fuel : Nat) (hfuel : m.arr_.length ≤ fuel) :
    ∃ m1 m2, try_shrink (insert hash fuel) m = some m1 ∧ erase hash fuel m key = some m2 ∧
      Inv hash m2 ∧
      m2.arr_.length = (if m.elements_count_ = 0 ∧ m.arr_.length > MIN_SIZE
        then m.arr_.length / 2 else m.arr_.length) ∧
      (∀ kv, Stored m2.arr_ kv ↔ Stored m.arr_ kv ∧ kv.1 ≠ key) ∧
      (HasKey m.arr_ key → m2.elements_count_ + 1 = m.elements_count_) ∧
      (¬ HasKey m.arr_ key → m2 = m1 ∧ m2.elements_count_ = m.elements_count_) := by
  obtain ⟨m1, hm1, hinv1, hcnt, hlen, hst1, _⟩ := try_shrink_spec hash (insert hash fuel) m hinv
  have hlen1 : m1.arr_.length ≤ m.arr_.length := by
    rw [hlen]; split_ifs
    · exact Nat.div_le_self _ _
    · exact le_refl _
  have hkey : HasKey m1.arr_ key ↔ HasKey m.arr_ key := by
    rw [hasKey_iff_stored, hasKey_iff_stored]
    exact exists_congr fun v => hst1 _
  have herase : erase hash fuel m key = (find hash fuel m1 key).bind fun current =>
      if current ≥ m1.arr_.length then some m1 else eraseLoop hash fuel m1 current := by
    rw [erase, hm1]; rfl
  by_cases hk : HasKey m.arr_ key
  · obtain ⟨p, v, hp⟩ := hkey.2 hk
    have hpl : p < m1.arr_.length := slot_lt hp
    have hfind := find_of_stored hash m1 hinv1.order hinv1.uniq hp fuel (by omega)
    obtain ⟨e, he, hempty⟩ := exists_empty_slot m1.arr_ hinv1.free
    have hep : e ≠ p := by
      intro h; subst h; rw [hempty] at hp; cases hp
    obtain ⟨h1, h2, h3, h4⟩ := hole_init hash hinv1.two_le hinv1.order hinv1.uniq hp
    have hdl := distance_lt (nextIndex_lt hpl) he
    obtain ⟨A, hA, hlenA, hrA, huA, hstA, hoA⟩ :=
      eraseLoop_hole hash fuel m1 p e hinv1.two_le hpl he hep hempty (by omega)
        (hinv1.uniq.set_none p) h1 h2
    refine ⟨m1, { elements_count_ := m1.elements_count_ - 1, arr_ := A }, hm1, ?_, ?_, ?_, ?_,
      fun _ => ?_, fun h => absurd hk h⟩
    · rw [herase, hfind, Option.some_bind, if_neg (by omega)]
      exact hA
    · have hc1 := hinv1.count_eq
      have hl1 := hinv1.load
      exact ⟨by simpa only [hlenA] using hinv1.cap_pow, by simpa only [hlenA] using hinv1.cap_min,
        by simp only; omega, by simp only [hlenA]; omega, hrA, huA⟩
    · simp only [hlenA]; exact hlen
    · intro kv
      simp only
      rw [hstA kv, h3 kv, hst1 kv]
    · have hc1 := hinv1.count_eq
      simp only
      omega
  · have hfind := find_of_absent hash m1 key (fun h => hk (hkey.1 h)) hinv1.free fuel (by omega)
    refine ⟨m1, m1, hm1, ?_, hinv1, hlen, ?_, fun h => absurd h hk, fun _ => ⟨rfl, hcnt⟩⟩
    · rw [herase, hfind, Option.some_bind, if_pos (le_refl _)]
    · intro kv
      rw [hst1 kv]
      constructor
      · intro h
        refine ⟨h, fun hkv => hk ?_⟩
        obtain ⟨i, hi⟩ := h
        exact ⟨i, kv.2, by rw [hi, ← hkv]⟩
      · exact fun h => h.1

/-! ## More fuel never changes a result -/

theorem findLoop_mono (hash : K → Nat) (m : HashMap K V) (k : K) :
    ∀ f cur r, findLoop hash f m k cur = some r → findLoop hash (f + 1) m k cur = some r := by
  intro f
  induction f with
  | zero => intro cur r h; simp [findLoop] at h
  | succ f ih =>
    intro cur r h
    rw [findLoop] at h ⊢
    cases hs : slot m.arr_ cur with
    | none => simpa [hs] using h
    | some o =>
      simp only [hs] at h ⊢
      split_ifs at h ⊢ with hc
      · exact h
      · exact ih _ _ h

theorem insertLoop_mono (hash : K → Nat) :
    ∀ f (m : HashMap K V) el target cur r, insertLoop hash f m el target cur = some r →
      insertLoop hash (f + 1) m el target cur = some r := by
  intro f
  induction f with
  | zero => intro m el target cur r h; simp [insertLoop] at h
  | succ f ih =>
    intro m el target cur r h
    rw [insertLoop] at h ⊢
    cases hs : slot m.arr_ cur with
    | none => simpa [hs] using h
    | some o =>
      simp only [hs] at h ⊢
      split_ifs at h ⊢ with hc hd
      · exact h
      · exact ih _ _ _ _ _ h
      · exact ih _ _ _ _ _ h

theorem eraseLoop_mono (hash : K → Nat) :
    ∀ f (m : HashMap K V) cur r, eraseLoop hash f m cur = some r →
      eraseLoop hash (f + 1) m cur = some r := by
  intro f
  induction f with
  | zero => intro m cur r h; simp [eraseLoop] at h
  | succ f ih =>
    intro m cur r h
    rw [eraseLoop] at h ⊢
    cases hs : slot m.arr_ (nextIndex m.arr_.length cur) with
    | none => simpa [hs] using h
    | some o =>
      simp only [hs] at h ⊢
      split_ifs at h ⊢ with hc
      · exact ih _ _ _ h
      · exact h

theorem reinsert_mono {ins ins2 : HashMap K V → K × V → Option (HashMap K V)}
    (hle : ∀ acc p r, ins acc p = some r → ins2 acc p = some r) :
    ∀ (l : List (Option (K × V))) acc r, reinsert ins l acc = some r →
      reinsert ins2 l acc = some r := by
  intro l
  induction l with
  | nil => intro acc r h; exact h
  | cons x rest ih =>
    intro acc r h
    cases x with
    | none => rw [reinsert] at h ⊢; exact ih acc r h
    | some p =>
      rw [reinsert] at h ⊢
      cases hi : ins acc p with
      | none => rw [hi] at h; cases h
      | some a1 =>
        rw [hi, Option.some_bind] at h
        rw [hle acc p a1 hi, Option.some_bind]
        exact ih a1 r h

theorem insert_range_mono {ins ins2 : HashMap K V → K × V → Option (HashMap K V)}
    (hle : ∀ acc p r, ins acc p = some r → ins2 acc p = some r) :
    ∀ (l : List (K × V)) acc r, insert_range ins l acc = some r →
      insert_range ins2 l acc = some r := by
  intro l
  induction l with
  | nil => intro acc r h; exact h
  | cons p rest ih =>
    intro acc r h
    rw [insert_range] at h ⊢
    cases hi : ins acc p with
    | none => rw [hi] at h; cases h
    | some a1 =>
      rw [hi, Option.some_bind] at h
      rw [hle acc p a1 hi, Option.some_bind]
      exact ih a1 r h

theorem try_extend_mono {ins ins2 : HashMap K V → K × V → Option (HashMap K V)}
    (hle : ∀ acc p r, ins acc p = some r → ins2 acc p = some r) (m r : HashMap K V)
    (h : try_extend ins m = some r) : try_extend ins2 m = some r := by
  unfold try_extend resize at *
  split_ifs at h ⊢
  · exact reinsert_mono hle _ _ _ h
  · exact h

theorem try_shrink_mono {ins ins2 : HashMap K V → K × V → Option (HashMap K V)}
    (hle : ∀ acc p r, ins acc p = some r → ins2 acc p = some r) (m r : HashMap K V)
    (h : try_shrink ins m = some r) : try_shrink ins2 m = some r := by
  unfold try_shrink resize at *
  split_ifs at h ⊢
  · exact reinsert_mono hle _ _ _ h
  · exact h

theorem insert_mono_succ (hash : K → Nat) :
    ∀ f (m : HashMap K V) el r, insert hash f m el = some r →
      insert hash (f + 1) m el = some r := by
  intro f
  induction f with
  | zero => intro m el r h; simp [insert] at h
  | succ f ih =>
    intro m el r h
    rw [insert_succ] at h ⊢
    cases ht : try_extend (insert hash f) m with
    | none => rw [ht] at h; cases h
    | some m1 =>
      rw [ht, Option.some_bind] at h
      rw [try_extend_mono ih m m1 ht, Option.some_bind]
      exact insertLoop_mono hash _ _ _ _ _ _ h

theorem insert_mono (hash : K → Nat) {f g : Nat} (hfg : f ≤ g) (m : HashMap K V) (el : K × V)
    (r : HashMap K V) (h : insert hash f m el = some r) : insert hash g m el = some r := by
  induction hfg with
  | refl => exact h
  | step _ ih => exact insert_mono_succ hash _ _ _ _ ih

theorem findLoop_mono_le (hash : K → Nat) {f g : Nat} (hfg : f ≤ g) (m : HashMap K V) (k : K)
    (cur r : Nat) (h : findLoop hash f m k cur = some r) : findLoop hash g m k cur = some r := by
  induction hfg with
  | refl => exact h
  | step _ ih => exact findLoop_mono hash _ _ _ _ _ ih

theorem find_mono (hash : K → Nat) {f g : Nat} (hfg : f ≤ g) (m : HashMap K V) (k : K)
    (r : Nat) (h : find hash f m k = some r) : find hash g m k = some r :=
  findLoop_mono_le hash hfg m k _ r h

theorem eraseLoop_mono_le (hash : K → Nat) {f g : Nat} (hfg : f ≤ g) (m : HashMap K V)
    (cur : Nat) (r : HashMap K V) (h : eraseLoop hash f m cur = some r) :
    eraseLoop hash g m cur = some r := by
  induction hfg with
  | refl => exact h
  | step _ ih => exact eraseLoop_mono hash _ _ _ _ ih

theorem erase_mono (hash : K → Nat) {f g : Nat} (hfg : f ≤ g) (m : HashMap K V) (k : K)
    (r : HashMap K V) (h : erase hash f m k = some r) : erase hash g m k = some r := by
  unfold erase at *
  cases ht : try_shrink (insert hash f) m with
  | none => rw [ht] at h; cases h
  | some m1 =>
    rw [ht, Option.some_bind] at h
    rw [try_shrink_mono (fun acc p r => insert_mono hash hfg acc p r) m m1 ht, Option.some_bind]
    cases hfd : find hash f m1 k with
    | none => rw [hfd] at h; cases h
    | some cur =>
      rw [hfd, Option.some_bind] at h
      rw [find_mono hash hfg m1 k cur hfd, Option.some_bind]
      split_ifs at h ⊢
      · exact h
      · exact eraseLoop_mono_le hash hfg _ _ _ h

/-! ## Every operation preserves the invariant -/

theorem insert_inv (hash : K → Nat) {m r : HashMap K V} (hinv : Inv hash m) {f : Nat}
    {el : K × V} (h : insert hash f m el = some r) : Inv hash r := by
  obtain ⟨m1, m2, _, h2, hinv2, _⟩ :=
    insert_spec hash m hinv el (max f (2 * m.arr_.length + 2)) (le_max_right _ _)
  have := insert_mono hash (le_max_left f (2 * m.arr_.length + 2)) m el r h
  rw [h2] at this
  cases this
  exact hinv2

theorem erase_inv (hash : K → Nat) {m r : HashMap K V} (hinv : Inv hash m) {f : Nat}
    {k : K} (h : erase hash f m k = some r) : Inv hash r := by
  obtain ⟨m1, m2, _, h2, hinv2, _⟩ :=
    erase_spec hash m hinv k (max f m.arr_.length) (le_max_right _ _)
  have := erase_mono hash (le_max_left f m.arr_.length) m k r h
  rw [h2] at this
  cases this
  exact hinv2

theorem reinsert_inv (hash : K → Nat) (f : Nat) :
    ∀ (l : List (Option (K × V))) (acc r : HashMap K V), Inv hash acc →
      reinsert (insert hash f) l acc = some r → Inv hash r := by
  intro l
  induction l with
  | nil => intro acc r hinv h; cases h; exact hinv
  | cons x rest ih =>
    intro acc r hinv h
    cases x with
    | none => rw [reinsert] at h; exact ih acc r hinv h
    | some p =>
      rw [reinsert] at h
      cases hi : insert hash f acc p with
      | none => rw [hi] at h; cases h
      | some a1 =>
        rw [hi, Option.some_bind] at h
        exact ih a1 r (insert_inv hash hinv hi) h

theorem insert_range_inv (hash : K → Nat) (f : Nat) :
    ∀ (l : List (K × V)) (acc r : HashMap K V), Inv hash acc →
      insert_range (insert hash f) l acc = some r → Inv hash r := by
  intro l
  induction l with
  | nil => intro acc r hinv h; cases h; exact hinv
  | cons p rest ih =>
    intro acc r hinv h
    rw [insert_range] at h
    cases hi : insert hash f acc p with
    | none => rw [hi] at h; cases h
    | some a1 =>
      rw [hi, Option.some_bind] at h
      exact ih a1 r (insert_inv hash hinv hi) h

theorem new_arr : (HashMap.new : HashMap K V).arr_ = List.replicate 8 none := by
  simp [HashMap.new, vector_resize, MIN_SIZE]

theorem new_inv (hash : K → Nat) : Inv hash (HashMap.new : HashMap K V) := by
  refine ⟨⟨3, ?_⟩, ?_, ?_, ?_, ?_, ?_⟩
  · rw [new_arr]; rfl
  · rw [new_arr]; simp [MIN_SIZE]
  · rw [new_arr, occupied_replicate]; rfl
  · simp [HashMap.new]
  · rw [new_arr]; exact rhOrder_replicate hash _
  · rw [new_arr]; exact uniqueKeys_replicate _

theorem clear_eq (m : HashMap K V) : clear m = HashMap.new := by
  have h : (m.arr_.map fun _ => (none : Option (K × V))) = List.replicate m.arr_.length none := by
    induction m.arr_ with
    | nil => rfl
    | cons a l ih => simp [List.replicate_succ, ih]
  have h2 : vector_resize (m.arr_.map fun _ => (none : Option (K × V))) MIN_SIZE
      = List.replicate 8 none := by
    rw [h]
    simp only [vector_resize, MIN_SIZE, List.length_replicate]
    rw [List.take_replicate, List.append_replicate_replicate]
    congr 1
    omega
  rw [clear, h2]
  simp [HashMap.new, vector_resize, MIN_SIZE]

theorem assign_copy (l : List (Option (K × V))) :
    (l.map fun ptr => match ptr with
      | some p => some p
      | none => none) = l := by
  induction l with
  | nil => rfl
  | cons a l ih =>
    rw [List.map_cons, ih]
    cases a <;> rfl

theorem assign_inv (hash : K → Nat) {self a : HashMap K V} (hs : Inv hash self)
    (ha : Inv hash a) : Inv hash (assign self a) := by
  unfold assign
  split_ifs
  · exact hs
  · rw [assign_copy]; exact ha

theorem write_ref_inv (hash : K → Nat) {m : HashMap K V} (hinv : Inv hash m) (pos : Nat)
    (v : V) : Inv hash (write_ref m pos v) := by
  unfold write_ref
  cases hs : slot m.arr_ pos with
  | none => exact hinv
  | some p =>
    have hpl : pos < m.arr_.length := slot_lt hs
    have hcpos : 0 < m.arr_.length := by omega
    refine ⟨by simpa using hinv.cap_pow, by simpa using hinv.cap_min, ?_, by simpa using hinv.load,
      ?_, ?_⟩
    · have := occupied_set m.arr_ pos hpl (some (p.1, v))
      have hc := hinv.count_eq
      simp [hs] at this ⊢
      omega
    · refine hinv.order.set_some hinv.two_le hpl (p.1, v) ?_ ?_
      · intro hg
        obtain ⟨i, hi, hni⟩ := exists_prev hpl
        obtain ⟨kv1, hs1, hd1⟩ := hinv.order i hi p (by rw [hni]; exact hs) (by rw [hni]; exact hg)
        rw [hni] at hd1
        exact ⟨i, kv1, hi, hni, hs1, hd1⟩
      · intro kv hkv hg
        obtain ⟨kv1, hs1, hd1⟩ := hinv.order pos hpl kv hkv hg
        rw [hs] at hs1
        cases hs1
        exact hd1
    · refine hinv.uniq.put_some hpl (p.1, v) ?_
      intro j kv hj hsj hk
      exact hj (hinv.uniq j pos kv p hsj hs hk)

theorem subscript_inv [Inhabited V] (hash : K → Nat) {m r : HashMap K V} (hinv : Inv hash m)
    {f : Nat} {k : K} {pos : Nat} (h : subscript hash f m k = some (pos, r)) : Inv hash r := by
  unfold subscript at h
  cases hf : find hash f m k with
  | none => rw [hf] at h; cases h
  | some it =>
    rw [hf, Option.some_bind] at h
    split_ifs at h
    · cases hi : insert hash f m (k, default) with
      | none => rw [hi] at h; cases h
      | some m1 =>
        rw [hi, Option.some_bind] at h
        cases hf1 : find hash f m1 k with
        | none => rw [hf1] at h; cases h
        | some it1 =>
          rw [hf1] at h
          cases h
          exact insert_inv hash hinv hi
    · cases h
      exact hinv

/-- Every table built without an assignment from a table with another functor
satisfies the full representation invariant. -/
theorem ReachableSame.inv [Inhabited V] {hash : K → Nat} {t : HashMap K V}
    (h : ReachableSame hash t) : Inv hash t := by
  induction h with
  | default_ctor => exact new_inv hash
  | copy_ctor fuel a t _ hc => exact reinsert_inv hash fuel _ _ _ (new_inv hash) hc
  | range_ctor fuel l t hc => exact insert_range_inv hash fuel _ _ _ (new_inv hash) hc
  | insert fuel t t1 el _ hi ih => exact insert_inv hash ih hi
  | erase fuel t t1 key _ he ih => exact erase_inv hash ih he
  | subscript fuel t t1 key pos _ hs ih => exact subscript_inv hash ih hs
  | subscript_write fuel t t1 key pos v _ hs ih =>
    exact write_ref_inv hash (subscript_inv hash ih hs) pos v
  | clear t _ _ => rw [clear_eq]; exact new_inv hash
  | assign self a _ _ ihs iha => exact assign_inv hash ihs iha

/-! ## Lookup on a table that satisfies the invariant -/

theorem at_of_stored (hash : K → Nat) (m : HashMap K V) (hrh : RHOrder hash m.arr_)
    (hu : UniqueKeys m.arr_) {p : Nat} {k : K} {v : V} (hp : slot m.arr_ p = some (k, v))
    (fuel : Nat) (hfuel : m.arr_.length ≤ fuel) :
    at_ hash fuel m k = some (Except.ok v) := by
  have hpl : p < m.arr_.length := slot_lt hp
  rw [at_, find_of_stored hash m hrh hu hp fuel hfuel, Option.some_bind, if_neg (by omega), hp]
  rfl

theorem at_of_absent (hash : K → Nat) (m : HashMap K V) (k : K) (hk : ¬ HasKey m.arr_ k)
    (hfree : occupied m.arr_ < m.arr_.length) (fuel : Nat) (hfuel : m.arr_.length ≤ fuel) :
    at_ hash fuel m k = some (Except.error Error.out_of_range) := by
  rw [at_, find_of_absent hash m k hk hfree fuel hfuel, Option.some_bind, if_pos rfl]

theorem hasKey_insert {A B : List (Option (K × V))} {el : K × V}
    (h : ∀ kv, Stored B kv ↔ Stored A kv ∨ kv = el) (k : K) :
    HasKey B k ↔ HasKey A k ∨ k = el.1 := by
  rw [hasKey_iff_stored, hasKey_iff_stored]
  constructor
  · rintro ⟨v, hv⟩
    rcases (h _).1 hv with h1 | h1
    · exact Or.inl ⟨v, h1⟩
    · exact Or.inr (by rw [← h1])
  · rintro (⟨v, hv⟩ | hk)
    · exact ⟨v, (h _).2 (Or.inl hv)⟩
    · exact ⟨el.2, (h _).2 (Or.inr (by rw [hk]))⟩

/-! ## The stored pairs as a list -/

theorem mem_reduceOption_iff (A : List (Option (K × V))) (kv : K × V) :
    kv ∈ A.reduceOption ↔ Stored A kv := by
  induction A with
  | nil => simp [stored_nil]
  | cons a A ih =>
    cases a with
    | none => rw [List.reduceOption_cons_of_none, ih, stored_cons_none]
    | some p => rw [List.reduceOption_cons_of_some, List.mem_cons, ih, stored_cons_some]

theorem nodup_reduceOption {A : List (Option (K × V))} (hu : UniqueKeys A) :
    A.reduceOption.Nodup := by
  induction A with
  | nil => simp
  | cons a A ih =>
    cases a with
    | none => rw [List.reduceOption_cons_of_none]; exact ih (uniqueKeys_tail hu)
    | some p =>
      rw [List.reduceOption_cons_of_some, List.nodup_cons]
      refine ⟨?_, ih (uniqueKeys_tail hu)⟩
      intro hmem
      obtain ⟨i, hi⟩ := (mem_reduceOption_iff A p).1 hmem
      have := hu 0 (i + 1) p p (slot_cons_zero _ _) (by rw [slot_cons_succ]; exact hi) rfl
      omega

theorem perm_of_stored_iff {A B : List (Option (K × V))} (hA : UniqueKeys A)
    (hB : UniqueKeys B) (h : ∀ kv, Stored A kv ↔ Stored B kv) :
    A.reduceOption.Perm B.reduceOption := by
  rw [List.perm_ext_iff_of_nodup (nodup_reduceOption hA) (nodup_reduceOption hB)]
  intro kv
  rw [mem_reduceOption_iff, mem_reduceOption_iff]
  exact h kv

theorem hasKey_iff_mem (A : List (Option (K × V))) (k : K) :
    HasKey A k ↔ k ∈ A.reduceOption.map Prod.fst := by
  rw [hasKey_iff_stored, List.mem_map]
  constructor
  · rintro ⟨v, hv⟩
    exact ⟨(k, v), (mem_reduceOption_iff A _).2 hv, rfl⟩
  · rintro ⟨kv, hkv, rfl⟩
    exact ⟨kv.2, (mem_reduceOption_iff A _).1 hkv⟩

/-! ## The hash-independent invariant holds in every reachable table -/

theorem Inv.toSInv {hash : K → Nat} {m : HashMap K V} (h : Inv hash m) : SInv m :=
  ⟨h.cap_pow, h.cap_min, h.count_eq, h.load⟩

theorem SInv.cap_two_le {m : HashMap K V} (h : SInv m) : 2 ≤ m.arr_.length := by
  have := h.cap_min
  unfold MIN_SIZE at this
  omega

theorem SInv.cap_even {m : HashMap K V} (h : SInv m) : ∃ d, m.arr_.length = 2 * d := by
  obtain ⟨e, he⟩ := h.cap_pow
  have hmin := h.cap_min
  unfold MIN_SIZE at hmin
  cases e with
  | zero => rw [he] at hmin; simp at hmin
  | succ e => exact ⟨2 ^ e, by rw [he, pow_succ]; ring⟩

theorem SInv.has_free {m : HashMap K V} (h : SInv m) : occupied m.arr_ < m.arr_.length := by
  have h1 := h.cap_min
  have h2 := h.load
  have h3 := h.count_eq
  unfold MIN_SIZE at h1
  omega

/-- With an empty slot in the array the loop of `find` returns, for any functor,
the end position or an occupied slot. -/
theorem findLoop_total (hash : K → Nat) (m : HashMap K V) (k : K) {e : Nat}
    (he : e < m.arr_.length) (hempty : slot m.arr_ e = none) :
    ∀ fuel cur, cur < m.arr_.length → distance m.arr_.length cur e < fuel →
      ∃ r, findLoop hash fuel m k cur = some r ∧
        (r = m.arr_.length ∨ ∃ kv, slot m.arr_ r = some kv) := by
  intro fuel
  induction fuel with
  | zero => intro cur _ h; omega
  | succ f ih =>
    intro cur hcur hd
    cases hs : slot m.arr_ cur with
    | none => exact ⟨m.arr_.length, by simp [findLoop, hs], Or.inl rfl⟩
    | some o =>
      by_cases hk : hash o.1 = hash k ∧ o.1 = k
      · exact ⟨cur, by simp [findLoop, hs, hk], Or.inr ⟨o, hs⟩⟩
      · have hce : cur ≠ e := by
          intro h; rw [h, hempty] at hs; cases hs
        have hstep := distance_nextIndex_left hcur he hce
        obtain ⟨r, hr, hprop⟩ := ih (nextIndex m.arr_.length cur) (nextIndex_lt hcur) (by omega)
        refine ⟨r, ?_, hprop⟩
        rw [findLoop]
        simp only [hs, if_neg hk]
        exact hr

/-- With an empty slot in the array the probe loop of `insert` returns, for any
functor and any layout: the capacity is unchanged and either nothing was added or
the count and the number of occupied slots both grew by one. -/
theorem insertLoop_total (hash : K → Nat) :
    ∀ fuel (m : HashMap K V) (el : K × V) (target cur e : Nat), cur < m.arr_.length →
      e < m.arr_.length → slot m.arr_ e = none → distance m.arr_.length cur e < fuel →
      ∃ r, insertLoop hash fuel m el target cur = some r ∧ r.arr_.length = m.arr_.length ∧
        ((r.elements_count_ = m.elements_count_ ∧ occupied r.arr_ = occupied m.arr_) ∨
          (r.elements_count_ = m.elements_count_ + 1 ∧
            occupied r.arr_ = occupied m.arr_ + 1)) := by
  intro fuel
  induction fuel with
  | zero => intro m el target cur e _ _ _ h; omega
  | succ f ih =>
    intro m el target cur e hcur he hempty hd
    cases hs : slot m.arr_ cur with
    | none =>
      refine ⟨HashMap.mk (m.elements_count_ + 1) (m.arr_.set cur (some el)),
        by simp only [insertLoop, hs], by simp, Or.inr ⟨rfl, ?_⟩⟩
      have := occupied_set m.arr_ cur hcur (some el)
      simpa [hs] using this
    | some o =>
      have hce : cur ≠ e := by
        intro h; rw [h, hempty] at hs; cases hs
      have hstep := distance_nextIndex_left hcur he hce
      by_cases hk : hash o.1 = hash el.1 ∧ o.1 = el.1
      · exact ⟨m, by simp only [insertLoop, hs, if_pos hk], rfl, Or.inl ⟨rfl, rfl⟩⟩
      · by_cases hsw : distance m.arr_.length (gen_place hash m.arr_.length o.1) cur
            < distance m.arr_.length target cur
        · have hocc : occupied (m.arr_.set cur (some el)) = occupied m.arr_ := by
            have := occupied_set m.arr_ cur hcur (some el)
            simpa [hs] using this
          have hemp : slot (m.arr_.set cur (some el)) e = none := by
            rw [slot_set_ne _ hce]; exact hempty
          obtain ⟨r, hr, hlen, hcase⟩ :=
            ih (HashMap.mk m.elements_count_ (m.arr_.set cur (some el))) o
              (gen_place hash m.arr_.length o.1) (nextIndex m.arr_.length cur) e
              (by simpa using nextIndex_lt hcur) (by simpa using he) hemp
              (by simp only [List.length_set]; omega)
          simp only [List.length_set] at hr hlen hcase
          refine ⟨r, ?_, hlen, ?_⟩
          · rw [insertLoop]
            simp only [hs, if_neg hk, if_pos hsw]
            exact hr
          · rw [hocc] at hcase; exact hcase
        · obtain ⟨r, hr, hlen, hcase⟩ :=
            ih m el target (nextIndex m.arr_.length cur) e (nextIndex_lt hcur) he hempty
              (by omega)
          refine ⟨r, ?_, hlen, hcase⟩
          rw [insertLoop]
          simp only [hs, if_neg hk, if_neg hsw]
          exact hr

/-- With an empty slot in the array the backward-shift loop returns, for any
functor and any layout, and removes exactly one occupied slot. -/
theorem eraseLoop_total (hash : K → Nat) :
    ∀ fuel (m : HashMap K V) (cur e : Nat), 2 ≤ m.arr_.length → cur < m.arr_.length →
      (∃ kv, slot m.arr_ cur = some kv) → e < m.arr_.length → e ≠ cur →
      slot m.arr_ e = none → distance m.arr_.length (nextIndex m.arr_.length cur) e < fuel →
      ∃ r, eraseLoop hash fuel m cur = some r ∧ r.arr_.length = m.arr_.length ∧
        r.elements_count_ = m.elements_count_ - 1 ∧
        occupied r.arr_ + 1 = occupied m.arr_ := by
  intro fuel
  induction fuel with
  | zero => intro m cur e _ _ _ _ _ _ h; omega
  | succ f ih =>
    intro m cur e hc hcur hocc he hec hempty hd
    obtain ⟨kv, hkv⟩ := hocc
    have hnx : nextIndex m.arr_.length cur < m.arr_.length := nextIndex_lt hcur
    have hne : cur ≠ nextIndex m.arr_.length cur := fun h => nextIndex_ne_self hc h.symm
    have hstop : occupied (m.arr_.set cur none) + 1 = occupied m.arr_ := by
      have := occupied_set m.arr_ cur hcur none
      simpa [hkv] using this
    cases hs : slot m.arr_ (nextIndex m.arr_.length cur) with
    | none =>
      exact ⟨HashMap.mk (m.elements_count_ - 1) (m.arr_.set cur none),
        by simp only [eraseLoop, hs], by simp, rfl, hstop⟩
    | some boy =>
      by_cases hdis : gen_place hash m.arr_.length boy.1 ≠ nextIndex m.arr_.length cur
      · have hen : nextIndex m.arr_.length cur ≠ e := by
          intro h; rw [h, hempty] at hs; cases hs
        have hstep := distance_nextIndex_left hnx he hen
        have hsl := slot_set_set m.arr_ hcur hnx hne (some boy) (slot m.arr_ cur)
        have hocc1 : occupied ((m.arr_.set cur (some boy)).set (nextIndex m.arr_.length cur)
            (slot m.arr_ cur)) = occupied m.arr_ := by
          have e1 := occupied_set m.arr_ cur hcur (some boy)
          have e2 := occupied_set (m.arr_.set cur (some boy)) (nextIndex m.arr_.length cur)
            (by simpa using hnx) (slot m.arr_ cur)
          rw [slot_set_ne m.arr_ hne, hs] at e2
          rw [hkv] at e1 e2 ⊢
          simp at e1 e2
          omega
        obtain ⟨r, hr, hlen, hcnt, hoccr⟩ :=
          ih (HashMap.mk m.elements_count_
              ((m.arr_.set cur (some boy)).set (nextIndex m.arr_.length cur) (slot m.arr_ cur)))
            (nextIndex m.arr_.length cur) e (by simpa using hc) (by simpa using hnx)
            ⟨kv, by rw [hsl, if_pos rfl]; exact hkv⟩ (by simpa using he) (Ne.symm hen)
            (by rw [hsl, if_neg (Ne.symm hen), if_neg hec]; exact hempty)
            (by simp only [List.length_set]; omega)
        simp only [List.length_set] at hr hlen hcnt hoccr
        refine ⟨r, ?_, hlen, hcnt, by rw [hoccr, hocc1]⟩
        rw [eraseLoop]
        simp only [hs, if_pos hdis]
        exact hr
      · exact ⟨HashMap.mk (m.elements_count_ - 1) (m.arr_.set cur none),
          by simp only [eraseLoop, hs, if_neg hdis], by simp, rfl, hstop⟩

/-- Re-insertion into a table with enough room, for any functor and any source
array (duplicate keys are dropped by `insert`): no nested growth, and the count
stays equal to the number of occupied slots. -/
theorem reinsert_struct (hash : K → Nat) (f : Nat) :
    ∀ (l : List (Option (K × V))) (acc : HashMap K V), 2 ≤ acc.arr_.length →
      acc.elements_count_ = occupied acc.arr_ →
      2 * (acc.elements_count_ + occupied l) ≤ acc.arr_.length → acc.arr_.length ≤ f →
      ∃ r, reinsert (insert hash (f + 1)) l acc = some r ∧
        r.arr_.length = acc.arr_.length ∧ r.elements_count_ = occupied r.arr_ ∧
        r.elements_count_ ≤ acc.elements_count_ + occupied l := by
  intro l
  induction l with
  | nil =>
    intro acc _ hcnt _ _
    exact ⟨acc, rfl, rfl, hcnt, by omega⟩
  | cons x rest ih =>
    intro acc hc hcnt hroom hf
    cases x with
    | none =>
      rw [occupied_cons_none] at hroom
      obtain ⟨r, hr, hlen, hcr, hle⟩ := ih acc hc hcnt hroom hf
      exact ⟨r, by rw [reinsert]; exact hr, hlen, hcr, by rw [occupied_cons_none]; exact hle⟩
    | some p =>
      rw [occupied_cons_some] at hroom
      obtain ⟨e, he, hempty⟩ := exists_empty_slot acc.arr_ (by omega)
      have hg := gen_place_lt hash (by omega : 0 < acc.arr_.length) p.1
      have hdl := distance_lt hg he
      obtain ⟨a1, ha1, hlen1, hcase⟩ :=
        insertLoop_total hash f acc p (gen_place hash acc.arr_.length p.1)
          (gen_place hash acc.arr_.length p.1) e hg he hempty (by omega)
      have hins : insert hash (f + 1) acc p = some a1 := by
        rw [insert_no_growth hash f acc p (by omega)]; exact ha1
      obtain ⟨r, hr, hlen, hcr, hle⟩ :=
        ih a1 (by rw [hlen1]; exact hc) (by rcases hcase with h | h <;> omega)
          (by rw [hlen1]; rcases hcase with h | h <;> omega) (by rw [hlen1]; exact hf)
      refine ⟨r, ?_, by rw [hlen, hlen1], hcr, ?_⟩
      · rw [reinsert, hins, Option.some_bind]; exact hr
      · rw [occupied_cons_some]
        rcases hcase with h | h <;> omega

/-- Total correctness of `insert` for any functor on any table with the
hash-independent invariant: it returns, keeps that invariant (so the load factor is
at most one half), follows the growth rule, and adds at most one pair. -/
theorem insert_struct (hash : K → Nat) (m : HashMap K V) (hs : SInv m) (el : K × V)
    (fuel : Nat) (hfuel : 2 * m.arr_.length + 2 ≤ fuel) :
    ∃ m2, insert hash fuel m el = some m2 ∧ SInv m2 ∧
      m2.arr_.length = (if 2 * m.elements_count_ ≥ m.arr_.length then 2 * m.arr_.length
        else m.arr_.length) ∧
      m2.elements_count_ ≤ m.elements_count_ + 1 := by
  obtain ⟨f, rfl⟩ : ∃ f, fuel = f + 1 := ⟨fuel - 1, by omega⟩
  have hmin := hs.cap_min
  have hload := hs.load
  have hcnt := hs.count_eq
  unfold MIN_SIZE at hmin
  obtain ⟨e0, he0⟩ := hs.cap_pow
  have hstep : ∃ m1, try_extend (insert hash f) m = some m1 ∧
      m1.arr_.length = (if 2 * m.elements_count_ ≥ m.arr_.length then 2 * m.arr_.length
        else m.arr_.length) ∧
      m1.elements_count_ = occupied m1.arr_ ∧ m1.elements_count_ ≤ m.elements_count_ ∧
      2 * m1.elements_count_ + 2 ≤ m1.arr_.length := by
    by_cases hg : 2 * m.elements_count_ ≥ m.arr_.length
    · obtain ⟨f1, rfl⟩ : ∃ f1, f = f1 + 1 := ⟨f - 1, by omega⟩
      obtain ⟨r, hr, hlen, hcr, hle⟩ :=
        reinsert_struct hash f1 m.arr_
          (HashMap.mk 0 (List.replicate (2 * m.arr_.length) none))
          (by simp only [List.length_replicate]; omega) (by simp only [occupied_replicate])
          (by simp only [List.length_replicate]; omega)
          (by simp only [List.length_replicate]; omega)
      simp only [List.length_replicate, Nat.zero_add] at hlen hle
      refine ⟨r, ?_, by rw [if_pos hg]; exact hlen, hcr, by omega, by omega⟩
      rw [try_extend, if_pos hg, resize, vector_resize_nil]
      exact hr
    · obtain ⟨d, hd⟩ := hs.cap_even
      exact ⟨m, by rw [try_extend, if_neg hg], by rw [if_neg hg], hcnt, le_refl _, by omega⟩
  obtain ⟨m1, hm1, hlen1, hcnt1, hle1, hroom1⟩ := hstep
  have hlenge : m.arr_.length ≤ m1.arr_.length ∧ m1.arr_.length ≤ 2 * m.arr_.length := by
    rw [hlen1]; split_ifs <;> omega
  obtain ⟨e, he, hempty⟩ := exists_empty_slot m1.arr_ (by omega)
  have hg := gen_place_lt hash (by omega : 0 < m1.arr_.length) el.1
  have hdl := distance_lt hg he
  obtain ⟨m2, hm2, hlen2, hcase⟩ :=
    insertLoop_total hash f m1 el (gen_place hash m1.arr_.length el.1)
      (gen_place hash m1.arr_.length el.1) e hg he hempty (by omega)
  refine ⟨m2, ?_, ⟨?_, by rw [hlen2]; unfold MIN_SIZE; omega,
    by rcases hcase with h | h <;> omega,
    by rw [hlen2]; rcases hcase with h | h <;> omega⟩, by rw [hlen2]; exact hlen1,
    by rcases hcase with h | h <;> omega⟩
  · rw [insert_succ, hm1, Option.some_bind]; exact hm2
  · rw [hlen2, hlen1]
    split_ifs
    · exact ⟨e0 + 1, by rw [he0, pow_succ]; ring⟩
    · exact ⟨e0, he0⟩

/-- The shrink check before an erase, on any table with the hash-independent
invariant. -/
theorem try_shrink_struct (ins : HashMap K V → K × V → Option (HashMap K V))
    (m : HashMap K V) (hs : SInv m) :
    ∃ m1, try_shrink ins m = some m1 ∧ SInv m1 ∧
      m1.elements_count_ = m.elements_count_ ∧
      m1.arr_.length = (if m.elements_count_ = 0 ∧ m.arr_.length > MIN_SIZE
        then m.arr_.length / 2 else m.arr_.length) := by
  by_cases h : m.elements_count_ = 0 ∧ m.arr_.length > MIN_SIZE
  · obtain ⟨h0, hbig⟩ := h
    have hocc : occupied m.arr_ = 0 := by rw [← hs.count_eq]; exact h0
    obtain ⟨e, he⟩ := hs.cap_pow
    unfold MIN_SIZE at hbig
    have he4 : 4 ≤ e := by
      by_contra hlt
      have : 2 ^ e ≤ 2 ^ 3 := Nat.pow_le_pow_right (by norm_num) (by omega)
      omega
    obtain ⟨e1, rfl⟩ : ∃ e1, e = e1 + 1 := ⟨e - 1, by omega⟩
    have hhalf : m.arr_.length / 2 = 2 ^ e1 := by
      rw [he, pow_succ]; simp
    have h8 : 2 ^ 3 ≤ 2 ^ e1 := Nat.pow_le_pow_right (by norm_num) (by omega)
    refine ⟨HashMap.mk 0 (List.replicate (m.arr_.length / 2) none), ?_, ?_, h0.symm, ?_⟩
    · rw [try_shrink, if_pos ⟨h0, hbig⟩, resize, vector_resize_nil]
      exact reinsert_all_none ins _ _ hocc
    · refine ⟨⟨e1, by simp [hhalf]⟩, ?_, by simp [occupied_replicate], by simp⟩
      simp only [List.length_replicate, hhalf, MIN_SIZE]
      omega
    · rw [if_pos ⟨h0, hbig⟩]; simp
  · exact ⟨m, by rw [try_shrink, if_neg h], hs, rfl, by rw [if_neg h]⟩

/-- Total correctness of `erase` for any functor on any table with the
hash-independent invariant: it returns, keeps that invariant, follows the shrink
rule, and removes at most one pair. -/
theorem erase_struct (hash : K → Nat) (m : HashMap K V) (hs : SInv m) (key : K)
    (fuel : Nat) (hfuel : m.arr_.length ≤ fuel) :
    ∃ m2, erase hash fuel m key = some m2 ∧ SInv m2 ∧
      m2.arr_.length = (if m.elements_count_ = 0 ∧ m.arr_.length > MIN_SIZE
        then m.arr_.length / 2 else m.arr_.length) ∧
      m2.elements_count_ ≤ m.elements_count_ := by
  obtain ⟨m1, hm1, hs1, hcnt, hlen⟩ := try_shrink_struct (insert hash fuel) m hs
  have hlen1 : m1.arr_.length ≤ m.arr_.length := by
    rw [hlen]; split_ifs
    · exact Nat.div_le_self _ _
    · exact le_refl _
  obtain ⟨e, he, hempty⟩ := exists_empty_slot m1.arr_ hs1.has_free
  have hg := gen_place_lt hash (by omega : 0 < m1.arr_.length) key
  have hdl := distance_lt hg he
  obtain ⟨r, hr, hprop⟩ :=
    findLoop_total hash m1 key he hempty fuel (gen_place hash m1.arr_.length key) hg (by omega)
  have herase : erase hash fuel m key =
      (if r ≥ m1.arr_.length then some m1 else eraseLoop hash fuel m1 r) := by
    rw [erase, hm1, Option.some_bind, find, hr, Option.some_bind]
  by_cases hend : r ≥ m1.arr_.length
  · exact ⟨m1, by rw [herase, if_pos hend], hs1, hlen, by omega⟩
  · have hocc : ∃ kv, slot m1.arr_ r = some kv := by
      rcases hprop with h | h
      · omega
      · exact h
    have her : e ≠ r := by
      intro h; obtain ⟨kv, hkv⟩ := hocc; rw [← h, hempty] at hkv; cases hkv
    have hdl2 := distance_lt (nextIndex_lt (by omega : r < m1.arr_.length)) he
    obtain ⟨m2, hm2, hlen2, hcnt2, hocc2⟩ :=
      eraseLoop_total hash fuel m1 r e hs1.cap_two_le (by omega) hocc he her hempty (by omega)
    have hc1 := hs1.count_eq
    have hl1 := hs1.load
    refine ⟨m2, by rw [herase, if_neg hend]; exact hm2,
      ⟨by rw [hlen2]; exact hs1.cap_pow, by rw [hlen2]; exact hs1.cap_min, by omega,
        by rw [hlen2]; omega⟩, by rw [hlen2]; exact hlen, by omega⟩

theorem insert_sinv (hash : K → Nat) {m r : HashMap K V} (hs : SInv m) {f : Nat}
    {el : K × V} (h : insert hash f m el = some r) : SInv r := by
  obtain ⟨m2, h2, hs2, _⟩ :=
    insert_struct hash m hs el (max f (2 * m.arr_.length + 2)) (le_max_right _ _)
  have := insert_mono hash (le_max_left f (2 * m.arr_.length + 2)) m el r h
  rw [h2] at this
  cases this
  exact hs2

theorem erase_sinv (hash : K → Nat) {m r : HashMap K V} (hs : SInv m) {f : Nat}
    {k : K} (h : erase hash f m k = some r) : SInv r := by
  obtain ⟨m2, h2, hs2, _⟩ := erase_struct hash m hs k (max f m.arr_.length) (le_max_right _ _)
  have := erase_mono hash (le_max_left f m.arr_.length) m k r h
  rw [h2] at this
  cases this
  exact hs2

theorem reinsert_sinv (hash : K → Nat) (f : Nat) :
    ∀ (l : List (Option (K × V))) (acc r : HashMap K V), SInv acc →
      reinsert (insert hash f) l acc = some r → SInv r := by
  intro l
  induction l with
  | nil => intro acc r hs h; cases h; exact hs
  | cons x rest ih =>
    intro acc r hs h
    cases x with
    | none => rw [reinsert] at h; exact ih acc r hs h
    | some p =>
      rw [reinsert] at h
      cases hi : insert hash f acc p with
      | none => rw [hi] at h; cases h
      | some a1 =>
        rw [hi, Option.some_bind] at h
        exact ih a1 r (insert_sinv hash hs hi) h

theorem insert_range_sinv (hash : K → Nat) (f : Nat) :
    ∀ (l : List (K × V)) (acc r : HashMap K V), SInv acc →
      insert_range (insert hash f) l acc = some r → SInv r := by
  intro l
  induction l with
  | nil => intro acc r hs h; cases h; exact hs
  | cons p rest ih =>
    intro acc r hs h
    rw [insert_range] at h
    cases hi : insert hash f acc p with
    | none => rw [hi] at h; cases h
    | some a1 =>
      rw [hi, Option.some_bind] at h
      exact ih a1 r (insert_sinv hash hs hi) h

theorem new_sinv : SInv (HashMap.new : HashMap K V) :=
  (new_inv fun _ => 0).toSInv

theorem arr_ptr_eq_iff (x y : List (Option (K × V))) (h : arr_ptr_eq x y = true) :
    x = y ∧ occupied x = 0 := by
  simp only [arr_ptr_eq, Bool.and_eq_true, decide_eq_true_eq, List.all_eq_true] at h
  obtain ⟨⟨hlen, hx⟩, hy⟩ := h
  have hx1 : x = List.replicate x.length none := by
    rw [List.eq_replicate_iff]
    exact ⟨rfl, fun b hb => by simpa using hx b hb⟩
  have hy1 : y = List.replicate y.length none := by
    rw [List.eq_replicate_iff]
    exact ⟨rfl, fun b hb => by simpa using hy b hb⟩
  constructor
  · rw [hx1, hy1, hlen]
  · rw [hx1, occupied_replicate]

/-- On tables whose count equals the number of occupied slots, `self = a` leaves
`self` equal to `a` on both branches of `operator=`; no functor is involved. -/
theorem assign_eq_of_count {self a : HashMap K V}
    (hs : self.elements_count_ = occupied self.arr_)
    (ha : a.elements_count_ = occupied a.arr_) : assign self a = a := by
  unfold assign
  split_ifs with h
  · obtain ⟨harr, hocc⟩ := arr_ptr_eq_iff _ _ h
    have h1 : self.elements_count_ = a.elements_count_ := by
      rw [hs, ha, ← harr]
    cases self
    cases a
    simp only at harr h1
    rw [harr, h1]
  · rw [assign_copy]

theorem write_ref_sinv {m : HashMap K V} (hs : SInv m) (pos : Nat) (v : V) :
    SInv (write_ref m pos v) := by
  unfold write_ref
  cases hsl : slot m.arr_ pos with
  | none => exact hs
  | some p =>
    have hpl : pos < m.arr_.length := slot_lt hsl
    refine ⟨by simpa using hs.cap_pow, by simpa using hs.cap_min, ?_, by simpa using hs.load⟩
    have := occupied_set m.arr_ pos hpl (some (p.1, v))
    have hc := hs.count_eq
    simp [hsl] at this ⊢
    omega

theorem subscript_sinv [Inhabited V] (hash : K → Nat) {m r : HashMap K V} (hs : SInv m)
    {f : Nat} {k : K} {pos : Nat} (h : subscript hash f m k = some (pos, r)) : SInv r := by
  unfold subscript at h
  cases hf : find hash f m k with
  | none => rw [hf] at h; cases h
  | some it =>
    rw [hf, Option.some_bind] at h
    split_ifs at h
    · cases hi : insert hash f m (k, default) with
      | none => rw [hi] at h; cases h
      | some m1 =>
        rw [hi, Option.some_bind] at h
        cases hf1 : find hash f m1 k with
        | none => rw [hf1] at h; cases h
        | some it1 =>
          rw [hf1] at h
          cases h
          exact insert_sinv hash hs hi
    · cases h
      exact hs

/-- Every table a program can build, with any mix of functors, satisfies the
hash-independent invariant. -/
theorem Reachable.sinv [Inhabited V] {hash : K → Nat} {t : HashMap K V}
    (h : Reachable hash t) : SInv t := by
  induction h with
  | default_ctor => exact new_sinv
  | copy_ctor fuel a t _ hc _ => exact reinsert_sinv _ fuel _ _ _ new_sinv hc
  | range_ctor fuel l t hc => exact insert_range_sinv _ fuel _ _ _ new_sinv hc
  | insert fuel t t1 el _ hi ih => exact insert_sinv _ ih hi
  | erase fuel t t1 key _ he ih => exact erase_sinv _ ih he
  | subscript fuel t t1 key pos _ hs ih => exact subscript_sinv _ ih hs
  | subscript_write fuel t t1 key pos v _ hs ih =>
    exact write_ref_sinv (subscript_sinv _ ih hs) pos v
  | clear t _ _ => rw [clear_eq]; exact new_sinv
  | assign self a _ _ ihs iha =>
    rw [assign_eq_of_count ihs.count_eq iha.count_eq]; exact iha

/-- A table of `ReachableSame` is reachable. -/
theorem ReachableSame.reachable [Inhabited V] {hash : K → Nat} {t : HashMap K V}
    (h : ReachableSame hash t) : Reachable hash t := by
  induction h with
  | default_ctor => exact Reachable.default_ctor
  | copy_ctor fuel a t ha hc => exact Reachable.copy_ctor fuel a t ha hc
  | range_ctor fuel l t hc => exact Reachable.range_ctor fuel l t hc
  | insert fuel t t1 el _ hi ih => exact Reachable.insert fuel t t1 el ih hi
  | erase fuel t t1 key _ he ih => exact Reachable.erase fuel t t1 key ih he
  | subscript fuel t t1 key pos _ hs ih => exact Reachable.subscript fuel t t1 key pos ih hs
  | subscript_write fuel t t1 key pos v _ hs ih =>
    exact Reachable.subscript_write fuel t t1 key pos v ih hs
  | clear t _ ih => exact Reachable.clear t ih
  | assign self a _ _ ihs iha => exact Reachable.assign self a ihs iha

/-! ## The example table -/

theorem exTable_reachable : Reachable exHash exTable :=
  Reachable.range_ctor 18 [(1, 10), (9, 90), (17, 170), (2, 20)] exTable (by rfl)

theorem exPair_reachable : Reachable exHash exPair :=
  Reachable.range_ctor 18 [(1, 10), (3, 30)] exPair (by rfl)

theorem exTriple_reachable : Reachable exHash exTriple :=
  Reachable.range_ctor 18 [(1, 10), (2, 20), (3, 30)] exTriple (by rfl)

/-- The table `b` after `HashMap b(exHash2); b = a;` where `a` is `exTable`, built with
`exHash`: the slots of `a` under the functor of `b`. -/
theorem exTable_cross : Reachable exHash2 exTable :=
  Reachable.assign HashMap.new exTable Reachable.default_ctor exTable_reachable

/-- The table `b` after `HashMap b(exHash2); b = a;` where `a` is `exPair`. -/
theorem exPair_cross : Reachable exHash2 exPair :=
  Reachable.assign HashMap.new exPair Reachable.default_ctor exPair_reachable

/-- The table `b` after `HashMap b(exHash3); b = a;` where `a` is `exTriple`. -/
theorem exTriple_cross : Reachable exHash3 exTriple :=
  Reachable.assign HashMap.new exTriple Reachable.default_ctor exTriple_reachable

theorem exDup_cross : Reachable exHash2 exDup :=
  Reachable.insert 18 exPair exDup (3, 99) exPair_cross (by rfl)

theorem exDup4_cross : Reachable exHash2 exDup4 :=
  Reachable.insert 18 exDup exDup4 (1, 11) exDup_cross (by rfl)

/-! ## The claims -/

/-- On a table whose layout is consistent with its functor (`Inv`), inserting a
pair `(k, v)` whose key is not stored returns a table in which `find k` gives a
non-sentinel cursor (to a slot holding `(k, v)`), `at k` returns `v` and `size` is
one larger; this holds whether or not the growth check rehashed, for every fuel
from `2 * capacity + 2` on. -/
theorem insert_absent_of_inv [Inhabited V] (hash : K → Nat) (t : HashMap K V)
    (ht : Inv hash t) (k : K) (v : V) (habs : ¬ HasKey t.arr_ k) (fuel : Nat)
    (hfuel : 2 * t.arr_.length + 2 ≤ fuel) :
    ∃ t1, insert hash fuel t (k, v) = some t1 ∧
      (∃ pos, find hash fuel t1 k = some pos ∧ pos < t1.arr_.length ∧
        slot t1.arr_ pos = some (k, v)) ∧
      at_ hash fuel t1 k = some (Except.ok v) ∧
      size t1 = size t + 1 := by
  obtain ⟨m1, t1, _, hins, hinv1, hlen, _, _, hnew, _⟩ :=
    insert_spec hash t ht (k, v) fuel hfuel
  obtain ⟨hcnt, hst⟩ := hnew habs
  obtain ⟨pos, hpos⟩ := (hst (k, v)).2 (Or.inr rfl)
  have hf : t1.arr_.length ≤ fuel := by
    rw [hlen]; split_ifs <;> omega
  exact ⟨t1, hins, ⟨pos, find_of_stored hash t1 hinv1.order hinv1.uniq hpos fuel hf, slot_lt hpos,
    hpos⟩, at_of_stored hash t1 hinv1.order hinv1.uniq hpos fuel hf, hcnt⟩

/-- On a table whose layout is consistent with its functor (`Inv`) and that stores
`k` with `v1`, `insert (k, v2)` returns exactly the table left by the growth check:
the probe loop meets the stored copy of `k` and returns its table unchanged (no
swap was performed), so `at k` is still `v1`, `size` is unchanged and the stored
pairs are a permutation of the pairs before. -/
theorem insert_present_of_inv [Inhabited V] (hash : K → Nat) (t : HashMap K V)
    (ht : Inv hash t) (k : K) (v1 : V) (hst : Stored t.arr_ (k, v1)) (v2 : V)
    (fuel : Nat) (hfuel : 2 * t.arr_.length + 2 ≤ fuel) :
    ∃ t0 t1, try_extend (insert hash (fuel - 1)) t = some t0 ∧
      insertLoop hash (fuel - 1) t0 (k, v2) (gen_place hash t0.arr_.length k)
        (gen_place hash t0.arr_.length k) = some t0 ∧
      insert hash fuel t (k, v2) = some t1 ∧ t1 = t0 ∧
      at_ hash fuel t1 k = some (Except.ok v1) ∧
      size t1 = size t ∧
      t1.arr_.reduceOption.Perm t.arr_.reduceOption ∧
      (2 * size t < t.arr_.length → t1 = t) := by
  obtain ⟨t0, t1, hext, hins, hinv1, hlen, hst0, hold, _, hsame⟩ :=
    insert_spec hash t ht (k, v2) fuel hfuel
  obtain ⟨h10, hcnt⟩ := hold ((hasKey_iff_stored _ _).2 ⟨v1, hst⟩)
  subst h10
  obtain ⟨pos, hpos⟩ := (hst0 (k, v1)).2 hst
  have hf : t1.arr_.length ≤ fuel := by
    rw [hlen]; split_ifs <;> omega
  refine ⟨t1, t1, hext, ?_, hins, rfl, at_of_stored hash t1 hinv1.order hinv1.uniq hpos fuel hf,
    hcnt, perm_of_stored_iff hinv1.uniq ht.uniq hst0, hsame⟩
  obtain ⟨f, rfl⟩ : ∃ f, fuel = f + 1 := ⟨fuel - 1, by omega⟩
  rw [Nat.add_sub_cancel] at hext ⊢
  rw [insert_succ, hext, Option.some_bind] at hins
  exact hins

/-- On a table whose layout is consistent with its functor (`Inv`), `erase k`
returns a table in which `find k` gives the end sentinel; `size` drops by exactly
one when `k` was stored and is unchanged when it was not. -/
theorem erase_of_inv [Inhabited V] (hash : K → Nat) (t : HashMap K V) (ht : Inv hash t)
    (k : K) (fuel : Nat) (hfuel : t.arr_.length ≤ fuel) :
    ∃ t1, erase hash fuel t k = some t1 ∧
      find hash fuel t1 k = some t1.arr_.length ∧
      (HasKey t.arr_ k → size t1 + 1 = size t) ∧
      (¬ HasKey t.arr_ k → size t1 = size t) := by
  obtain ⟨m1, t1, _, hers, hinv1, hlen, hst, hyes, hno⟩ := erase_spec hash t ht k fuel hfuel
  have hgone : ¬ HasKey t1.arr_ k := by
    rintro ⟨i, v, hi⟩
    exact ((hst (k, v)).1 ⟨i, hi⟩).2 rfl
  have hf : t1.arr_.length ≤ fuel := by
    rw [hlen]; split_ifs
    · exact le_trans (Nat.div_le_self _ _) hfuel
    · exact hfuel
  exact ⟨t1, hers, find_of_absent hash t1 k hgone hinv1.free fuel hf, hyes,
    fun h => (hno h).2⟩

/-- Lookup of a key on a table that satisfies the invariant, by cases on whether
the key is stored. -/
theorem lookup_cases (hash : K → Nat) (m : HashMap K V) (hinv : Inv hash m) (k : K)
    (fuel : Nat) (hfuel : m.arr_.length ≤ fuel) :
    (∃ p v, slot m.arr_ p = some (k, v) ∧ p < m.arr_.length ∧ find hash fuel m k = some p ∧
        at_ hash fuel m k = some (Except.ok v)) ∨
      (¬ HasKey m.arr_ k ∧ find hash fuel m k = some m.arr_.length ∧
        at_ hash fuel m k = some (Except.error Error.out_of_range)) := by
  by_cases hk : HasKey m.arr_ k
  · obtain ⟨p, v, hp⟩ := hk
    exact Or.inl ⟨p, v, hp, slot_lt hp, find_of_stored hash m hinv.order hinv.uniq hp fuel hfuel,
      at_of_stored hash m hinv.order hinv.uniq hp fuel hfuel⟩
  · exact Or.inr ⟨hk, find_of_absent hash m k hk hinv.free fuel hfuel,
      at_of_absent hash m k hk hinv.free fuel hfuel⟩

/-- On a table whose layout is consistent with its functor (`Inv`), `erase k`
leaves every other key `k1` as it was: the same pairs with key `k1` are stored,
`find k1` succeeds afterwards exactly when it succeeded before, and `at k1` gives
the same result. -/
theorem erase_frame_of_inv [Inhabited V] (hash : K → Nat) (t : HashMap K V)
    (ht : Inv hash t) (k k1 : K) (hne : k1 ≠ k) (fuel : Nat)
    (hfuel : t.arr_.length ≤ fuel) :
    ∃ t1 pos pos1 r, erase hash fuel t k = some t1 ∧
      (∀ v, Stored t1.arr_ (k1, v) ↔ Stored t.arr_ (k1, v)) ∧
      find hash fuel t k1 = some pos ∧ find hash fuel t1 k1 = some pos1 ∧
      (pos1 < t1.arr_.length ↔ pos < t.arr_.length) ∧
      at_ hash fuel t k1 = some r ∧ at_ hash fuel t1 k1 = some r := by
  obtain ⟨m1, t1, _, hers, hinv1, hlen, hst, _, _⟩ := erase_spec hash t ht k fuel hfuel
  have hf : t1.arr_.length ≤ fuel := by
    rw [hlen]; split_ifs
    · exact le_trans (Nat.div_le_self _ _) hfuel
    · exact hfuel
  have hkeep : ∀ v, Stored t1.arr_ (k1, v) ↔ Stored t.arr_ (k1, v) := by
    intro v
    rw [hst]
    exact ⟨fun h => h.1, fun h => ⟨h, hne⟩⟩
  rcases lookup_cases hash t ht k1 fuel hfuel with ⟨p, v, hp, hpl, hfind, hat⟩ | ⟨hk, hfind, hat⟩
  · obtain ⟨p1, hp1⟩ := (hkeep v).2 ⟨p, hp⟩
    exact ⟨t1, p, p1, Except.ok v, hers, hkeep, hfind,
      find_of_stored hash t1 hinv1.order hinv1.uniq hp1 fuel hf,
      ⟨fun _ => hpl, fun _ => slot_lt hp1⟩, hat,
      at_of_stored hash t1 hinv1.order hinv1.uniq hp1 fuel hf⟩
  · have hk1 : ¬ HasKey t1.arr_ k1 := by
      rintro ⟨i, v, hi⟩
      exact hk ((hasKey_iff_stored _ _).2 ⟨v, (hkeep v).1 ⟨i, hi⟩⟩)
    exact ⟨t1, t.arr_.length, t1.arr_.length, Except.error Error.out_of_range, hers, hkeep, hfind,
      find_of_absent hash t1 k1 hk1 hinv1.free fuel hf,
      ⟨fun h => absurd h (lt_irrefl _), fun h => absurd h (lt_irrefl _)⟩, hat,
      at_of_absent hash t1 k1 hk1 hinv1.free fuel hf⟩

/-- On a table whose layout is consistent with its functor (`Inv`), `find k` stops
within `capacity` probes; the answer is an index below the capacity whose slot
holds key `k` when `k` is stored, and the sentinel index `capacity` when it is
not. -/
theorem find_of_inv [Inhabited V] (hash : K → Nat) (t : HashMap K V) (ht : Inv hash t)
    (k : K) :
    ∃ i, find hash t.arr_.length t k = some i ∧
      (∀ fuel, t.arr_.length ≤ fuel → find hash fuel t k = some i) ∧
      (HasKey t.arr_ k → i < t.arr_.length ∧ ∃ v, slot t.arr_ i = some (k, v)) ∧
      (¬ HasKey t.arr_ k → i = t.arr_.length) := by
  by_cases hk : HasKey t.arr_ k
  · obtain ⟨p, v, hp⟩ := hk
    exact ⟨p, find_of_stored hash t ht.order ht.uniq hp _ (le_refl _),
      fun fuel hf => find_of_stored hash t ht.order ht.uniq hp fuel hf,
      fun _ => ⟨slot_lt hp, v, hp⟩, fun h => absurd ⟨p, v, hp⟩ h⟩
  · exact ⟨t.arr_.length, find_of_absent hash t k hk ht.free _ (le_refl _),
      fun fuel hf => find_of_absent hash t k hk ht.free fuel hf,
      fun h => absurd h hk, fun _ => rfl⟩

/-- On a table whose layout is consistent with its functor (`Inv`), `at k` fails
with `out_of_range` exactly when `k` is not stored, and returns the stored value
when `k` is stored with `v`. -/
theorem at_of_inv [Inhabited V] (hash : K → Nat) (t : HashMap K V) (ht : Inv hash t)
    (k : K) (fuel : Nat) (hfuel : t.arr_.length ≤ fuel) :
    (at_ hash fuel t k = some (Except.error Error.out_of_range) ↔ ¬ HasKey t.arr_ k) ∧
      (∀ v, Stored t.arr_ (k, v) → at_ hash fuel t k = some (Except.ok v)) := by
  constructor
  · constructor
    · rintro h ⟨p, v, hp⟩
      rw [at_of_stored hash t ht.order ht.uniq hp fuel hfuel] at h
      cases h
    · exact fun hk => at_of_absent hash t k hk ht.free fuel hfuel
  · rintro v ⟨p, hp⟩
    exact at_of_stored hash t ht.order ht.uniq hp fuel hfuel

/-- On a table whose layout is consistent with its functor (`Inv`), `operator[] k`
on an absent key returns a reference into a table that stores `(k, default)`, whose
`size` is one larger and on which `at k` returns the default value; on a stored key
it returns a reference to the stored value and the very same table. -/
theorem subscript_of_inv [Inhabited V] (hash : K → Nat) (t : HashMap K V) (ht : Inv hash t)
    (k : K) (fuel : Nat) (hfuel : 2 * t.arr_.length + 2 ≤ fuel) :
    (¬ HasKey t.arr_ k → ∃ pos t1, subscript hash fuel t k = some (pos, t1) ∧
        slot t1.arr_ pos = some (k, default) ∧ read_ref t1 pos = some default ∧
        size t1 = size t + 1 ∧ at_ hash fuel t1 k = some (Except.ok default)) ∧
      (∀ v, Stored t.arr_ (k, v) → ∃ pos, subscript hash fuel t k = some (pos, t) ∧
        slot t.arr_ pos = some (k, v) ∧ read_ref t pos = some v) := by
  constructor
  · intro habs
    obtain ⟨m1, t1, _, hins, hinv1, hlen, _, _, hnew, _⟩ :=
      insert_spec hash t ht (k, default) fuel hfuel
    obtain ⟨hcnt, hst⟩ := hnew habs
    obtain ⟨pos, hpos⟩ := (hst (k, default)).2 (Or.inr rfl)
    have hf : t1.arr_.length ≤ fuel := by
      rw [hlen]; split_ifs <;> omega
    refine ⟨pos, t1, ?_, hpos, by rw [read_ref, hpos]; rfl, hcnt,
      at_of_stored hash t1 hinv1.order hinv1.uniq hpos fuel hf⟩
    rw [subscript, find_of_absent hash t k habs ht.free fuel (by omega), Option.some_bind,
      if_pos rfl, hins, Option.some_bind,
      find_of_stored hash t1 hinv1.order hinv1.uniq hpos fuel hf]
    rfl
  · rintro v ⟨pos, hpos⟩
    have hpl : pos < t.arr_.length := slot_lt hpos
    refine ⟨pos, ?_, hpos, by rw [read_ref, hpos]; rfl⟩
    rw [subscript, find_of_stored hash t ht.order ht.uniq hpos fuel (by omega),
      Option.some_bind, if_neg (by omega)]

/-- C8: in every reachable table (any mix of functors in its history), `insert p`
returns a table with `2 * size ≤ capacity`, for every pair `p` (new key or not). -/
theorem C8_load_factor [Inhabited V] (hash : K → Nat) (t : HashMap K V)
    (ht : Reachable hash t) (p : K × V) (fuel : Nat) (hfuel : 2 * t.arr_.length + 2 ≤ fuel) :
    ∃ t1, insert hash fuel t p = some t1 ∧ 2 * size t1 ≤ t1.arr_.length := by
  obtain ⟨t1, hins, hs1, _⟩ := insert_struct hash t ht.sinv p fuel hfuel
  exact ⟨t1, hins, hs1.load⟩

theorem C8_load_factor_witness :
    Reachable exHash exTable ∧ 2 * exTable.arr_.length + 2 ≤ 18 ∧
    ∃ t1, insert exHash 18 exTable (33, 1) = some t1 ∧ 2 * size t1 ≤ t1.arr_.length :=
  ⟨exTable_reachable, by decide,
    C8_load_factor exHash exTable exTable_reachable (33, 1) 18 (by decide)⟩

/-- C9: the capacity of every reachable table (any mix of functors in its history)
is a power of two and at least 8. -/
theorem C9_capacity [Inhabited V] (hash : K → Nat) (t : HashMap K V)
    (ht : Reachable hash t) : (∃ e, t.arr_.length = 2 ^ e) ∧ 8 ≤ t.arr_.length :=
  ⟨ht.sinv.cap_pow, ht.sinv.cap_min⟩

theorem C9_capacity_witness :
    Reachable exHash exTable ∧ (∃ e, exTable.arr_.length = 2 ^ e) ∧ 8 ≤ exTable.arr_.length :=
  ⟨exTable_reachable, C9_capacity exHash exTable exTable_reachable⟩

/-- Inserting a key that is not stored, on a table that satisfies the invariant. -/
theorem insert_fresh (hash : K → Nat) (m : HashMap K V) (hinv : Inv hash m) (el : K × V)
    (habs : ¬ HasKey m.arr_ el.1) (fuel : Nat) (hfuel : 2 * m.arr_.length + 2 ≤ fuel) :
    ∃ m2, insert hash fuel m el = some m2 ∧ Inv hash m2 ∧ size m2 = size m + 1 ∧
      m2.arr_.length = (if 2 * size m ≥ m.arr_.length then 2 * m.arr_.length
        else m.arr_.length) ∧
      ∀ k, HasKey m2.arr_ k ↔ HasKey m.arr_ k ∨ k = el.1 := by
  obtain ⟨m1, m2, _, hins, hinv2, hlen, _, _, hnew, _⟩ := insert_spec hash m hinv el fuel hfuel
  obtain ⟨hcnt, hst⟩ := hnew habs
  exact ⟨m2, hins, hinv2, hcnt, hlen, hasKey_insert hst⟩

theorem not_hasKey_new (k : K) : ¬ HasKey (HashMap.new : HashMap K V).arr_ k := by
  rw [new_arr]; exact not_hasKey_replicate _ _

/-- C10: in a reachable table with capacity `c` and size `n`, `insert p` returns a
table of capacity exactly `2 * c` when `2 * n ≥ c` and exactly `c` otherwise (so the
re-insertion inside `resize` never grows again).  In particular, inserting four
distinct keys into a new table gives size 4 at capacity 8, and a fifth distinct
key gives size 5 at capacity 16. -/
theorem C10_growth [Inhabited V] (hash : K → Nat) (t : HashMap K V) (ht : Reachable hash t)
    (p : K × V) (fuel : Nat) (hfuel : 2 * t.arr_.length + 2 ≤ fuel)
    (k1 k2 k3 k4 k5 : K) (v1 v2 v3 v4 v5 : V) (hd : [k1, k2, k3, k4, k5].Nodup)
    (fuel2 : Nat) (hfuel2 : 18 ≤ fuel2) :
    (∃ t1, insert hash fuel t p = some t1 ∧
      t1.arr_.length = (if 2 * size t ≥ t.arr_.length then 2 * t.arr_.length
        else t.arr_.length)) ∧
    (∃ a1 a2 a3 a4 a5, insert hash fuel2 HashMap.new (k1, v1) = some a1 ∧
      insert hash fuel2 a1 (k2, v2) = some a2 ∧ insert hash fuel2 a2 (k3, v3) = some a3 ∧
      insert hash fuel2 a3 (k4, v4) = some a4 ∧ size a4 = 4 ∧ a4.arr_.length = 8 ∧
      insert hash fuel2 a4 (k5, v5) = some a5 ∧ size a5 = 5 ∧ a5.arr_.length = 16) := by
  constructor
  · obtain ⟨t1, hins, _, hlen, _⟩ := insert_struct hash t ht.sinv p fuel hfuel
    exact ⟨t1, hins, hlen⟩
  · simp only [List.nodup_cons, List.mem_cons, List.mem_singleton, not_or, List.not_mem_nil,
      not_false_eq_true, List.nodup_nil, and_true] at hd
    obtain ⟨⟨h12, h13, h14, h15⟩, ⟨h23, h24, h25⟩, ⟨h34, h35⟩, h45⟩ := hd
    have hs0 : size (HashMap.new : HashMap K V) = 0 := rfl
    have hl0 : (HashMap.new : HashMap K V).arr_.length = 8 := by rw [new_arr]; rfl
    obtain ⟨a1, hi1, hinv1, hs1, hl1, hk1⟩ :=
      insert_fresh hash HashMap.new (new_inv hash) (k1, v1) (not_hasKey_new k1) fuel2
        (by rw [hl0]; omega)
    rw [hs0, hl0, if_neg (by omega)] at hl1
    obtain ⟨a2, hi2, hinv2, hs2, hl2, hk2⟩ :=
      insert_fresh hash a1 hinv1 (k2, v2)
        (by rw [hk1]; simp only [not_or]; exact ⟨not_hasKey_new _, Ne.symm h12⟩) fuel2
        (by rw [hl1]; omega)
    rw [hs1, hs0, hl1, if_neg (by omega)] at hl2
    obtain ⟨a3, hi3, hinv3, hs3, hl3, hk3⟩ :=
      insert_fresh hash a2 hinv2 (k3, v3)
        (by rw [hk2, hk1]; simp only [not_or]
            exact ⟨⟨not_hasKey_new _, Ne.symm h13⟩, Ne.symm h23⟩) fuel2
        (by rw [hl2]; omega)
    rw [hs2, hs1, hs0, hl2, if_neg (by omega)] at hl3
    obtain ⟨a4, hi4, hinv4, hs4, hl4, hk4⟩ :=
      insert_fresh hash a3 hinv3 (k4, v4)
        (by rw [hk3, hk2, hk1]; simp only [not_or]
            exact ⟨⟨⟨not_hasKey_new _, Ne.symm h14⟩, Ne.symm h24⟩, Ne.symm h34⟩) fuel2
        (by rw [hl3]; omega)
    rw [hs3, hs2, hs1, hs0, hl3, if_neg (by omega)] at hl4
    obtain ⟨a5, hi5, hinv5, hs5, hl5, hk5⟩ :=
      insert_fresh hash a4 hinv4 (k5, v5)
        (by rw [hk4, hk3, hk2, hk1]; simp only [not_or]
            exact ⟨⟨⟨⟨not_hasKey_new _, Ne.symm h15⟩, Ne.symm h25⟩, Ne.symm h35⟩, Ne.symm h45⟩)
        fuel2 (by rw [hl4]; omega)
    rw [hs4, hs3, hs2, hs1, hs0, hl4, if_pos (by omega)] at hl5
    exact ⟨a1, a2, a3, a4, a5, hi1, hi2, hi3, hi4, by rw [hs4, hs3, hs2, hs1, hs0], hl4, hi5,
      by rw [hs5, hs4, hs3, hs2, hs1, hs0], hl5⟩

theorem C10_growth_witness :
    Reachable exHash exTable ∧ 2 * exTable.arr_.length + 2 ≤ 18 ∧
    [3, 11, 19, 4, 27].Nodup ∧ 18 ≤ 18 ∧
    (∃ t1, insert exHash 18 exTable (5, 50) = some t1 ∧
      t1.arr_.length = (if 2 * size exTable ≥ exTable.arr_.length then 2 * exTable.arr_.length
        else exTable.arr_.length)) ∧
    (∃ a1 a2 a3 a4 a5, insert exHash 18 HashMap.new (3, 0) = some a1 ∧
      insert exHash 18 a1 (11, 1) = some a2 ∧ insert exHash 18 a2 (19, 2) = some a3 ∧
      insert exHash 18 a3 (4, 3) = some a4 ∧ size a4 = 4 ∧ a4.arr_.length = 8 ∧
      insert exHash 18 a4 (27, 4) = some a5 ∧ size a5 = 5 ∧ a5.arr_.length = 16) :=
  ⟨exTable_reachable, by decide, by decide, by decide,
    C10_growth exHash exTable exTable_reachable (5, 50) 18 (by decide) 3 11 19 4 27 0 1 2 3 4
      (by decide) 18 (by decide)⟩

/-! ## Further example tables -/

theorem exOne_reachable : Reachable exHash exOne :=
  Reachable.insert 18 HashMap.new exOne (3, 30) Reachable.default_ctor (by rfl)

theorem exEmpty16_reachable : Reachable exHash exEmpty16 :=
  Reachable.erase 16 _ exEmpty16 5
    (Reachable.erase 16 _ _ 2
      (Reachable.erase 16 _ _ 17
        (Reachable.erase 16 _ _ 9
          (Reachable.erase 16 _ _ 1
            (Reachable.range_ctor 18 [(1, 10), (9, 90), (17, 170), (2, 20), (5, 50)]
              (HashMap.mk 5 [none, some (1, 10), some (17, 170), some (2, 20), none, some (5, 50),
                  none, none, none, some (9, 90), none, none, none, none, none, none])
              (by rfl))
            (by rfl : _ = some (HashMap.mk 4 [none, some (17, 170), some (2, 20), none, none,
                  some (5, 50), none, none, none, some (9, 90), none, none, none, none, none,
                  none])))
          (by rfl : _ = some (HashMap.mk 3 [none, some (17, 170), some (2, 20), none, none,
                  some (5, 50), none, none, none, none, none, none, none, none, none, none])))
        (by rfl : _ = some (HashMap.mk 2 [none, none, some (2, 20), none, none,
                  some (5, 50), none, none, none, none, none, none, none, none, none, none])))
      (by rfl : _ = some (HashMap.mk 1 [none, none, none, none, none,
                  some (5, 50), none, none, none, none, none, none, none, none, none, none])))
    (by rfl)

/-! ## Shrink policy, clear, assignment -/

/-- C11: in every reachable table (any mix of functors in its history) with capacity
`c` and size `n`, `erase k` returns a table of capacity exactly `c / 2` when `n = 0`
and `c > 8` (for any `k`) and exactly `c` otherwise.  In particular erasing the
stored key of a size-1 table at capacity 8 gives capacity 8 (and size 0 when the
layout is consistent with the functor, `Inv`), and erasing any key from a size-0
table at capacity 16 gives size 0 at capacity 8. -/
theorem C11_shrink [Inhabited V] (hash : K → Nat) (t : HashMap K V) (ht : Reachable hash t)
    (k : K) (fuel : Nat) (hfuel : t.arr_.length ≤ fuel)
    (t1 : HashMap K V) (ht1 : Reachable hash t1) (hs1 : size t1 = 1)
    (hc1 : t1.arr_.length = 8) (k1 : K) (hk1 : HasKey t1.arr_ k1)
    (t0 : HashMap K V) (ht0 : Reachable hash t0) (hs0 : size t0 = 0)
    (hc0 : t0.arr_.length = 16) (k0 : K) (fuel0 : Nat) (hfuel0 : 16 ≤ fuel0) :
    (∃ r, erase hash fuel t k = some r ∧
      r.arr_.length = (if size t = 0 ∧ t.arr_.length > 8 then t.arr_.length / 2
        else t.arr_.length)) ∧
    (∃ r, erase hash fuel0 t1 k1 = some r ∧ r.arr_.length = 8 ∧
      (Inv hash t1 → size r = 0)) ∧
    (∃ r, erase hash fuel0 t0 k0 = some r ∧ size r = 0 ∧ r.arr_.length = 8) := by
  refine ⟨?_, ?_, ?_⟩
  · obtain ⟨r, hers, _, hlen, _⟩ := erase_struct hash t ht.sinv k fuel hfuel
    exact ⟨r, hers, hlen⟩
  · obtain ⟨r, hers, _, hlen, _⟩ := erase_struct hash t1 ht1.sinv k1 fuel0 (by omega)
    unfold size at hs1
    rw [if_neg (by omega)] at hlen
    refine ⟨r, hers, by rw [hlen, hc1], fun hinv => ?_⟩
    obtain ⟨m1, r1, _, hers1, _, _, _, hyes, _⟩ := erase_spec hash t1 hinv k1 fuel0 (by omega)
    rw [hers] at hers1
    cases hers1
    have hcnt := hyes hk1
    unfold size
    omega
  · obtain ⟨r, hers, _, hlen, hle⟩ := erase_struct hash t0 ht0.sinv k0 fuel0 (by omega)
    unfold size at hs0
    rw [if_pos ⟨hs0, by rw [hc0]; decide⟩, hc0] at hlen
    exact ⟨r, hers, by unfold size; omega, hlen⟩

theorem C11_shrink_witness :
    Reachable exHash exTable ∧ exTable.arr_.length ≤ 8 ∧
    Reachable exHash exOne ∧ size exOne = 1 ∧ exOne.arr_.length = 8 ∧ HasKey exOne.arr_ 3 ∧
    Reachable exHash exEmpty16 ∧ size exEmpty16 = 0 ∧ exEmpty16.arr_.length = 16 ∧ 16 ≤ 16 ∧
    (∃ r, erase exHash 8 exTable 9 = some r ∧
      r.arr_.length = (if size exTable = 0 ∧ exTable.arr_.length > 8
        then exTable.arr_.length / 2 else exTable.arr_.length)) ∧
    (∃ r, erase exHash 16 exOne 3 = some r ∧ r.arr_.length = 8 ∧
      (Inv exHash exOne → size r = 0)) ∧
    (∃ r, erase exHash 16 exEmpty16 7 = some r ∧ size r = 0 ∧ r.arr_.length = 8) :=
  ⟨exTable_reachable, by decide, exOne_reachable, rfl, rfl, ⟨3, 30, rfl⟩,
    exEmpty16_reachable, rfl, rfl, by decide,
    C11_shrink exHash exTable exTable_reachable 9 8 (by decide)
      exOne exOne_reachable rfl rfl 3 ⟨3, 30, rfl⟩
      exEmpty16 exEmpty16_reachable rfl rfl 7 16 (by decide)⟩

/-- C16: for every table (reachable or not, of any capacity) `clear` returns a table
of size 0 and capacity exactly 8 in which every slot is empty and `find k` gives
the end position for every key `k`. -/
theorem C16_clear (hash : K → Nat) (t : HashMap K V) (k : K) (fuel : Nat) (hfuel : 8 ≤ fuel) :
    size (clear t) = 0 ∧ (clear t).arr_.length = 8 ∧ (∀ i, slot (clear t).arr_ i = none) ∧
      find hash fuel (clear t) k = some (end_ (clear t)) := by
  have hlen : (HashMap.new : HashMap K V).arr_.length = 8 := by rw [new_arr]; rfl
  rw [clear_eq]
  refine ⟨rfl, hlen, ?_, ?_⟩
  · intro i; rw [new_arr]; exact slot_replicate _ _
  · exact find_of_absent hash HashMap.new k (not_hasKey_new k) (new_inv hash).free fuel
      (by rw [hlen]; exact hfuel)

theorem C16_clear_witness :
    8 ≤ 8 ∧ size (clear exEmpty16) = 0 ∧ (clear exEmpty16).arr_.length = 8 ∧
      (∀ i, slot (clear exEmpty16).arr_ i = none) ∧
      find exHash 8 (clear exEmpty16) 5 = some (end_ (clear exEmpty16)) :=
  ⟨by decide, C16_clear exHash exEmpty16 5 8 (by decide)⟩

/-- C14: for reachable tables `a` and `b` (built with the same functor or with
different ones), after `b = a` the table `b` has the capacity and size of `a` and
slot `i` of `b` equals slot `i` of `a` for every `i` (empty exactly when that of `a`
is, the same pair otherwise); this holds on the copying branch and on the branch
where the test `arr_ == a.arr_` returns early. -/
theorem C14_assign [Inhabited V] (hash0 hash : K → Nat) (a b : HashMap K V)
    (ha : Reachable hash0 a) (hb : Reachable hash b) :
    (assign b a).arr_.length = a.arr_.length ∧ size (assign b a) = size a ∧
      (∀ i, slot (assign b a).arr_ i = slot a.arr_ i) ∧
      (arr_ptr_eq b.arr_ a.arr_ = true → assign b a = b ∧ b = a) := by
  have h := assign_eq_of_count hb.sinv.count_eq ha.sinv.count_eq
  refine ⟨by rw [h], by rw [h], fun i => by rw [h], fun hfast => ?_⟩
  have hself : assign b a = b := by
    unfold assign; rw [if_pos hfast]
  exact ⟨hself, by rw [← hself, h]⟩

theorem C14_assign_witness :
    Reachable exHash exTable ∧ Reachable exHash2 exPair ∧
    (assign exPair exTable).arr_.length = exTable.arr_.length ∧
      size (assign exPair exTable) = size exTable ∧
      (∀ i, slot (assign exPair exTable).arr_ i = slot exTable.arr_ i) ∧
      (arr_ptr_eq exPair.arr_ exTable.arr_ = true →
        assign exPair exTable = exPair ∧ exPair = exTable) :=
  ⟨exTable_reachable, exPair_cross,
    C14_assign exHash exHash2 exTable exPair exTable_reachable exPair_cross⟩

/-! ## Frame of `insert`, the no-tombstone invariant, key uniqueness -/

theorem distance_add {c g q p : Nat} (hg : g < c) (hq : q < c) (hp : p < c)
    (h : distance c g q ≤ distance c g p) :
    distance c g q + distance c q p = distance c g p := by
  unfold distance at *; split_ifs at * <;> omega

/-- What `insert` stores, whether or not the key was already there. -/
theorem insert_stored (hash : K → Nat) (m : HashMap K V) (hinv : Inv hash m) (el : K × V)
    (fuel : Nat) (hfuel : 2 * m.arr_.length + 2 ≤ fuel) :
    ∃ m2, insert hash fuel m el = some m2 ∧ Inv hash m2 ∧
      m2.arr_.length = (if 2 * m.elements_count_ ≥ m.arr_.length then 2 * m.arr_.length
        else m.arr_.length) ∧
      m2.elements_count_ ≤ m.elements_count_ + 1 ∧
      (∀ kv, Stored m2.arr_ kv ↔ Stored m.arr_ kv ∨ (¬ HasKey m.arr_ kv.1 ∧ kv = el)) := by
  obtain ⟨m1, m2, _, hins, hinv2, hlen, hst1, hold, hnew, _⟩ :=
    insert_spec hash m hinv el fuel hfuel
  refine ⟨m2, hins, hinv2, hlen, ?_, ?_⟩
  · by_cases hk : HasKey m.arr_ el.1
    · rw [(hold hk).2]; omega
    · rw [(hnew hk).1]
  · intro kv
    by_cases hk : HasKey m.arr_ el.1
    · rw [(hold hk).1, hst1 kv]
      constructor
      · exact Or.inl
      · rintro (h | ⟨h1, h2⟩)
        · exact h
        · rw [h2] at h1; exact absurd hk h1
    · rw [(hnew hk).2 kv]
      constructor
      · rintro (h | h)
        · exact Or.inl h
        · exact Or.inr ⟨by rw [h]; exact hk, h⟩
      · rintro (h | ⟨_, h⟩)
        · exact Or.inl h
        · exact Or.inr h

/-- On a table whose layout is consistent with its functor (`Inv`),
`insert (k, v)` leaves every other key `k1` as it was: the same pairs with key `k1`
are stored, `find k1` succeeds afterwards exactly when it succeeded before,
`at k1` gives the same result, and the stored pairs with a key other than `k` are a
permutation of those before. -/
theorem insert_frame_of_inv [Inhabited V] (hash : K → Nat) (t : HashMap K V)
    (ht : Inv hash t) (k : K) (v : V) (k1 : K) (hne : k1 ≠ k) (fuel : Nat)
    (hfuel : 2 * t.arr_.length + 2 ≤ fuel) :
    ∃ t1 pos pos1 r, insert hash fuel t (k, v) = some t1 ∧
      (∀ v1, Stored t1.arr_ (k1, v1) ↔ Stored t.arr_ (k1, v1)) ∧
      find hash fuel t k1 = some pos ∧ find hash fuel t1 k1 = some pos1 ∧
      (pos1 < t1.arr_.length ↔ pos < t.arr_.length) ∧
      at_ hash fuel t k1 = some r ∧ at_ hash fuel t1 k1 = some r ∧
      (t1.arr_.reduceOption.filter fun p => p.1 ≠ k).Perm
        (t.arr_.reduceOption.filter fun p => p.1 ≠ k) := by
  obtain ⟨t1, hins, hinv1, hlen, _, hst⟩ := insert_stored hash t ht (k, v) fuel hfuel
  have hf0 : t.arr_.length ≤ fuel := by omega
  have hf : t1.arr_.length ≤ fuel := by
    rw [hlen]; split_ifs <;> omega
  have hkeep : ∀ kv : K × V, kv.1 ≠ k → (Stored t1.arr_ kv ↔ Stored t.arr_ kv) := by
    intro kv hkv
    rw [hst kv]
    constructor
    · rintro (h | ⟨_, h⟩)
      · exact h
      · rw [h] at hkv; exact absurd rfl hkv
    · exact Or.inl
  have hperm : (t1.arr_.reduceOption.filter fun p => p.1 ≠ k).Perm
      (t.arr_.reduceOption.filter fun p => p.1 ≠ k) := by
    rw [List.perm_ext_iff_of_nodup ((nodup_reduceOption hinv1.uniq).filter _)
      ((nodup_reduceOption ht.uniq).filter _)]
    intro kv
    simp only [List.mem_filter, mem_reduceOption_iff, decide_eq_true_eq]
    constructor
    · rintro ⟨h1, h2⟩; exact ⟨(hkeep kv h2).1 h1, h2⟩
    · rintro ⟨h1, h2⟩; exact ⟨(hkeep kv h2).2 h1, h2⟩
  rcases lookup_cases hash t ht k1 fuel hf0 with ⟨p, v1, hp, hpl, hfind, hat⟩ | ⟨hk, hfind, hat⟩
  · obtain ⟨p1, hp1⟩ := (hkeep (k1, v1) hne).2 ⟨p, hp⟩
    exact ⟨t1, p, p1, Except.ok v1, hins, fun v2 => hkeep (k1, v2) hne, hfind,
      find_of_stored hash t1 hinv1.order hinv1.uniq hp1 fuel hf,
      ⟨fun _ => hpl, fun _ => slot_lt hp1⟩, hat,
      at_of_stored hash t1 hinv1.order hinv1.uniq hp1 fuel hf, hperm⟩
  · have hk1 : ¬ HasKey t1.arr_ k1 := by
      rintro ⟨i, v1, hi⟩
      exact hk ((hasKey_iff_stored _ _).2 ⟨v1, (hkeep (k1, v1) hne).1 ⟨i, hi⟩⟩)
    exact ⟨t1, t.arr_.length, t1.arr_.length, Except.error Error.out_of_range, hins,
      fun v2 => hkeep (k1, v2) hne, hfind,
      find_of_absent hash t1 k1 hk1 hinv1.free fuel hf,
      ⟨fun h => absurd h (lt_irrefl _), fun h => absurd h (lt_irrefl _)⟩, hat,
      at_of_absent hash t1 k1 hk1 hinv1.free fuel hf, hperm⟩

/-- On a table whose layout is consistent with its functor (`Inv`), if slot `p`
holds a pair whose key has ideal index `g`, then every slot `q` on the circular
forward walk from `g` up to `p` is occupied. -/
theorem no_tombstone_of_inv [Inhabited V] (hash : K → Nat) (t : HashMap K V)
    (ht : Inv hash t) (p : Nat) (kv : K × V) (hp : slot t.arr_ p = some kv)
    (q : Nat) (hq : q < t.arr_.length)
    (hwalk : distance t.arr_.length (gen_place hash t.arr_.length kv.1) q
      ≤ distance t.arr_.length (gen_place hash t.arr_.length kv.1) p) :
    ∃ kv1, slot t.arr_ q = some kv1 := by
  have hpl : p < t.arr_.length := slot_lt hp
  have hg := gen_place_lt hash (by omega : 0 < t.arr_.length) kv.1
  obtain ⟨kv1, hs, _⟩ := ht.order.between hp _ q hq rfl (distance_add hg hq hpl hwalk)
  exact ⟨kv1, hs⟩

/-! ## Traversal -/

theorem occupied_from_length (A : List (Option (K × V))) : occupied_from A A.length = [] := by
  simp [occupied_from]

theorem occupied_from_step (A : List (Option (K × V))) {a : Nat} (ha : a < A.length) :
    occupied_from A a =
      if (slot A a).isSome then a :: occupied_from A (a + 1) else occupied_from A (a + 1) := by
  have h : A.length - a = (A.length - (a + 1)) + 1 := by omega
  unfold occupied_from
  rw [h, List.range'_succ, List.filter_cons]

theorem occupied_from_zero_length (A : List (Option (K × V))) :
    (occupied_from A 0).length = occupied A := by
  induction A with
  | nil => rfl
  | cons x A ih =>
    have hshift : List.range' 1 A.length = List.map (fun i => 1 + i) (List.range' 0 A.length) := by
      rw [List.map_add_range']
    have hcomp : ((fun i => (slot (x :: A) i).isSome) ∘ fun i => 1 + i)
        = fun i => (slot A i).isSome := by
      funext i
      simp only [Function.comp, Nat.add_comm 1 i, slot_cons_succ]
    have htail : (List.filter (fun i => (slot (x :: A) i).isSome) (List.range' 1 A.length)).length
        = occupied A := by
      rw [hshift, List.filter_map, List.length_map, hcomp]
      simpa [occupied_from] using ih
    unfold occupied_from
    simp only [List.length_cons, Nat.sub_zero, List.range'_succ, List.filter_cons, slot_cons_zero,
      Nat.zero_add]
    cases x with
    | none => simpa [occupied_cons_none] using htail
    | some p => simpa [occupied_cons_some] using htail

theorem mem_occupied_from (A : List (Option (K × V))) (a i : Nat) :
    i ∈ occupied_from A a ↔ a ≤ i ∧ ∃ kv, slot A i = some kv := by
  unfold occupied_from
  rw [List.mem_filter, List.mem_range'_1, Option.isSome_iff_exists]
  constructor
  · rintro ⟨⟨h1, _⟩, h2⟩; exact ⟨h1, h2⟩
  · rintro ⟨h1, kv, h2⟩
    have := slot_lt h2
    exact ⟨⟨h1, by omega⟩, kv, h2⟩

theorem first_non_empty_spec (m : HashMap K V) :
    ∀ fuel a, a ≤ m.arr_.length → m.arr_.length - a < fuel →
      ∃ b, first_non_empty fuel m a = some b ∧ a ≤ b ∧ b ≤ m.arr_.length ∧
        (b < m.arr_.length → (slot m.arr_ b).isSome) ∧
        occupied_from m.arr_ a = occupied_from m.arr_ b := by
  intro fuel
  induction fuel with
  | zero => intro a _ h; omega
  | succ f ih =>
    intro a ha hf
    by_cases hc : a ≠ m.arr_.length ∧ (slot m.arr_ a).isNone
    · obtain ⟨hne, hnone⟩ := hc
      obtain ⟨b, hb, hab, hbl, hocc, heq⟩ := ih (a + 1) (by omega) (by omega)
      refine ⟨b, ?_, by omega, hbl, hocc, ?_⟩
      · rw [first_non_empty, if_pos ⟨hne, hnone⟩]; exact hb
      · rw [occupied_from_step m.arr_ (by omega : a < m.arr_.length), if_neg (by simpa using hnone)]
        exact heq
    · refine ⟨a, ?_, le_refl _, ha, ?_, rfl⟩
      · rw [first_non_empty, if_neg hc]
      · intro hlt
        by_contra hsome
        exact hc ⟨by omega, by simpa using hsome⟩

theorem traverseFrom_spec (m : HashMap K V) :
    ∀ fuel pos, pos ≤ m.arr_.length → (pos < m.arr_.length → (slot m.arr_ pos).isSome) →
      m.arr_.length - pos < fuel →
      traverseFrom fuel m pos = some (occupied_from m.arr_ pos) := by
  intro fuel
  induction fuel with
  | zero => intro pos _ _ h; omega
  | succ f ih =>
    intro pos hpos hocc hf
    by_cases hend : pos = end_ m
    · rw [traverseFrom, if_pos hend]
      unfold end_ at hend
      rw [hend, occupied_from_length]
    · have hlt : pos < m.arr_.length := by
        unfold end_ at hend; omega
      obtain ⟨b, hb, hab, hbl, hbocc, heq⟩ := first_non_empty_spec m f (pos + 1) (by omega) (by omega)
      rw [traverseFrom, if_neg hend, increment, hb, Option.some_bind,
        ih b hbl hbocc (by omega), occupied_from_step m.arr_ hlt, if_pos (hocc hlt), heq]
      rfl

/-- Traversal of a table whose count equals the number of occupied slots visits
the occupied indices in increasing order. -/
theorem traverse_spec (m : HashMap K V) (hcount : m.elements_count_ = occupied m.arr_)
    (fuel : Nat)
    (hfuel : m.arr_.length < fuel) : traverse fuel m = some (occupied_from m.arr_ 0) := by
  unfold traverse begin
  by_cases he : empty m = true
  · rw [if_pos he, Option.some_bind]
    have h0 : occupied m.arr_ = 0 := by
      rw [← hcount]; simpa [empty] using he
    have hnil : occupied_from m.arr_ 0 = [] := by
      rw [← List.length_eq_zero, occupied_from_zero_length, h0]
    rw [hnil]
    have := traverseFrom_spec m fuel (end_ m) (le_refl _) (fun h => absurd h (lt_irrefl _))
      (by unfold end_; omega)
    rw [this]
    unfold end_
    rw [occupied_from_length]
  · rw [if_neg he]
    obtain ⟨b, hb, _, hbl, hbocc, heq⟩ := first_non_empty_spec m fuel 0 (Nat.zero_le _) (by omega)
    rw [hb, Option.some_bind, traverseFrom_spec m fuel b hbl hbocc (by omega), heq]

/-- C12: in every reachable table (any mix of functors in its history) the traversal
`for (it = begin(); it != end(); ++it)` returns (fuel above the capacity is enough)
and stops exactly on the indices of the occupied slots, in increasing order, each
once, never on an empty slot; the number of stops equals `size`. -/
theorem C12_traversal [Inhabited V] (hash : K → Nat) (t : HashMap K V) (ht : Reachable hash t)
    (fuel : Nat) (hfuel : t.arr_.length < fuel) :
    ∃ visited, traverse fuel t = some visited ∧
      (∀ i, i ∈ visited ↔ ∃ kv, slot t.arr_ i = some kv) ∧
      visited.Pairwise (fun a b => a < b) ∧
      visited.length = size t ∧ size t = occupied t.arr_ := by
  refine ⟨occupied_from t.arr_ 0, traverse_spec t ht.sinv.count_eq fuel hfuel, ?_, ?_, ?_, ?_⟩
  · intro i
    rw [mem_occupied_from]
    exact ⟨fun h => h.2, fun h => ⟨Nat.zero_le _, h⟩⟩
  · exact (List.pairwise_lt_range' _ _).filter _
  · rw [occupied_from_zero_length]; exact ht.sinv.count_eq.symm
  · exact ht.sinv.count_eq

theorem C12_traversal_witness :
    Reachable exHash exTable ∧ exTable.arr_.length < 9 ∧
    ∃ visited, traverse 9 exTable = some visited ∧
      (∀ i, i ∈ visited ↔ ∃ kv, slot exTable.arr_ i = some kv) ∧
      visited.Pairwise (fun a b => a < b) ∧
      visited.length = size exTable ∧ size exTable = occupied exTable.arr_ :=
  ⟨exTable_reachable, by decide, C12_traversal exHash exTable exTable_reachable 9 (by decide)⟩

/-! ## Construction from a sequence and copy construction -/

theorem occupied_eq_length_reduceOption (A : List (Option (K × V))) :
    occupied A = A.reduceOption.length := by
  induction A with
  | nil => rfl
  | cons a A ih =>
    cases a with
    | none => rw [occupied_cons_none, List.reduceOption_cons_of_none, ih]
    | some p => rw [occupied_cons_some, List.reduceOption_cons_of_some, List.length_cons, ih]

theorem nodup_keys {A : List (Option (K × V))} (hu : UniqueKeys A) :
    (A.reduceOption.map Prod.fst).Nodup := by
  induction A with
  | nil => simp
  | cons a A ih =>
    cases a with
    | none => rw [List.reduceOption_cons_of_none]; exact ih (uniqueKeys_tail hu)
    | some p =>
      rw [List.reduceOption_cons_of_some, List.map_cons, List.nodup_cons]
      refine ⟨?_, ih (uniqueKeys_tail hu)⟩
      intro hmem
      obtain ⟨kv, hkv, hk⟩ := List.mem_map.1 hmem
      obtain ⟨i, hi⟩ := (mem_reduceOption_iff A kv).1 hkv
      have := hu 0 (i + 1) p kv (slot_cons_zero _ _) (by rw [slot_cons_succ]; exact hi) hk.symm
      omega

theorem find_key_iff (l : List (K × V)) (k : K) :
    (∃ v, l.find? (fun p => decide (p.1 = k)) = some (k, v)) ↔ k ∈ l.map Prod.fst := by
  constructor
  · rintro ⟨v, hv⟩
    exact List.mem_map.2 ⟨(k, v), List.mem_of_find?_eq_some hv, rfl⟩
  · intro hmem
    obtain ⟨p, hp, hk⟩ := List.mem_map.1 hmem
    have hsome : (l.find? (fun p => decide (p.1 = k))).isSome := by
      rw [List.find?_isSome]
      exact ⟨p, hp, by simpa using hk⟩
    obtain ⟨x, hx⟩ := Option.isSome_iff_exists.1 hsome
    have hxk : x.1 = k := by simpa using List.find?_some hx
    exact ⟨x.2, by rw [hx, ← hxk]⟩

theorem reinsert_eq_insert_range (ins : HashMap K V → K × V → Option (HashMap K V)) :
    ∀ (l : List (Option (K × V))) (acc : HashMap K V),
      reinsert ins l acc = insert_range ins l.reduceOption acc := by
  intro l
  induction l with
  | nil => intro acc; rfl
  | cons x rest ih =>
    intro acc
    cases x with
    | none => rw [reinsert, List.reduceOption_cons_of_none]; exact ih acc
    | some p =>
      rw [reinsert, List.reduceOption_cons_of_some, insert_range]
      congr 1
      funext a
      exact ih a

/-- Inserting a sequence of pairs into a table that satisfies the invariant, with a
bound `B` on the capacity that the growth can reach: every insert returns, and the
table ends up with its old pairs and, for every new key, the first pair of the
sequence with that key. -/
theorem insert_range_spec (hash : K → Nat) (B fuel : Nat) (hfuel : 2 * B + 2 ≤ fuel) :
    ∀ (l : List (K × V)) (acc : HashMap K V), Inv hash acc → acc.arr_.length ≤ B →
      4 * (acc.elements_count_ + l.length) ≤ B →
      ∃ r, insert_range (insert hash fuel) l acc = some r ∧ Inv hash r ∧ r.arr_.length ≤ B ∧
        ∀ k v, Stored r.arr_ (k, v) ↔ Stored acc.arr_ (k, v) ∨
          (¬ HasKey acc.arr_ k ∧ l.find? (fun p => decide (p.1 = k)) = some (k, v)) := by
  intro l
  induction l with
  | nil =>
    intro acc hinv hB _
    refine ⟨acc, rfl, hinv, hB, ?_⟩
    intro k v
    simp
  | cons p rest ih =>
    intro acc hinv hB hroom
    rw [List.length_cons] at hroom
    obtain ⟨a1, hins, hinv1, hlen1, hcnt1, hst1⟩ :=
      insert_stored hash acc hinv p fuel (by omega)
    have hB1 : a1.arr_.length ≤ B := by
      rw [hlen1]; split_ifs <;> omega
    obtain ⟨r, hr, hinvr, hBr, hstr⟩ := ih a1 hinv1 hB1 (by omega)
    refine ⟨r, ?_, hinvr, hBr, ?_⟩
    · rw [insert_range, hins, Option.some_bind]; exact hr
    · intro k v
      have hkey1 : HasKey a1.arr_ k ↔ HasKey acc.arr_ k ∨ k = p.1 := by
        rw [hasKey_iff_stored, hasKey_iff_stored]
        constructor
        · rintro ⟨w, hw⟩
          rcases (hst1 _).1 hw with h | ⟨_, h⟩
          · exact Or.inl ⟨w, h⟩
          · exact Or.inr (by rw [← h])
        · rintro (⟨w, hw⟩ | hk)
          · exact ⟨w, (hst1 _).2 (Or.inl hw)⟩
          · by_cases hacc : HasKey acc.arr_ k
            · obtain ⟨w, hw⟩ := (hasKey_iff_stored _ _).1 hacc
              exact ⟨w, (hst1 _).2 (Or.inl hw)⟩
            · exact ⟨p.2, (hst1 _).2 (Or.inr ⟨hacc, by rw [hk]⟩)⟩
      rw [hstr k v, hst1 (k, v), hkey1]
      by_cases hpk : p.1 = k
      · rw [List.find?_cons_of_pos _ (by simpa using hpk)]
        constructor
        · rintro ((h | ⟨h1, h2⟩) | ⟨h1, _⟩)
          · exact Or.inl h
          · exact Or.inr ⟨h1, by rw [h2]⟩
          · exact absurd (Or.inr hpk.symm) h1
        · rintro (h | ⟨h1, h2⟩)
          · exact Or.inl (Or.inl h)
          · exact Or.inl (Or.inr ⟨h1, (Option.some.inj h2).symm⟩)
      · rw [List.find?_cons_of_neg _ (by simpa using hpk)]
        constructor
        · rintro ((h | ⟨_, h2⟩) | ⟨h1, h2⟩)
          · exact Or.inl h
          · exact absurd (by rw [← h2]) hpk
          · exact Or.inr ⟨fun h => h1 (Or.inl h), h2⟩
        · rintro (h | ⟨h1, h2⟩)
          · exact Or.inl (Or.inl h)
          · refine Or.inr ⟨?_, h2⟩
            rintro (h | h)
            · exact h1 h
            · exact hpk h.symm

/-- C15: the table built by the range or initializer-list constructor from the
sequence `l` (fuel `8 * length + 18` is enough) has `size` equal to the number of
distinct keys of `l`; for every key `k` occurring in `l`, `at k` returns the value
of the first pair of `l` with key `k`; and `find k` gives the end position for
every key that does not occur in `l`. -/
theorem C15_range_construct (hash : K → Nat) (l : List (K × V)) (fuel : Nat)
    (hfuel : 8 * l.length + 18 ≤ fuel) :
    ∃ t, range_construct hash fuel l = some t ∧
      size t = (l.map Prod.fst).dedup.length ∧
      (∀ k, k ∈ l.map Prod.fst → ∃ v, l.find? (fun p => decide (p.1 = k)) = some (k, v) ∧
        at_ hash fuel t k = some (Except.ok v)) ∧
      (∀ k, k ∉ l.map Prod.fst → find hash fuel t k = some (end_ t)) := by
  have hnewlen : (HashMap.new : HashMap K V).arr_.length = 8 := by rw [new_arr]; rfl
  obtain ⟨t, ht, hinv, hB, hst⟩ :=
    insert_range_spec hash (4 * l.length + 8) fuel (by omega) l HashMap.new (new_inv hash)
      (by rw [hnewlen]; omega) (by simp [HashMap.new])
  have hst1 : ∀ k v, Stored t.arr_ (k, v) ↔ l.find? (fun p => decide (p.1 = k)) = some (k, v) := by
    intro k v
    rw [hst k v]
    constructor
    · rintro (h | ⟨_, h⟩)
      · rw [new_arr] at h; exact absurd h (not_stored_replicate _ _)
      · exact h
    · exact fun h => Or.inr ⟨not_hasKey_new k, h⟩
  have hkey : ∀ k, HasKey t.arr_ k ↔ k ∈ l.map Prod.fst := by
    intro k
    rw [hasKey_iff_stored, ← find_key_iff]
    exact exists_congr fun v => hst1 k v
  refine ⟨t, ht, ?_, ?_, ?_⟩
  · have hperm : (t.arr_.reduceOption.map Prod.fst).Perm (l.map Prod.fst).dedup := by
      rw [List.perm_ext_iff_of_nodup (nodup_keys hinv.uniq) (List.nodup_dedup _)]
      intro k
      rw [List.mem_dedup, ← hasKey_iff_mem, hkey]
    unfold size
    rw [hinv.count_eq, occupied_eq_length_reduceOption, ← hperm.length_eq, List.length_map]
  · intro k hk
    obtain ⟨v, hv⟩ := (find_key_iff l k).2 hk
    obtain ⟨pos, hpos⟩ := (hst1 k v).2 hv
    exact ⟨v, hv, at_of_stored hash t hinv.order hinv.uniq hpos fuel (by omega)⟩
  · intro k hk
    exact find_of_absent hash t k (fun h => hk ((hkey k).1 h)) hinv.free fuel (by omega)

theorem C15_range_construct_witness :
    8 * [(1, 10), (9, 90), (1, 11), (17, 170), (9, 91)].length + 18 ≤ 58 ∧
    ∃ t, range_construct exHash 58 [(1, 10), (9, 90), (1, 11), (17, 170), (9, 91)] = some t ∧
      size t = ([(1, 10), (9, 90), (1, 11), (17, 170), (9, 91)].map Prod.fst).dedup.length ∧
      (∀ k, k ∈ [(1, 10), (9, 90), (1, 11), (17, 170), (9, 91)].map Prod.fst →
        ∃ v, [(1, 10), (9, 90), (1, 11), (17, 170), (9, 91)].find? (fun p => decide (p.1 = k))
            = some (k, v) ∧
          at_ exHash 58 t k = some (Except.ok v)) ∧
      (∀ k, k ∉ [(1, 10), (9, 90), (1, 11), (17, 170), (9, 91)].map Prod.fst →
        find exHash 58 t k = some (end_ t)) :=
  ⟨by decide,
    C15_range_construct exHash [(1, 10), (9, 90), (1, 11), (17, 170), (9, 91)] 58 (by decide)⟩

/-- The copy constructor with functor `hash` on a source that satisfies the
invariant for a functor `hash0` (the same or another one). -/
theorem copy_construct_spec (hash0 hash : K → Nat) (s : HashMap K V) (hs : Inv hash0 s)
    (fuel : Nat)
    (hfuel : 4 * s.arr_.length + 2 ≤ fuel) :
    ∃ t, copy_construct hash fuel s = some t ∧ Inv hash t ∧ t.arr_.length ≤ 2 * s.arr_.length ∧
      ∀ kv, Stored t.arr_ kv ↔ Stored s.arr_ kv := by
  have hnewlen : (HashMap.new : HashMap K V).arr_.length = 8 := by rw [new_arr]; rfl
  have hmin := hs.cap_min
  have hload := hs.load
  have hcnt := hs.count_eq
  unfold MIN_SIZE at hmin
  obtain ⟨t, ht, hinv, hB, hst⟩ :=
    insert_range_spec hash (2 * s.arr_.length) fuel (by omega) s.arr_.reduceOption HashMap.new
      (new_inv hash) (by rw [hnewlen]; omega)
      (by rw [← occupied_eq_length_reduceOption]; simp only [HashMap.new]; omega)
  refine ⟨t, ?_, hinv, hB, ?_⟩
  · rw [copy_construct, reinsert_eq_insert_range]; exact ht
  · rintro ⟨k, v⟩
    rw [hst k v]
    constructor
    · rintro (h | ⟨_, h⟩)
      · rw [new_arr] at h; exact absurd h (not_stored_replicate _ _)
      · exact (mem_reduceOption_iff _ _).1 (List.mem_of_find?_eq_some h)
    · intro h
      refine Or.inr ⟨not_hasKey_new k, ?_⟩
      obtain ⟨w, hw⟩ := (find_key_iff s.arr_.reduceOption k).2
        (List.mem_map.2 ⟨(k, v), (mem_reduceOption_iff _ _).2 h, rfl⟩)
      obtain ⟨i, hi⟩ := (mem_reduceOption_iff _ _).1 (List.mem_of_find?_eq_some hw)
      obtain ⟨j, hj⟩ := h
      have hij := hs.uniq i j (k, w) (k, v) hi hj rfl
      subst hij
      rw [hi] at hj
      rw [hw, hj]

/-- The copy constructor (with hash functor `hash`) applied to a table `s` whose
layout is consistent with its functor `hash0` (`Inv`) returns a table with the same
`size` and the same stored pairs: for every key, `find` succeeds in the copy
exactly when it succeeds in `s`, and `at` gives the same result in both. -/
theorem copy_construct_of_inv [Inhabited V] (hash0 hash : K → Nat) (s : HashMap K V)
    (hs : Inv hash0 s) (fuel : Nat) (hfuel : 4 * s.arr_.length + 2 ≤ fuel) :
    ∃ t, copy_construct hash fuel s = some t ∧ size t = size s ∧
      (∀ kv, Stored t.arr_ kv ↔ Stored s.arr_ kv) ∧
      ∀ k, ∃ pos pos1 r, find hash0 fuel s k = some pos ∧ find hash fuel t k = some pos1 ∧
        (pos1 < t.arr_.length ↔ pos < s.arr_.length) ∧
        at_ hash0 fuel s k = some r ∧ at_ hash fuel t k = some r := by
  obtain ⟨t, ht, hinv, hB, hst⟩ := copy_construct_spec hash0 hash s hs fuel hfuel
  refine ⟨t, ht, ?_, hst, ?_⟩
  · unfold size
    rw [hinv.count_eq, hs.count_eq, occupied_eq_length_reduceOption,
      occupied_eq_length_reduceOption]
    exact (perm_of_stored_iff hinv.uniq hs.uniq hst).length_eq
  · intro k
    rcases lookup_cases hash0 s hs k fuel (by omega) with
      ⟨p, v, hp, hpl, hfind, hat⟩ | ⟨hk, hfind, hat⟩
    · obtain ⟨p1, hp1⟩ := (hst (k, v)).2 ⟨p, hp⟩
      exact ⟨p, p1, Except.ok v, hfind,
        find_of_stored hash t hinv.order hinv.uniq hp1 fuel (by omega),
        ⟨fun _ => hpl, fun _ => slot_lt hp1⟩, hat,
        at_of_stored hash t hinv.order hinv.uniq hp1 fuel (by omega)⟩
    · have hk1 : ¬ HasKey t.arr_ k := by
        rintro ⟨i, v, hi⟩
        exact hk ((hasKey_iff_stored _ _).2 ⟨v, (hst (k, v)).1 ⟨i, hi⟩⟩)
      exact ⟨s.arr_.length, t.arr_.length, Except.error Error.out_of_range, hfind,
        find_of_absent hash t k hk1 hinv.free fuel (by omega),
        ⟨fun h => absurd h (lt_irrefl _), fun h => absurd h (lt_irrefl _)⟩, hat,
        at_of_absent hash t k hk1 hinv.free fuel (by omega)⟩

/-! ## Robin Hood order minimises the maximum probe distance -/

theorem walk_index_lt {c e j : Nat} (he : e < c) (hj : j < c) : walk_index c e j < c := by
  unfold walk_index; split_ifs <;> omega

theorem distance_walk_index {c e j : Nat} (he : e < c) (hj : j < c) :
    distance c e (walk_index c e j) = j := by
  unfold distance walk_index; split_ifs <;> omega

theorem walk_split {c e g p : Nat} (he : e < c) (hg : g < c) (hp : p < c)
    (h : distance c g p < distance c g e) :
    distance c e g + distance c g p = distance c e p := by
  unfold distance at *; split_ifs at * <;> omega

theorem distance_left_inj {c e a b : Nat} (he : e < c) (ha : a < c) (hb : b < c)
    (h : distance c e a = distance c e b) : a = b := by
  unfold distance at *; split_ifs at * <;> omega

theorem distance_chain {c e i b : Nat} (he : e < c) (hi : i < c) (hb : b < c)
    (h : distance c e i + distance c i b < c) :
    distance c e b = distance c e i + distance c i b := by
  unfold distance at *; split_ifs at * <;> omega

theorem RHOrder.between_le {hash : K → Nat} {A : List (Option (K × V))} (hA : RHOrder hash A)
    {p : Nat} {kv : K × V} (hp : slot A p = some kv) {q : Nat} (hq : q < A.length)
    (h : distance A.length (gen_place hash A.length kv.1) q
      ≤ distance A.length (gen_place hash A.length kv.1) p) :
    ∃ kv1, slot A q = some kv1 ∧
      distance A.length (gen_place hash A.length kv.1) q
        ≤ distance A.length (gen_place hash A.length kv1.1) q := by
  have hpl : p < A.length := slot_lt hp
  have hg := gen_place_lt hash (by omega : 0 < A.length) kv.1
  exact hA.between hp _ q hq rfl (distance_add hg hq hpl h)

theorem foldr_max_ge (f : Nat → Nat) :
    ∀ (l : List Nat) (i : Nat), i ∈ l → f i ≤ (l.map f).foldr max 0 := by
  intro l
  induction l with
  | nil => intro i hi; cases hi
  | cons a l ih =>
    intro i hi
    rw [List.map_cons, List.foldr_cons]
    rcases List.mem_cons.1 hi with h | h
    · rw [h]; exact le_max_left _ _
    · exact le_trans (ih i h) (le_max_right _ _)

theorem foldr_max_le (f : Nat → Nat) (M : Nat) :
    ∀ (l : List Nat), (∀ i, i ∈ l → f i ≤ M) → (l.map f).foldr max 0 ≤ M := by
  intro l
  induction l with
  | nil => intro _; exact Nat.zero_le _
  | cons a l ih =>
    intro h
    rw [List.map_cons, List.foldr_cons]
    exact max_le (h a (List.mem_cons_self _ _)) (ih fun i hi => h i (List.mem_cons_of_mem _ hi))

theorem probe_le_max_probe (hash : K → Nat) (A : List (Option (K × V))) {i : Nat}
    (hi : i < A.length) : probe_distance hash A i ≤ max_probe hash A :=
  foldr_max_ge _ _ i (List.mem_range.2 hi)

theorem max_probe_le (hash : K → Nat) (A : List (Option (K × V))) (M : Nat)
    (h : ∀ i, i < A.length → probe_distance hash A i ≤ M) : max_probe hash A ≤ M :=
  foldr_max_le _ M _ fun i hi => h i (List.mem_range.1 hi)

theorem probe_distance_of_slot (hash : K → Nat) {A : List (Option (K × V))} {i : Nat}
    {kv : K × V} (h : slot A i = some kv) :
    probe_distance hash A i = distance A.length (gen_place hash A.length kv.1) i := by
  rw [probe_distance, h]

/-- In an array with the Robin Hood order, unique keys and an empty slot, no pair is
farther from its ideal index than the maximum probe distance of any array of the
same capacity that holds the same keys. -/
theorem probe_le_of_placement (hash : K → Nat) {A B : List (Option (K × V))}
    (hrh : RHOrder hash A) (hu : UniqueKeys A) (hfree : occupied A < A.length)
    (hlen : B.length = A.length) (hkeys : ∀ k, HasKey A k → HasKey B k)
    {p : Nat} {kv : K × V} (hp : slot A p = some kv) :
    distance A.length (gen_place hash A.length kv.1) p ≤ max_probe hash B := by
  by_contra hcon
  have hcon : max_probe hash B < distance A.length (gen_place hash A.length kv.1) p :=
    Nat.lt_of_not_le hcon
  have hpl : p < A.length := slot_lt hp
  have hc : 0 < A.length := by omega
  have hg := gen_place_lt hash hc kv.1
  have hBd : ∀ b kvB, slot B b = some kvB →
      distance A.length (gen_place hash A.length kvB.1) b
        < distance A.length (gen_place hash A.length kv.1) p := by
    intro b kvB hb
    have h1 := probe_le_max_probe hash B (slot_lt hb)
    rw [probe_distance_of_slot hash hb, hlen] at h1
    omega
  have hex : ∃ n, ∃ e, e < A.length ∧ slot A e = none ∧
      distance A.length e (gen_place hash A.length kv.1) = n := by
    obtain ⟨e, he, hs⟩ := exists_empty_slot A hfree
    exact ⟨_, e, he, hs, rfl⟩
  classical
  obtain ⟨e, he, hse, hn0⟩ := Nat.find_spec hex
  have hmin : ∀ e1, e1 < A.length → slot A e1 = none →
      distance A.length e (gen_place hash A.length kv.1)
        ≤ distance A.length e1 (gen_place hash A.length kv.1) := by
    intro e1 he1 hs1
    by_contra hlt
    exact Nat.find_min hex (by omega) ⟨e1, he1, hs1, rfl⟩
  have hwalk_gp : distance A.length (gen_place hash A.length kv.1) p
      < distance A.length (gen_place hash A.length kv.1) e := by
    by_contra hle
    obtain ⟨kv1, hs1, _⟩ := hrh.between_le hp he (Nat.le_of_not_lt hle)
    rw [hse] at hs1; cases hs1
  have hD := walk_split he hg hpl hwalk_gp
  have hDc := distance_lt he hpl
  have key : ∀ j, ∃ b, 1 ≤ j → j ≤ distance A.length e p →
      (b < A.length ∧ 1 ≤ distance A.length e b ∧
        distance A.length e b + 1 ≤ distance A.length e p ∧
        ∃ kvA kvB, slot A (walk_index A.length e j) = some kvA ∧ slot B b = some kvB ∧
          kvB.1 = kvA.1) := by
    intro j
    by_cases hj : 1 ≤ j ∧ j ≤ distance A.length e p
    swap
    · exact ⟨0, fun h1 h2 => absurd ⟨h1, h2⟩ hj⟩
    obtain ⟨hj1, hjD⟩ := hj
    have hjc : j < A.length := by omega
    have hq := walk_index_lt he hjc
    have hposq := distance_walk_index he hjc
    have hocc : ∃ kvA, slot A (walk_index A.length e j) = some kvA ∧
        (distance A.length e (gen_place hash A.length kv.1) ≤ j →
          j ≤ distance A.length e (gen_place hash A.length kv.1)
            + distance A.length (gen_place hash A.length kvA.1) (walk_index A.length e j)) := by
      by_cases hjG : j < distance A.length e (gen_place hash A.length kv.1)
      · cases hsq : slot A (walk_index A.length e j) with
        | none =>
          have h1 := hmin _ hq hsq
          have h2 := distance_add he hq hg (by omega)
          omega
        | some kvA => exact ⟨kvA, rfl, fun h => by omega⟩
      · have h2 := distance_add he hg hq (by omega)
        obtain ⟨kvA, hsA, hdA⟩ := hrh.between_le hp hq (by omega)
        exact ⟨kvA, hsA, fun _ => by omega⟩
    obtain ⟨kvA, hsA, hdA⟩ := hocc
    have hi := gen_place_lt hash hc kvA.1
    have hwalk : distance A.length (gen_place hash A.length kvA.1) (walk_index A.length e j)
        < distance A.length (gen_place hash A.length kvA.1) e := by
      by_contra hle
      obtain ⟨kv1, hs1, _⟩ := hrh.between_le hsA he (Nat.le_of_not_lt hle)
      rw [hse] at hs1; cases hs1
    have hsplit := walk_split he hi hq hwalk
    have hine : 1 ≤ distance A.length e (gen_place hash A.length kvA.1) := by
      by_contra h0
      have h1 : e = gen_place hash A.length kvA.1 := distance_eq_zero he hi (by omega)
      rw [← h1, distance_self] at hwalk
      omega
    have hiG : distance A.length e (gen_place hash A.length kvA.1)
        ≤ distance A.length e (gen_place hash A.length kv.1) := by
      by_cases hjG : j < distance A.length e (gen_place hash A.length kv.1)
      · omega
      · have := hdA (by omega)
        omega
    obtain ⟨b, v, hb⟩ := hkeys kvA.1 ⟨_, kvA.2, hsA⟩
    have hbl : b < A.length := by
      have := slot_lt hb; omega
    have hbd := hBd b (kvA.1, v) hb
    have hchain := distance_chain he hi hbl (by simp only [] at hbd; omega)
    simp only [] at hbd
    exact ⟨b, fun _ _ => ⟨hbl, by omega, by omega, kvA, (kvA.1, v), hsA, hb, rfl⟩⟩
  choose f hf using key
  have hcard : (Finset.Icc 1 (distance A.length e p - 1)).card
      < (Finset.Icc 1 (distance A.length e p)).card := by
    simp only [Nat.card_Icc]
    omega
  have hmaps : ∀ j ∈ Finset.Icc 1 (distance A.length e p),
      (fun j => distance A.length e (f j)) j ∈ Finset.Icc 1 (distance A.length e p - 1) := by
    intro j hj
    rw [Finset.mem_Icc] at hj ⊢
    obtain ⟨_, h1, h2, _⟩ := hf j hj.1 hj.2
    constructor
    · exact h1
    · show distance A.length e (f j) ≤ distance A.length e p - 1
      omega
  obtain ⟨x, hx, y, hy, hxy, hfxy⟩ :=
    Finset.exists_ne_map_eq_of_card_lt_of_maps_to hcard hmaps
  rw [Finset.mem_Icc] at hx hy
  obtain ⟨hbx, _, _, kvAx, kvBx, hsAx, hsBx, hkx⟩ := hf x hx.1 hx.2
  obtain ⟨hby, _, _, kvAy, kvBy, hsAy, hsBy, hky⟩ := hf y hy.1 hy.2
  have hfeq : f x = f y := distance_left_inj he hbx hby hfxy
  rw [hfeq, hsBy] at hsBx
  have hkv : kvBy = kvBx := Option.some.inj hsBx
  have hcell := hu _ _ kvAx kvAy hsAx hsAy (by rw [← hkx, ← hky, hkv])
  have h1 := distance_walk_index he (by omega : x < A.length)
  have h2 := distance_walk_index he (by omega : y < A.length)
  rw [hcell, h2] at h1
  exact hxy h1.symm

/-- On a table that satisfies the invariant the maximum probe distance is at most
that of any array of the same capacity holding the same keys. -/
theorem max_probe_le_of_inv (hash : K → Nat) (m : HashMap K V) (hinv : Inv hash m)
    (B : List (Option (K × V))) (hlen : B.length = m.arr_.length)
    (hkeys : ∀ k, HasKey m.arr_ k → HasKey B k) :
    max_probe hash m.arr_ ≤ max_probe hash B := by
  refine max_probe_le hash m.arr_ _ ?_
  intro i _
  cases hs : slot m.arr_ i with
  | none => rw [probe_distance, hs]; exact Nat.zero_le _
  | some kv =>
    rw [probe_distance_of_slot hash hs]
    exact probe_le_of_placement hash hinv.order hinv.uniq hinv.free hlen hkeys hs

/-- C20: for every sequence `l` of pairs inserted in order into a new table (any
keys, any order; fuel `8 * length + 18` is enough), the maximum probe distance of
the resulting table is at most the maximum probe distance of every array `B` of
the same capacity that holds the keys of the table.  Probe distances are circular
distances from the ideal index, so every such `B` has each key at or after its
ideal index; that `B` is hole-free or was produced by a linear-probing insertion
is not needed. -/
theorem C20_robin_hood_optimal (hash : K → Nat) (l : List (K × V)) (fuel : Nat)
    (hfuel : 8 * l.length + 18 ≤ fuel) :
    ∃ t, range_construct hash fuel l = some t ∧
      ∀ B : List (Option (K × V)), B.length = t.arr_.length →
        (∀ k, HasKey t.arr_ k → HasKey B k) →
        max_probe hash t.arr_ ≤ max_probe hash B := by
  have hnewlen : (HashMap.new : HashMap K V).arr_.length = 8 := by rw [new_arr]; rfl
  obtain ⟨t, ht, hinv, _, _⟩ :=
    insert_range_spec hash (4 * l.length + 8) fuel (by omega) l HashMap.new (new_inv hash)
      (by rw [hnewlen]; omega) (by simp [HashMap.new])
  exact ⟨t, ht, fun B hlen hkeys => max_probe_le_of_inv hash t hinv B hlen hkeys⟩

theorem C20_robin_hood_optimal_witness :
    8 * [(1, 10), (9, 90), (17, 170), (2, 20)].length + 18 ≤ 50 ∧
    ∃ t, range_construct exHash 50 [(1, 10), (9, 90), (17, 170), (2, 20)] = some t ∧
      ∀ B : List (Option (Nat × Nat)), B.length = t.arr_.length →
        (∀ k, HasKey t.arr_ k → HasKey B k) →
        max_probe exHash t.arr_ ≤ max_probe exHash B :=
  ⟨by decide, C20_robin_hood_optimal exHash [(1, 10), (9, 90), (17, 170), (2, 20)] 50 (by decide)⟩

/-! ## Assignment from a table built with another functor

`operator=` (lines 289-300) copies `arr_` and `elements_count_` but not `hasher_`,
and does not re-insert the pairs as the copy constructor (lines 71-77) does.  After
`b = a` with `a` built with another functor, the layout of `b` is not consistent
with the functor `b` keeps.  The theorems below evaluate the member functions on
such tables. -/

theorem at_mono (hash : K → Nat) {f g : Nat} (hfg : f ≤ g) (m : HashMap K V) (k : K)
    (r : Except Error V) (h : at_ hash f m k = some r) : at_ hash g m k = some r := by
  unfold at_ at *
  cases hf : find hash f m k with
  | none => rw [hf] at h; cases h
  | some it =>
    rw [hf] at h
    rw [find_mono hash hfg m k it hf]
    exact h

theorem subscript_mono [Inhabited V] (hash : K → Nat) {f g : Nat} (hfg : f ≤ g)
    (m : HashMap K V) (k : K) (r : Nat × HashMap K V) (h : subscript hash f m k = some r) :
    subscript hash g m k = some r := by
  unfold subscript at *
  cases hf : find hash f m k with
  | none => rw [hf] at h; cases h
  | some it =>
    rw [hf, Option.some_bind] at h
    rw [find_mono hash hfg m k it hf, Option.some_bind]
    split_ifs at h ⊢
    · cases hi : insert hash f m (k, default) with
      | none => rw [hi] at h; cases h
      | some m1 =>
        rw [hi, Option.some_bind] at h
        rw [insert_mono hash hfg m _ m1 hi, Option.some_bind]
        cases hf1 : find hash f m1 k with
        | none => rw [hf1] at h; cases h
        | some it1 =>
          rw [hf1] at h
          rw [find_mono hash hfg m1 k it1 hf1]
          exact h
    · exact h

theorem copy_construct_mono (hash : K → Nat) {f g : Nat} (hfg : f ≤ g) (a r : HashMap K V)
    (h : copy_construct hash f a = some r) : copy_construct hash g a = some r :=
  reinsert_mono (fun acc p r1 => insert_mono hash hfg acc p r1) _ _ _ h

/-- C1, failing input: `a` built with `exHash` from `(1,10), (3,30)`; `b` constructed
with `exHash2`; `b = a; b.insert({3,99}); b.insert({1,11})` gives the reachable table
`exDup4` of size 4.  Key `5` is not stored in it, yet `b.insert({5,50})` returns a
table of size 3, not 5: the rehash drops the duplicate keys. -/
theorem C1_insert_absent_cross_functor :
    Reachable exHash2 exDup4 ∧ ¬ HasKey exDup4.arr_ 5 ∧ size exDup4 = 4 ∧
    ∀ fuel, 18 ≤ fuel → ∃ t1, insert exHash2 fuel exDup4 (5, 50) = some t1 ∧ size t1 = 3 :=
  ⟨exDup4_cross, (hasKey_iff_mem _ _).not.2 (by decide), rfl,
    fun fuel h =>
      ⟨HashMap.mk 3 [some (5, 50), none, none, none, some (1, 10), none, none, none, none, none,
          some (3, 99), none, none, none, none, none],
        insert_mono exHash2 h _ _ _ (by rfl), rfl⟩⟩

/-- C2, failing input: `a` built with `exHash` from `(1,10), (3,30)`; `b` constructed
with `exHash2`; `b = a`.  Key `3` is stored in `b` with value `30`, yet
`b.insert({3,99})` stores a second pair with key `3`: `size` grows from 2 to 3 and
`at(3)` returns `99`. -/
theorem C2_no_overwrite_cross_functor :
    Reachable exHash2 exPair ∧ Stored exPair.arr_ (3, 30) ∧
    ∀ fuel, 18 ≤ fuel → insert exHash2 fuel exPair (3, 99) = some exDup ∧
      at_ exHash2 fuel exDup 3 = some (Except.ok 99) ∧ size exDup = size exPair + 1 :=
  ⟨exPair_cross, ⟨3, rfl⟩,
    fun fuel h =>
      ⟨insert_mono exHash2 h _ _ _ (by rfl),
        at_mono exHash2 (by omega : 8 ≤ fuel) _ _ _ (by rfl), rfl⟩⟩

/-- C3, failing input: `a` is `exTable` built with `exHash`; `b` constructed with
`exHash2`; `b = a`.  Key `17` is stored in `b`, yet `b.erase(17)` leaves the table as
it is: `size` stays 4. -/
theorem C3_erase_cross_functor :
    Reachable exHash2 exTable ∧ Stored exTable.arr_ (17, 170) ∧
    ∀ fuel, 8 ≤ fuel → erase exHash2 fuel exTable 17 = some exTable :=
  ⟨exTable_cross, ⟨3, rfl⟩, fun fuel h => erase_mono exHash2 h _ _ _ (by rfl)⟩

/-- C4, failing input: `a` built with `exHash` from `(1,10), (2,20), (3,30)`; `b`
constructed with `exHash3`; `b = a`.  `b.find(3)` succeeds (slot 3); after
`b.erase(1)` the pair `(3,30)` is still stored but `b.find(3)` gives the end
position. -/
theorem C4_erase_frame_cross_functor :
    Reachable exHash3 exTriple ∧ (3 : Nat) ≠ 1 ∧
    ∀ fuel, 8 ≤ fuel → find exHash3 fuel exTriple 3 = some 3 ∧
      ∃ t1, erase exHash3 fuel exTriple 1 = some t1 ∧ Stored t1.arr_ (3, 30) ∧
        find exHash3 fuel t1 3 = some t1.arr_.length :=
  ⟨exTriple_cross, by decide,
    fun fuel h =>
      ⟨find_mono exHash3 h _ _ _ (by rfl),
        HashMap.mk 2 [none, none, some (2, 20), some (3, 30), none, none, none, none],
        erase_mono exHash3 h _ _ _ (by rfl), ⟨3, rfl⟩, find_mono exHash3 h _ _ _ (by rfl)⟩⟩

/-- C5, failing input: `a` is `exTable` built with `exHash`; `b` constructed with
`exHash2`; `b = a`.  Slot 3 of `b` holds key `17`, yet `b.find(17)` returns the end
position `capacity`. -/
theorem C5_find_cross_functor :
    Reachable exHash2 exTable ∧ slot exTable.arr_ 3 = some (17, 170) ∧
    ∀ fuel, 8 ≤ fuel → find exHash2 fuel exTable 17 = some exTable.arr_.length :=
  ⟨exTable_cross, rfl, fun fuel h => find_mono exHash2 h _ _ _ (by rfl)⟩

/-- C6, failing input: `a` is `exTable` built with `exHash`; `b` constructed with
`exHash2`; `b = a`.  Key `17` is stored in `b` with value `170`, yet `b.at(17)` fails
with `out_of_range`. -/
theorem C6_at_cross_functor :
    Reachable exHash2 exTable ∧ Stored exTable.arr_ (17, 170) ∧
    ∀ fuel, 8 ≤ fuel →
      at_ exHash2 fuel exTable 17 = some (Except.error Error.out_of_range) :=
  ⟨exTable_cross, ⟨3, rfl⟩, fun fuel h => at_mono exHash2 h _ _ _ (by rfl)⟩

/-- C7, failing input: `a` built with `exHash` from `(1,10), (3,30)`; `b` constructed
with `exHash2`; `b = a`.  Key `3` is stored in `b` with value `30`, yet `b[3]` inserts
a second pair `(3, 0)`: the reference reads the default value `0` and `size` grows
from 2 to 3. -/
theorem C7_subscript_cross_functor :
    Reachable exHash2 exPair ∧ Stored exPair.arr_ (3, 30) ∧
    ∀ fuel, 18 ≤ fuel → ∃ pos t1, subscript exHash2 fuel exPair 3 = some (pos, t1) ∧
      read_ref t1 pos = some 0 ∧ size t1 = size exPair + 1 :=
  ⟨exPair_cross, ⟨3, rfl⟩,
    fun fuel h =>
      ⟨2, HashMap.mk 3 [none, some (1, 10), some (3, 0), some (3, 30), none, none, none, none],
        subscript_mono exHash2 h _ _ _ (by rfl), rfl, rfl⟩⟩

/-- C13, failing input: the source `s` is the table `b` after `b = a`, with `a` the
table `exTable` built with `exHash` and `b` constructed with `exHash2`.  Key `9` is
stored in `s` and `s.find(9)` gives the end position, while in the copy
`HashMap c(s)` (functor `exHash2`) `c.find(9)` succeeds. -/
theorem C13_copy_construct_cross_functor :
    Reachable exHash2 exTable ∧ Stored exTable.arr_ (9, 90) ∧
    ∀ fuel, 34 ≤ fuel → find exHash2 fuel exTable 9 = some exTable.arr_.length ∧
      ∃ t, copy_construct exHash2 fuel exTable = some t ∧ find exHash2 fuel t 9 = some 5 ∧
        5 < t.arr_.length :=
  ⟨exTable_cross, ⟨2, rfl⟩,
    fun fuel h =>
      ⟨find_mono exHash2 (by omega : 8 ≤ fuel) _ _ _ (by rfl),
        HashMap.mk 4 [none, none, none, none, some (1, 10), some (9, 90), some (17, 170),
          some (2, 20)],
        copy_construct_mono exHash2 h _ _ (by rfl),
        find_mono exHash2 (by omega : 8 ≤ fuel) _ _ _ (by rfl), by decide⟩⟩

/-- C17, failing input: `a` is `exTable` built with `exHash`; `b` constructed with
`exHash2`; `b = a`.  `b.find(9)` gives the end position; after `b.insert({25,250})`,
which rehashes with the functor of `b`, `b.find(9)` succeeds (slot 12). -/
theorem C17_insert_frame_cross_functor :
    Reachable exHash2 exTable ∧ (9 : Nat) ≠ 25 ∧
    ∀ fuel, 18 ≤ fuel → find exHash2 fuel exTable 9 = some exTable.arr_.length ∧
      ∃ t1, insert exHash2 fuel exTable (25, 250) = some t1 ∧
        find exHash2 fuel t1 9 = some 12 ∧ 12 < t1.arr_.length :=
  ⟨exTable_cross, by decide,
    fun fuel h =>
      ⟨find_mono exHash2 (by omega : 8 ≤ fuel) _ _ _ (by rfl),
        HashMap.mk 5 [none, none, none, none, some (1, 10), some (17, 170), none, some (2, 20),
          none, none, none, none, some (9, 90), some (25, 250), none, none],
        insert_mono exHash2 h _ _ _ (by rfl),
        find_mono exHash2 (by omega : 16 ≤ fuel) _ _ _ (by rfl), by decide⟩⟩

/-- C18, failing input: `a` is `exTable` built with `exHash`; `b` constructed with
`exHash2`; `b = a`.  Slot 1 of `b` holds key `1`, whose ideal index under the functor
of `b` is 4; slot 5 lies on the forward walk from 4 to 1 and is empty. -/
theorem C18_no_tombstone_cross_functor :
    Reachable exHash2 exTable ∧ slot exTable.arr_ 1 = some (1, 10) ∧
    gen_place exHash2 exTable.arr_.length 1 = 4 ∧ 5 < exTable.arr_.length ∧
    distance exTable.arr_.length 4 5 ≤ distance exTable.arr_.length 4 1 ∧
    slot exTable.arr_ 5 = none :=
  ⟨exTable_cross, rfl, by decide, by decide, by decide, rfl⟩

/-- C19, failing input: `a` built with `exHash` from `(1,10), (3,30)`; `b` constructed
with `exHash2`; `b = a; b.insert({3,99})`.  Slots 2 and 3 of `b` both hold key `3`. -/
theorem C19_unique_keys_cross_functor :
    Reachable exHash2 exDup ∧ slot exDup.arr_ 2 = some (3, 99) ∧
    slot exDup.arr_ 3 = some (3, 30) ∧ (2 : Nat) ≠ 3 :=
  ⟨exDup_cross, rfl, rfl, by decide⟩

end RobinHood
